import Mathlib

/-!
Claim scanner and CSV serializer of `convert-csv-simple/route.js`

A shallow embedding of `parseHealthcareClaims`, `convertToCSV` and `escapeCSV`.

* JavaScript strings are modelled as lists of characters (`Str`).
* The regular expressions of the source are written as lists of atoms and run
  by a backtracking matcher with the ECMAScript order of alternatives (greedy
  quantifiers try the longest repetition first, lazy ones the shortest, an
  unanchored pattern tries every start position from the left).
* An access `lines[j]` outside the array gives `undefined`; calling a method on
  it throws a `TypeError`, modelled by `Res.typeError`.
* The `while` loop is run with fuel, one unit per line; `Res.outOfFuel` marks
  exhausted fuel and `parse_fuel_enough` shows that it never comes out.
-/

namespace PdfCsv

set_option maxRecDepth 100000

abbrev Str := List Char

/-! ## Character classes -/

/-- The class `\s` of ECMAScript (WhiteSpace and LineTerminator code points);
the same set is removed by `String.prototype.trim`. -/
def isWs (c : Char) : Bool :=
  let n := c.toNat
  n == 32 || n == 9 || n == 10 || n == 11 || n == 12 || n == 13 || n == 160 ||
  n == 5760 || (8192 ≤ n && n ≤ 8202) || n == 8232 || n == 8233 || n == 8239 ||
  n == 8287 || n == 12288 || n == 65279

/-- The class `\S`. -/
def isNonWs (c : Char) : Bool := !isWs c

/-- The class `\d` (ASCII digits only). -/
def isDigit (c : Char) : Bool := 48 ≤ c.toNat && c.toNat ≤ 57

/-- The class `.` without the `s` flag: everything but a line terminator. -/
def isDot (c : Char) : Bool :=
  let n := c.toNat
  !(n == 10 || n == 13 || n == 8232 || n == 8233)

/-- The class `[\d.-]` (also written `[\-\d.]` in the source). -/
def isNumCh (c : Char) : Bool := isDigit c || c == '.' || c == '-'

/-! ## String primitives -/

/-- The method `text.split('\n')`. -/
def splitLines : Str → List Str
  | [] => [[]]
  | c :: cs =>
    if c == '\n' then [] :: splitLines cs
    else
      match splitLines cs with
      | l :: ls => (c :: l) :: ls
      | [] => [[c]]

/-- The replacement `s.replace(/\s+/g, ' ')`; the flag tells that the previous
character belonged to the run being replaced. -/
def collapseAux : Bool → Str → Str
  | _, [] => []
  | inRun, c :: cs =>
    if isWs c then
      if inRun then collapseAux true cs else ' ' :: collapseAux true cs
    else c :: collapseAux false cs

def collapseWs (s : Str) : Str := collapseAux false s

def trimStart (s : Str) : Str := s.dropWhile isWs

def trimEnd (s : Str) : Str := (s.reverse.dropWhile isWs).reverse

/-- The method `s.trim()`. -/
def trim (s : Str) : Str := trimEnd (trimStart s)

/-- The expression `line.replace(/\s+/g, ' ').trim()`. -/
def normalize (s : Str) : Str := trim (collapseWs s)

/-- The method `s.includes(sub)`. -/
def includes : Str → Str → Bool
  | [], sub => sub.isEmpty
  | c :: cs, sub => sub.isPrefixOf (c :: cs) || includes cs sub

/-- The method `s.split(/\s+/)`; the flag tells that the previous character
belonged to a separator. -/
def splitWsAux : Bool → Str → List Str
  | _, [] => [[]]
  | inSep, c :: cs =>
    if isWs c then
      if inSep then splitWsAux true cs else [] :: splitWsAux true cs
    else
      match splitWsAux false cs with
      | t :: ts => (c :: t) :: ts
      | [] => [[c]]

def splitWs (s : Str) : List Str := splitWsAux false s

/-! ## Regular expressions -/

/-- The pieces the patterns of the source are made of. -/
inductive Atom where
  /-- A literal string. -/
  | lit (s : Str)
  /-- A class repeated exactly `n` times: `\d{2}`, `\d{8}`, a single `\s`. -/
  | exact (p : Char → Bool) (n : Nat)
  /-- A class repeated `lo` times or more: greedy (`+`, `*`) or lazy (`+?`),
  inside a capture group when `cap` is set. -/
  | many (p : Char → Bool) (lo : Nat) (greedy : Bool) (cap : Bool)
  /-- The assertion `$`. -/
  | eos

/-- Drop the literal `l` from the front of `s`. -/
def stripLit : Str → Str → Option Str
  | [], s => some s
  | _ :: _, [] => none
  | a :: l, c :: cs => if a == c then stripLit l cs else none

/-- Drop exactly `n` characters of class `p` from the front of `s`. -/
def stripExact (p : Char → Bool) : Nat → Str → Option Str
  | 0, s => some s
  | _ + 1, [] => none
  | n + 1, c :: cs => if p c then stripExact p n cs else none

/-- A quantified class followed by the continuation `k`: `acc` holds the
characters taken so far and `lo` how many more are required. A greedy
quantifier first tries to take one more character, a lazy one first tries to
stop. -/
def manyK {β : Type} (p : Char → Bool) (greedy : Bool) (k : Str → Str → Option β) :
    Nat → Str → Str → Option β
  | lo, acc, [] => if lo = 0 then k acc [] else none
  | lo, acc, c :: cs =>
    let more := if p c then manyK p greedy k (lo - 1) (acc ++ [c]) cs else none
    let stop := if lo = 0 then k acc (c :: cs) else none
    if greedy then
      match more with
      | some r => some r
      | none => stop
    else
      match stop with
      | some r => some r
      | none => more

/-- Match the pattern at the front of `s`; the result lists the captured
groups in order. -/
def matchHere : List Atom → Str → Option (List Str)
  | [], _ => some []
  | Atom.lit l :: re, s =>
    match stripLit l s with
    | some s1 => matchHere re s1
    | none => none
  | Atom.exact p n :: re, s =>
    match stripExact p n s with
    | some s1 => matchHere re s1
    | none => none
  | Atom.many p lo greedy cap :: re, s =>
    manyK p greedy
      (fun acc s1 =>
        match matchHere re s1 with
        | some caps => some (if cap then acc :: caps else caps)
        | none => none)
      lo [] s
  | Atom.eos :: re, s =>
    match s with
    | [] => matchHere re []
    | _ :: _ => none

/-- An unanchored pattern: the leftmost start position that matches. -/
def search (re : List Atom) : Str → Option (List Str)
  | [] => matchHere re []
  | c :: cs =>
    match matchHere re (c :: cs) with
    | some caps => some caps
    | none => search re cs

def ws1 : Atom := Atom.many isWs 1 true false
def ws0 : Atom := Atom.many isWs 0 true false

/-- The pattern
`/PATIENT:\s+(.+?)\s+PATIENT ID #:\s+(\d+)\s+PAT CTRL #:\s+(\S+)\s+CLM #:\s+(\d+)/`. -/
def patientRe : List Atom :=
  [Atom.lit "PATIENT:".toList, ws1, Atom.many isDot 1 false true, ws1,
   Atom.lit "PATIENT ID #:".toList, ws1, Atom.many isDigit 1 true true, ws1,
   Atom.lit "PAT CTRL #:".toList, ws1, Atom.many isNonWs 1 true true, ws1,
   Atom.lit "CLM #:".toList, ws1, Atom.many isDigit 1 true true]

/-- The pattern
`/CLAIM STATUS:\s+(\S+)\s+CLAIM TYPE:\s+(\S+)\s+AUTH\/REF#\s*:\s*(\S*)/`. -/
def statusRe : List Atom :=
  [Atom.lit "CLAIM STATUS:".toList, ws1, Atom.many isNonWs 1 true true, ws1,
   Atom.lit "CLAIM TYPE:".toList, ws1, Atom.many isNonWs 1 true true, ws1,
   Atom.lit "AUTH/REF#".toList, ws0, Atom.lit ":".toList, ws0,
   Atom.many isNonWs 0 true true]

/-- The pattern `/REND PROV:\s*([^\s]*)\s*REND PROV ID:\s*(\S*)/`. -/
def providerRe : List Atom :=
  [Atom.lit "REND PROV:".toList, ws0, Atom.many isNonWs 0 true true, ws0,
   Atom.lit "REND PROV ID:".toList, ws0, Atom.many isNonWs 0 true true]

/-- The pattern `/^\d{2}\s+\d{8}\s+\d{8}\s/`. -/
def serviceRe : List Atom :=
  [Atom.exact isDigit 2, ws1, Atom.exact isDigit 8, ws1, Atom.exact isDigit 8,
   Atom.exact isWs 1]

/-- The pattern `/^\d{2}$/`. -/
def twoDigitsRe : List Atom := [Atom.exact isDigit 2, Atom.eos]

/-- The pattern
`/PAT RESP:\s+([\d.-]+)\s+TOTAL CHARGE:\s+([\-\d.]+)\s+TOTAL PAYMENT:\s+([\d.-]+)/`. -/
def patRespRe : List Atom :=
  [Atom.lit "PAT RESP:".toList, ws1, Atom.many isNumCh 1 true true, ws1,
   Atom.lit "TOTAL CHARGE:".toList, ws1, Atom.many isNumCh 1 true true, ws1,
   Atom.lit "TOTAL PAYMENT:".toList, ws1, Atom.many isNumCh 1 true true]

/-- What a successful match of a pattern at the front of a string says about
the string and the captured groups. -/
def Sound : List Atom → Str → List Str → Prop
  | [], _, caps => caps = []
  | Atom.lit l :: re, s, caps => ∃ s1, s = l ++ s1 ∧ Sound re s1 caps
  | Atom.exact p n :: re, s, caps =>
    ∃ t s1, s = t ++ s1 ∧ t.length = n ∧ (∀ c ∈ t, p c = true) ∧ Sound re s1 caps
  | Atom.many p lo _ cap :: re, s, caps =>
    ∃ t s1 caps1, s = t ++ s1 ∧ lo ≤ t.length ∧ (∀ c ∈ t, p c = true) ∧
      Sound re s1 caps1 ∧ caps = (if cap then t :: caps1 else caps1)
  | Atom.eos :: re, s, caps => s = [] ∧ Sound re [] caps

/-! ## Records -/

/-- The 25 fields of a claim record, in the order of the object literal. -/
structure Claim where
  patientName : Str
  patientId : Str
  patientControlNumber : Str
  claimNumber : Str
  claimStatus : Str
  claimType : Str
  authRefNumber : Str
  renderingProvider : Str
  renderingProviderId : Str
  lineItem : Str
  dosStartDate : Str
  dosEndDate : Str
  procedureCode : Str
  modifier : Str
  charge : Str
  nbr : Str
  grpCd : Str
  adjRsn : Str
  adjAmt : Str
  adjQty : Str
  pdQty : Str
  payment : Str
  patientResponsibility : Str
  totalCharge : Str
  totalPayment : Str
  deriving DecidableEq, Repr

/-- The object literal that opens a claim: every field is the empty string. -/
def emptyClaim : Claim :=
  { patientName := [], patientId := [], patientControlNumber := [], claimNumber := [],
    claimStatus := [], claimType := [], authRefNumber := [],
    renderingProvider := [], renderingProviderId := [],
    lineItem := [], dosStartDate := [], dosEndDate := [], procedureCode := [],
    modifier := [], charge := [], nbr := [], grpCd := [], adjRsn := [], adjAmt := [],
    adjQty := [], pdQty := [], payment := [],
    patientResponsibility := [], totalCharge := [], totalPayment := [] }

/-- What a computation of the scanner ends with. -/
inductive Res (α : Type) where
  | ok (v : α)
  | typeError
  | outOfFuel
  deriving DecidableEq, Repr

/-! ## The scanner -/

/-- The condition of the `if` that opens a record (source line 27). -/
def anchorTest (nl : Str) : Bool :=
  !nl.isEmpty && includes nl "PATIENT:".toList && includes nl "PATIENT ID #:".toList &&
    includes nl "PAT CTRL #:".toList && includes nl "CLM #:".toList

/-- Source lines 66-72: the patient line. -/
def setPatient (c : Claim) (nl : Str) : Claim :=
  match search patientRe nl with
  | some [n, d, p, m] =>
    { c with patientName := trim n, patientId := d, patientControlNumber := p,
             claimNumber := m }
  | _ => c

/-- Source lines 77-84: the claim status line, already normalized. -/
def setStatus (c : Claim) (statusLine : Str) : Claim :=
  match search statusRe statusLine with
  | some [s, t, r] => { c with claimStatus := s, claimType := t, authRefNumber := r }
  | _ => c

/-- Source lines 90-96: the provider line, matched raw. -/
def setProvider (c : Claim) (providerLine : Str) : Claim :=
  match search providerRe providerLine with
  | some [n, d] => { c with renderingProvider := n, renderingProviderId := d }
  | _ => c

/-- The test `currentLine.match(/^\d{2}\s+\d{8}\s+\d{8}\s/)`. -/
def serviceMatch (cur : Str) : Bool := (matchHere serviceRe cur).isSome

/-- The value of `currentLine.trim().split(/\s+/)`. -/
def serviceParts (cur : Str) : List Str := splitWs (trim cur)

/-- The test `parts.length >= 13 && parts[0].match(/^\d{2}$/)`. -/
def partsOk (parts : List Str) : Bool :=
  decide (13 ≤ parts.length) && (matchHere twoDigitsRe (parts.getD 0 [])).isSome

/-- Both tests a line has to pass for its tokens to be taken. -/
def qualifies (cur : Str) : Bool := serviceMatch cur && partsOk (serviceParts cur)

/-- The thirteen assignments from `parts[0]` to `parts[12]`. -/
def setService (c : Claim) (parts : List Str) : Claim :=
  { c with
    lineItem := parts.getD 0 [], dosStartDate := parts.getD 1 [],
    dosEndDate := parts.getD 2 [], procedureCode := parts.getD 3 [],
    modifier := parts.getD 4 [], charge := parts.getD 5 [], nbr := parts.getD 6 [],
    grpCd := parts.getD 7 [], adjRsn := parts.getD 8 [], adjAmt := parts.getD 9 [],
    adjQty := parts.getD 10 [], pdQty := parts.getD 11 [], payment := parts.getD 12 [] }

/-- Source lines 133-139: the line that contains `PAT RESP:`. -/
def setSummary (c : Claim) (patRespLine : Str) : Claim :=
  match search patRespRe (normalize patRespLine) with
  | some [x, y, z] =>
    { c with patientResponsibility := x, totalCharge := y, totalPayment := z }
  | _ => c

/-- The loop `for (k = j + 1; k < Math.min(j + 5, lines.length); k++)`: `n` is
the number of iterations left and `k` the loop variable. -/
def summaryLoop (lines : List Str) : Nat → Nat → Claim → Res Claim
  | 0, _, c => Res.ok c
  | n + 1, k, c =>
    match lines[k]? with
    | none => Res.typeError
    | some patRespLine =>
      if includes patRespLine "PAT RESP:".toList then Res.ok (setSummary c patRespLine)
      else summaryLoop lines n (k + 1) c

/-- The loop `for (j = i + 1; j < searchLimit; j++)`: `n` is the number of
iterations left and `j` the loop variable. The result holds
`foundServiceLine` and the claim. -/
def forwardLoop (lines : List Str) : Nat → Nat → Claim → Res (Bool × Claim)
  | 0, _, c => Res.ok (false, c)
  | n + 1, j, c =>
    match lines[j]? with
    | none => Res.typeError
    | some cur =>
      if serviceMatch cur then
        if partsOk (serviceParts cur) then
          match summaryLoop lines (min (j + 5) lines.length - (j + 1)) (j + 1)
              (setService c (serviceParts cur)) with
          | Res.ok c1 => Res.ok (true, c1)
          | Res.typeError => Res.typeError
          | Res.outOfFuel => Res.outOfFuel
        else forwardLoop lines n (j + 1) c
      else forwardLoop lines n (j + 1) c

/-- The loop `for (j = i - 1; j >= Math.max(0, i - 10); j--)`: `n` is the
number of iterations left and `j` the loop variable. -/
def backwardLoop (lines : List Str) : Nat → Nat → Claim → Res Claim
  | 0, _, c => Res.ok c
  | n + 1, j, c =>
    match lines[j]? with
    | none => Res.typeError
    | some cur =>
      if serviceMatch cur then
        if partsOk (serviceParts cur) then Res.ok (setService c (serviceParts cur))
        else backwardLoop lines n (j - 1) c
      else backwardLoop lines n (j - 1) c

/-- Source lines 63-97 for an anchor at index `a` whose normalized form is
`nl`: the patient line, then the status line at `a + 1` and the provider line
at `a + 2`, each read only when `i < lines.length`. -/
def claimHead (lines : List Str) (a : Nat) (nl : Str) : Claim :=
  let c0 := setPatient emptyClaim nl
  let c1 :=
    match lines[a + 1]? with
    | some l => setStatus c0 (normalize l)
    | none => c0
  match lines[a + 2]? with
  | some l => setProvider c1 l
  | none => c1

/-- The body of the `if` of source line 27 for an anchor at index `a` whose
normalized form is `nl`, up to `claims.push(claim)`. The cursor `i` of the
source is `a + 2` once the two `i++` are done.  The backward loop runs over
`j = i - 1, ..., max(0, i - 10)`, that is `i - (i - 10)` times in
natural-number arithmetic. -/
def claimBody (lines : List Str) (a : Nat) (nl : Str) : Res Claim :=
  let c2 := claimHead lines a nl
  let i := a + 2
  let searchLimit := min (i + 20) lines.length
  match forwardLoop lines (searchLimit - (i + 1)) (i + 1) c2 with
  | Res.ok (true, c3) => Res.ok c3
  | Res.ok (false, c3) => backwardLoop lines (i - (i - 10)) (i - 1) c3
  | Res.typeError => Res.typeError
  | Res.outOfFuel => Res.outOfFuel

/-- The `while (i < lines.length)` loop, run with fuel. -/
def scan (lines : List Str) : Nat → Nat → List Claim → Res (List Claim)
  | 0, i, claims => if i < lines.length then Res.outOfFuel else Res.ok claims
  | fuel + 1, i, claims =>
    match lines[i]? with
    | none => Res.ok claims
    | some line =>
      let nl := normalize line
      if anchorTest nl then
        match claimBody lines i nl with
        | Res.ok c => scan lines fuel (i + 2 + 1) (claims ++ [c])
        | Res.typeError => Res.typeError
        | Res.outOfFuel => Res.outOfFuel
      else scan lines fuel (i + 1) claims

/-- The function `parseHealthcareClaims`; one unit of fuel per line. -/
def parseHealthcareClaims (text : Str) : Res (List Claim) :=
  let lines := splitLines text
  scan lines lines.length 0 []

/-! ## The serializer -/

/-- The replacement `value.replace(/"/g, '""')`. -/
def doubleQuotes : Str → Str
  | [] => []
  | c :: cs => if c == '"' then '"' :: '"' :: doubleQuotes cs else c :: doubleQuotes cs

/-- The tests `value.includes(',') || value.includes('\n') || value.includes('"')`. -/
def needsQuotes (v : Str) : Bool := v.contains ',' || v.contains '\n' || v.contains '"'

/-- The function `escapeCSV`; `none` stands for `null` and `undefined`. -/
def escapeCSV : Option Str → Str
  | none => []
  | some v => if needsQuotes v then '"' :: (doubleQuotes v ++ ['"']) else v

/-- The array `headers`. -/
def headers : List Str :=
  ["Patient Name".toList, "Patient ID".toList, "Patient Control Number".toList,
   "Claim Number".toList, "Claim Status".toList, "Claim Type".toList,
   "Auth/Ref Number".toList, "Rendering Provider".toList,
   "Rendering Provider ID".toList, "Line Item".toList, "DOS Start Date".toList,
   "DOS End Date".toList, "Procedure Code".toList, "Modifier".toList, "Charge".toList,
   "NBR".toList, "Group Code".toList, "Adj Reason".toList, "Adj Amount".toList,
   "Adj Qty".toList, "PD Qty".toList, "Payment".toList,
   "Patient Responsibility".toList, "Total Charge".toList, "Total Payment".toList]

/-- The array `row` built from a record. -/
def rowOf (r : Claim) : List Str :=
  [r.patientName, r.patientId, r.patientControlNumber, r.claimNumber, r.claimStatus,
   r.claimType, r.authRefNumber, r.renderingProvider, r.renderingProviderId,
   r.lineItem, r.dosStartDate, r.dosEndDate, r.procedureCode, r.modifier, r.charge,
   r.nbr, r.grpCd, r.adjRsn, r.adjAmt, r.adjQty, r.pdQty, r.payment,
   r.patientResponsibility, r.totalCharge, r.totalPayment]

/-- The method `fields.join(',')`. -/
def joinComma : List Str → Str
  | [] => []
  | [x] => x
  | x :: y :: zs => x ++ ',' :: joinComma (y :: zs)

def crlf : Str := ['\r', '\n']

/-- One line of output: `fields.map(f => escapeCSV(f)).join(',') + '\r\n'`. -/
def csvLine (fields : List Str) : Str :=
  joinComma (fields.map fun f => escapeCSV (some f)) ++ crlf

/-- The loop that appends one row per record to `csvContent`. -/
def appendRows (csvContent : Str) : List Claim → Str
  | [] => csvContent
  | r :: rs => appendRows (csvContent ++ csvLine (rowOf r)) rs

/-- The function `convertToCSV`. -/
def convertToCSV (records : List Claim) : Str :=
  if records.length = 0 then "No data found in the PDF".toList
  else appendRows (csvLine headers) records

/-! ## Notions used to state the properties -/

/-- No two neighbouring characters are both white space. -/
def NoWsPair (s : Str) : Prop :=
  List.Chain' (fun x y => ¬(isWs x = true ∧ isWs y = true)) s

/-- A string without white space. -/
def Token (t : Str) : Prop := ∀ c ∈ t, isWs c = false

/-- Words separated by single spaces: the only white space is the space
character, never twice in a row and neither first nor last. -/
def SpacedWords (n : Str) : Prop :=
  (∀ c ∈ n, isWs c = true → c = ' ') ∧ NoWsPair n ∧
    (∀ d ∈ n.head?, isWs d = false) ∧ (∀ d ∈ n.getLast?, isWs d = false)

/-- A record whose name is made of words separated by single spaces and
whose other fields hold no white space. -/
def RecordSafe (r : Claim) : Prop :=
  SpacedWords r.patientName ∧ ∀ f ∈ (rowOf r).tail, Token f

/-- Every capture group of the pattern is over a class without white space. -/
def CapsNonWs : List Atom → Prop
  | [] => True
  | Atom.many p _ _ true :: re => (∀ c, p c = true → isWs c = false) ∧ CapsNonWs re
  | _ :: re => CapsNonWs re

/-- Whether the text read so far ends in white space: `b` before `s`, then
the last character of `s` if there is one. -/
def endsInWs (b : Bool) (s : Str) : Bool :=
  match s.getLast? with
  | some c => isWs c
  | none => b

/-- Tokens joined by single spaces. -/
def unwords : List Str → Str
  | [] => []
  | [t] => t
  | t :: u :: ts => t ++ ' ' :: unwords (u :: ts)

instance (t : Str) : Decidable (Token t) :=
  inferInstanceAs (Decidable (∀ c ∈ t, isWs c = false))

/-- An anchor line as the report prints it. -/
def anchorLine (N D C M : Str) : Str :=
  "PATIENT: ".toList ++ N ++ "   PATIENT ID #: ".toList ++ D ++ "   PAT CTRL #: ".toList ++
    C ++ "   CLM #: ".toList ++ M

/-- A payment-summary line as the report prints it. -/
def summaryLine (x y z : Str) : Str :=
  "PAT RESP: ".toList ++ x ++ " TOTAL CHARGE: ".toList ++ y ++ " TOTAL PAYMENT: ".toList ++ z

/-- The line at index `j`, the empty line outside the document. -/
def lineAt (lines : List Str) (j : Nat) : Str := lines.getD j []

/-- The anchor test on the normalized form of line `j`. -/
def lineTest (lines : List Str) (j : Nat) : Bool := anchorTest (normalize (lineAt lines j))

/-- The greedy choice from the top, as the pair of the verdicts for line `a`
and for line `a - 1`: line `a` is chosen iff it passes the anchor test and
neither of the two lines before it was chosen. -/
def chosenPair (lines : List Str) : Nat → Bool × Bool
  | 0 => (lineTest lines 0, false)
  | a + 1 =>
    let p := chosenPair lines a
    (lineTest lines (a + 1) && !p.1 && !p.2, p.1)

/-- Line `a` is chosen by the greedy choice. -/
def chosen (lines : List Str) (a : Nat) : Bool := (chosenPair lines a).1

/-- The chosen line indices in document order. -/
def anchors (lines : List Str) : List Nat :=
  (List.range lines.length).filter (chosen lines)

/-- The record the scanner builds for an anchor at line `a`. -/
def recordAt (lines : List Str) (a : Nat) : Res Claim :=
  claimBody lines a (normalize (lineAt lines a))

/-- The cursor stands on a line neither of whose two predecessors was chosen. -/
def Fresh (lines : List Str) (i : Nat) : Prop :=
  i = 0 ∨ chosenPair lines (i - 1) = (false, false)

/-- A qualifying service line: the raw text starts with a two-digit token,
white space, an 8-digit token, white space, an 8-digit token and white space,
and the line has at least 13 tokens. -/
def isServiceLine (l : Str) : Bool :=
  serviceMatch l && decide (13 ≤ (serviceParts l).length)

/-- The scan of `text` returns, and the record it holds for the chosen line
`a` (the `k`-th record for the `k`-th chosen line) is `r`. -/
def Emits (text : Str) (a : Nat) (r : Claim) : Prop :=
  ∃ (rs : List Claim) (k : Nat), parseHealthcareClaims text = Res.ok rs ∧
    (anchors (splitLines text))[k]? = some a ∧ rs[k]? = some r

/-- The thirteen service fields of a record, in order. -/
def serviceFields (r : Claim) : List Str :=
  [r.lineItem, r.dosStartDate, r.dosEndDate, r.procedureCode, r.modifier, r.charge,
   r.nbr, r.grpCd, r.adjRsn, r.adjAmt, r.adjQty, r.pdQty, r.payment]

/-- The three payment-summary fields of a record, in order. -/
def summaryFields (r : Claim) : List Str :=
  [r.patientResponsibility, r.totalCharge, r.totalPayment]

/-- The four identity fields of a record, in order. -/
def identityFields (r : Claim) : List Str :=
  [r.patientName, r.patientId, r.patientControlNumber, r.claimNumber]

/-- The status and provider fields of a record, in order. -/
def statusProviderFields (r : Claim) : List Str :=
  [r.claimStatus, r.claimType, r.authRefNumber, r.renderingProvider,
   r.renderingProviderId]

/-- Where the reader of a table stands: in an unquoted stretch, just after a
carriage return of an unquoted stretch, inside quotes, or just after a double
quote met inside quotes. -/
inductive Mode where
  | plain
  | cr
  | quoted
  | quote
  deriving DecidableEq, Repr

/-- Re-splitting a table by the escaping rule: a row ends at a CRLF outside
quotes, fields are separated by commas outside quotes, a field that opens
with a double quote runs to its closing quote and a doubled quote inside it
stands for one quote.  `f` is the field read so far and `row` the fields of
the current row. -/
def resplit : Mode → Str → List Str → Str → List (List Str)
  | Mode.plain, f, row, [] => if f.isEmpty && row.isEmpty then [] else [row ++ [f]]
  | Mode.cr, f, row, [] => [row ++ [f ++ ['\r']]]
  | Mode.quoted, f, row, [] => [row ++ [f]]
  | Mode.quote, f, row, [] => [row ++ [f]]
  | Mode.plain, f, row, c :: rest =>
    if c == ',' then resplit Mode.plain [] (row ++ [f]) rest
    else if c == '"' && f.isEmpty then resplit Mode.quoted [] row rest
    else if c == '\r' then resplit Mode.cr f row rest
    else resplit Mode.plain (f ++ [c]) row rest
  | Mode.cr, f, row, c :: rest =>
    if c == '\n' then (row ++ [f]) :: resplit Mode.plain [] [] rest
    else if c == ',' then resplit Mode.plain [] (row ++ [f ++ ['\r']]) rest
    else if c == '\r' then resplit Mode.cr (f ++ ['\r']) row rest
    else resplit Mode.plain (f ++ ['\r', c]) row rest
  | Mode.quoted, f, row, c :: rest =>
    if c == '"' then resplit Mode.quote f row rest
    else resplit Mode.quoted (f ++ [c]) row rest
  | Mode.quote, f, row, c :: rest =>
    if c == '"' then resplit Mode.quoted (f ++ ['"']) row rest
    else if c == ',' then resplit Mode.plain [] (row ++ [f]) rest
    else if c == '\r' then resplit Mode.cr f row rest
    else resplit Mode.plain (f ++ [c]) row rest

/-- What ends a field in the output: a comma, or the CRLF that ends the row. -/
def FieldEnd (tail : Str) : Prop :=
  (∃ rest, tail = ',' :: rest) ∨ (∃ rest, tail = '\r' :: '\n' :: rest)

/-- The rows of a table. -/
def resplitCSV (csv : Str) : List (List Str) := resplit Mode.plain [] [] csv

/-! ## Sample documents -/

def anchorJohn : Str :=
  ("PATIENT: JOHN SMITH   PATIENT ID #: 1234567800   PAT CTRL #: CLM00102102   " ++
   "CLM #: 2025007654321").toList

def anchorMary : Str :=
  ("PATIENT: MARY JONES   PATIENT ID #: 2234567811   PAT CTRL #: CLM00102103   " ++
   "CLM #: 2025007654399").toList

def anchorBadId : Str :=
  ("PATIENT: JOHN SMITH   PATIENT ID #: N/A   PAT CTRL #: CLM00102102   " ++
   "CLM #: 2025007654321").toList

def statusDenied : Str := "CLAIM STATUS: DENIED   CLAIM TYPE: HM   AUTH/REF# :".toList

def providerBlank : Str := "REND PROV:    REND PROV ID:".toList

def serviceA : Str := "01 20250101 20250105 99213 25 150.00 1 CO 45 10.00 1 1 140.00".toList

def serviceB : Str := "02 20240301 20240302 11111 26 80.00 2 PR 3 30.00 1 1 50.00".toList

def serviceA14 : Str :=
  "01 20250101 20250105 99213 25 150.00 1 CO 45 10.00 1 1 140.00 EXTRA".toList

def summaryA : Str := "PAT RESP: 0.00 TOTAL CHARGE: 150.00 TOTAL PAYMENT: 140.00".toList

def tokensA : List Str :=
  ["01".toList, "20250101".toList, "20250105".toList, "99213".toList, "25".toList,
   "150.00".toList, "1".toList, "CO".toList, "45".toList, "10.00".toList, "1".toList,
   "1".toList, "140.00".toList]

/-- Lines joined by line feeds. -/
def unlines : List Str → Str
  | [] => []
  | [l] => l
  | l :: m :: ls => l ++ '\n' :: unlines (m :: ls)

/-- The scenario of the specification. -/
def specScenario : Str :=
  unlines [anchorJohn, statusDenied, providerBlank, "LINE DOS CODE".toList, serviceA, summaryA]

/-- A document that ends with an anchor line. -/
def finalAnchorText : Str := anchorJohn

def noAnchorText : Str := unlines ["REMITTANCE ADVICE".toList, "PAGE 1 OF 1".toList, []]

/-- An anchor line whose patient ID is not a digit run. -/
def badIdText : Str := unlines [anchorBadId, statusDenied, providerBlank]

def anchorAloneText : Str := unlines [anchorJohn, "first".toList, "second".toList]

def forwardText : Str :=
  unlines [anchorJohn, statusDenied, providerBlank, serviceA14, serviceB]

def pageBreakText : Str :=
  unlines [serviceA, "PAGE 2".toList, "HEADER".toList, anchorJohn, statusDenied,
    providerBlank]

/-- The service line stands exactly 20 lines after the provider line. -/
def twentyAfterText : Str :=
  unlines ([anchorJohn, statusDenied, providerBlank] ++ List.replicate 19 ['x'] ++ [serviceA])

/-- The service line stands exactly 10 lines before the anchor. -/
def tenBeforeText : Str :=
  unlines ([serviceA] ++ List.replicate 9 ['x'] ++ [anchorJohn, statusDenied, providerBlank])

/-- The service line stands exactly 8 lines before the anchor. -/
def eightBeforeText : Str :=
  unlines ([serviceA] ++ List.replicate 7 ['x'] ++ [anchorJohn, statusDenied, providerBlank])

def bothSidesText : Str :=
  unlines [serviceB, anchorJohn, statusDenied, providerBlank, serviceA]

def unparseableSummaryText : Str :=
  unlines [anchorJohn, statusDenied, providerBlank, serviceA, "PAT RESP: N/A".toList,
    summaryA]

def summaryBeforeAnchorText : Str :=
  unlines [serviceA, summaryA, anchorJohn, statusDenied, providerBlank]

/-- The summary line stands exactly 5 lines after the service line. -/
def fiveAfterText : Str :=
  unlines ([anchorJohn, statusDenied, providerBlank, serviceA] ++ List.replicate 4 ['x'] ++
    [summaryA])

def labelsInStatusText : Str :=
  unlines [anchorJohn, anchorMary, providerBlank, anchorMary, statusDenied, providerBlank]

def twoBlocksText : Str :=
  unlines [anchorJohn, statusDenied, providerBlank, serviceA, summaryA, anchorMary,
    statusDenied, providerBlank]

/-- The record of the anchor `anchorJohn` followed by `statusDenied` and
`providerBlank`, before any service line is found. -/
def johnHead : Claim :=
  { emptyClaim with
    patientName := "JOHN SMITH".toList, patientId := "1234567800".toList,
    patientControlNumber := "CLM00102102".toList, claimNumber := "2025007654321".toList,
    claimStatus := "DENIED".toList, claimType := "HM".toList }

def maryHead : Claim :=
  { emptyClaim with
    patientName := "MARY JONES".toList, patientId := "2234567811".toList,
    patientControlNumber := "CLM00102103".toList, claimNumber := "2025007654399".toList,
    claimStatus := "DENIED".toList, claimType := "HM".toList }

/-- The record `johnHead` with the service line `serviceA`. -/
def johnService : Claim :=
  { johnHead with
    lineItem := "01".toList, dosStartDate := "20250101".toList,
    dosEndDate := "20250105".toList, procedureCode := "99213".toList,
    modifier := "25".toList, charge := "150.00".toList, nbr := "1".toList,
    grpCd := "CO".toList, adjRsn := "45".toList, adjAmt := "10.00".toList,
    adjQty := "1".toList, pdQty := "1".toList, payment := "140.00".toList }

/-- The record `maryHead` with the service line `serviceA`. -/
def maryService : Claim :=
  { maryHead with
    lineItem := "01".toList, dosStartDate := "20250101".toList,
    dosEndDate := "20250105".toList, procedureCode := "99213".toList,
    modifier := "25".toList, charge := "150.00".toList, nbr := "1".toList,
    grpCd := "CO".toList, adjRsn := "45".toList, adjAmt := "10.00".toList,
    adjQty := "1".toList, pdQty := "1".toList, payment := "140.00".toList }

/-- The record of the scenario of the specification. -/
def specRecord : Claim :=
  { johnService with
    patientResponsibility := "0.00".toList, totalCharge := "150.00".toList,
    totalPayment := "140.00".toList }

/-- The record of `badIdText`: status and type only. -/
def badIdRecord : Claim :=
  { emptyClaim with claimStatus := "DENIED".toList, claimType := "HM".toList }

/-- A field with a comma, quotes and a line feed. -/
def trickyField : Str := ['a', ',', '"', 'b', '"', '\n', 'c']

/-! ## The matcher -/

theorem stripLit_append (l u : Str) : stripLit l (l ++ u) = some u := by
  induction l with
  | nil => cases u <;> rfl
  | cons a l ih => simp [stripLit, ih]

theorem stripLit_some {l s s1 : Str} (h : stripLit l s = some s1) : s = l ++ s1 := by
  induction l generalizing s with
  | nil => cases s <;> simp_all [stripLit]
  | cons a l ih =>
    cases s with
    | nil => simp [stripLit] at h
    | cons c cs =>
      simp only [stripLit] at h
      split at h
      · rename_i hac
        have h1 := ih h
        have h2 : a = c := by simpa using hac
        simp [h1, h2]
      · cases h

theorem stripExact_some {p : Char → Bool} {n : Nat} {s s1 : Str}
    (h : stripExact p n s = some s1) :
    ∃ t, s = t ++ s1 ∧ t.length = n ∧ ∀ c ∈ t, p c = true := by
  induction n generalizing s with
  | zero => exact ⟨[], by simp_all [stripExact]⟩
  | succ n ih =>
    cases s with
    | nil => simp [stripExact] at h
    | cons c cs =>
      simp only [stripExact] at h
      split at h
      · rename_i hc
        obtain ⟨t, h1, h2, h3⟩ := ih h
        exact ⟨c :: t, by simp [h1], by simp [h2], by
          intro d hd
          rcases List.mem_cons.1 hd with rfl | hd
          · exact hc
          · exact h3 d hd⟩
      · cases h

theorem stripExact_append {p : Char → Bool} (t u : Str) (ht : ∀ c ∈ t, p c = true) :
    stripExact p t.length (t ++ u) = some u := by
  induction t with
  | nil => rfl
  | cons a t ih =>
    have ha : p a = true := ht a (by simp)
    simp [stripExact, ha, ih (fun c hc => ht c (by simp [hc]))]

theorem manyK_some {β : Type} {p : Char → Bool} {g : Bool} {k : Str → Str → Option β}
    {r : β} : ∀ (s : Str) (lo : Nat) (acc : Str), manyK p g k lo acc s = some r →
      ∃ t s1, s = t ++ s1 ∧ lo ≤ t.length ∧ (∀ c ∈ t, p c = true) ∧
        k (acc ++ t) s1 = some r := by
  intro s
  induction s with
  | nil =>
    intro lo acc h
    simp only [manyK] at h
    split at h
    · rename_i h0
      exact ⟨[], [], rfl, by simp [h0], by simp, by simpa using h⟩
    · cases h
  | cons c cs ih =>
    intro lo acc h
    have more : manyK p g k (lo - 1) (acc ++ [c]) cs = some r → p c = true →
        ∃ t s1, c :: cs = t ++ s1 ∧ lo ≤ t.length ∧ (∀ c ∈ t, p c = true) ∧
          k (acc ++ t) s1 = some r := by
      intro hm hc
      obtain ⟨t, s1, h1, h2, h3, h4⟩ := ih _ _ hm
      refine ⟨c :: t, s1, by simp [h1], by simp; omega, ?_, by simpa using h4⟩
      intro d hd
      rcases List.mem_cons.1 hd with rfl | hd
      · exact hc
      · exact h3 d hd
    have stop : k acc (c :: cs) = some r → lo = 0 →
        ∃ t s1, c :: cs = t ++ s1 ∧ lo ≤ t.length ∧ (∀ c ∈ t, p c = true) ∧
          k (acc ++ t) s1 = some r := by
      intro hs h0
      exact ⟨[], c :: cs, rfl, by simp [h0], by simp, by simpa using hs⟩
    simp only [manyK] at h
    generalize hm : (if p c = true then manyK p g k (lo - 1) (acc ++ [c]) cs else none) = m
      at h
    generalize hs : (if lo = 0 then k acc (c :: cs) else none) = st at h
    have hm1 : m = some r → ∃ t s1, c :: cs = t ++ s1 ∧ lo ≤ t.length ∧
        (∀ c ∈ t, p c = true) ∧ k (acc ++ t) s1 = some r := by
      intro e
      subst e
      split at hm
      · rename_i hc
        exact more hm hc
      · cases hm
    have hs1 : st = some r → ∃ t s1, c :: cs = t ++ s1 ∧ lo ≤ t.length ∧
        (∀ c ∈ t, p c = true) ∧ k (acc ++ t) s1 = some r := by
      intro e
      subst e
      split at hs
      · rename_i h0
        exact stop hs h0
      · cases hs
    cases g <;> cases m <;> cases st <;> simp at h
    all_goals first
      | exact hm1 (by rw [h])
      | exact hs1 (by rw [h])

theorem manyK_none {β : Type} {p : Char → Bool} {g : Bool} {k : Str → Str → Option β}
    {s : Str} {lo : Nat} {acc : Str}
    (h : ∀ t u, s = t ++ u → lo ≤ t.length → (∀ c ∈ t, p c = true) → k (acc ++ t) u = none) :
    manyK p g k lo acc s = none := by
  cases hr : manyK p g k lo acc s with
  | none => rfl
  | some r =>
    obtain ⟨t, s1, h1, h2, h3, h4⟩ := manyK_some s lo acc hr
    rw [h t s1 h1 h2 h3] at h4
    cases h4

/-- A greedy quantifier that can take all of `t` and no more, after which the
rest of the pattern succeeds. -/
theorem manyK_greedy {β : Type} {p : Char → Bool} {k : Str → Str → Option β} {r : β}
    {u : Str} (hu : ∀ d ∈ u.head?, p d = false) :
    ∀ (t : Str) (lo : Nat) (acc : Str), (∀ c ∈ t, p c = true) → lo ≤ t.length →
      k (acc ++ t) u = some r → manyK p true k lo acc (t ++ u) = some r := by
  intro t
  induction t with
  | nil =>
    intro lo acc _ hlo hk
    have h0 : lo = 0 := by simpa using hlo
    subst h0
    cases u with
    | nil => simpa [manyK] using hk
    | cons d u =>
      have hd : p d = false := hu d (by simp)
      simp only [List.nil_append, manyK, hd]
      simpa using hk
  | cons c t ih =>
    intro lo acc ht hlo hk
    have hc : p c = true := ht c (by simp)
    have h1 := ih (lo - 1) (acc ++ [c]) (fun d hd => ht d (by simp [hd]))
      (by simp at hlo; omega) (by simpa using hk)
    rw [List.cons_append]
    simp only [manyK, hc, if_true]
    rw [h1]

/-- A lazy quantifier stops at the first length at which the rest of the
pattern succeeds. -/
theorem manyK_lazy {β : Type} {p : Char → Bool} {k : Str → Str → Option β} {r : β}
    {u : Str} :
    ∀ (t : Str) (lo : Nat) (acc : Str), (∀ c ∈ t, p c = true) → lo ≤ t.length →
      k (acc ++ t) u = some r →
      (∀ t1 t2, t = t1 ++ t2 → t2 ≠ [] → lo ≤ t1.length → k (acc ++ t1) (t2 ++ u) = none) →
      manyK p false k lo acc (t ++ u) = some r := by
  intro t
  induction t with
  | nil =>
    intro lo acc _ hlo hk _
    have h0 : lo = 0 := by simpa using hlo
    subst h0
    cases u with
    | nil => simpa [manyK] using hk
    | cons d u =>
      have hk1 : k acc (d :: u) = some r := by simpa using hk
      simp [manyK, hk1]
  | cons c t ih =>
    intro lo acc ht hlo hk hfail
    have hc : p c = true := ht c (by simp)
    have h1 := ih (lo - 1) (acc ++ [c]) (fun d hd => ht d (by simp [hd]))
      (by simp at hlo; omega) (by simpa using hk)
      (by
        intro t1 t2 e hne hl
        have := hfail (c :: t1) t2 (by simp [e]) hne (by simp; omega)
        simpa using this)
    have hstop : (if lo = 0 then k acc (c :: (t ++ u)) else none) = none := by
      split
      · rename_i h0
        have := hfail [] (c :: t) rfl (by simp) (by simp [h0])
        simpa using this
      · rfl
    rw [List.cons_append]
    simp only [manyK, hc, if_true]
    rw [h1, hstop]
    simp

theorem matchHere_sound : ∀ (re : List Atom) (s : Str) (caps : List Str),
    matchHere re s = some caps → Sound re s caps := by
  intro re
  induction re with
  | nil =>
    intro s caps h
    simp only [matchHere] at h
    simp only [Sound]
    cases h
    rfl
  | cons a re ih =>
    intro s caps h
    cases a with
    | lit l =>
      simp only [matchHere] at h
      split at h
      · rename_i s1 hs
        exact ⟨s1, stripLit_some hs, ih _ _ h⟩
      · cases h
    | exact p n =>
      simp only [matchHere] at h
      split at h
      · rename_i s1 hs
        obtain ⟨t, h1, h2, h3⟩ := stripExact_some hs
        exact ⟨t, s1, h1, h2, h3, ih _ _ h⟩
      · cases h
    | many p lo g cap =>
      simp only [matchHere] at h
      obtain ⟨t, s1, h1, h2, h3, h4⟩ := manyK_some _ _ _ h
      split at h4
      · rename_i caps1 hc
        refine ⟨t, s1, caps1, h1, h2, h3, ih _ _ hc, ?_⟩
        simp only [List.nil_append] at h4
        cases h4
        rfl
      · cases h4
    | eos =>
      cases s with
      | nil =>
        simp only [matchHere] at h
        exact ⟨rfl, ih _ _ h⟩
      | cons c cs => simp [matchHere] at h

theorem search_sound (re : List Atom) : ∀ (s : Str) (caps : List Str),
    search re s = some caps → ∃ pre suf, s = pre ++ suf ∧ Sound re suf caps := by
  intro s
  induction s with
  | nil =>
    intro caps h
    exact ⟨[], [], rfl, matchHere_sound _ _ _ (by simpa [search] using h)⟩
  | cons c cs ih =>
    intro caps h
    simp only [search] at h
    split at h
    · rename_i caps1 hm
      cases h
      exact ⟨[], c :: cs, rfl, matchHere_sound _ _ _ hm⟩
    · obtain ⟨pre, suf, h1, h2⟩ := ih _ h
      exact ⟨c :: pre, suf, by simp [h1], h2⟩

theorem search_of_matchHere {re : List Atom} {s : Str} {caps : List Str}
    (h : matchHere re s = some caps) : search re s = some caps := by
  cases s with
  | nil => simpa [search] using h
  | cons c cs => simp [search, h]

/-! Steps of a match on a string of known shape. -/

theorem step_lit {re : List Atom} (l u : Str) :
    matchHere (Atom.lit l :: re) (l ++ u) = matchHere re u := by
  simp [matchHere, stripLit_append]

theorem step_exact {re : List Atom} {p : Char → Bool} (t u : Str)
    (ht : ∀ c ∈ t, p c = true) :
    matchHere (Atom.exact p t.length :: re) (t ++ u) = matchHere re u := by
  simp [matchHere, stripExact_append t u ht]

theorem step_greedy {re : List Atom} {p : Char → Bool} {lo : Nat} {cap : Bool}
    (t u : Str) {caps : List Str} (ht : ∀ c ∈ t, p c = true) (hlo : lo ≤ t.length)
    (hu : ∀ d ∈ u.head?, p d = false) (h : matchHere re u = some caps) :
    matchHere (Atom.many p lo true cap :: re) (t ++ u) =
      some (if cap then t :: caps else caps) := by
  simp only [matchHere]
  exact manyK_greedy hu t lo [] ht hlo (by simp [h])

theorem step_lazy {re : List Atom} {p : Char → Bool} {lo : Nat} {cap : Bool}
    (t u : Str) {caps : List Str} (ht : ∀ c ∈ t, p c = true) (hlo : lo ≤ t.length)
    (hfail : ∀ t1 t2, t = t1 ++ t2 → t2 ≠ [] → matchHere re (t2 ++ u) = none)
    (h : matchHere re u = some caps) :
    matchHere (Atom.many p lo false cap :: re) (t ++ u) =
      some (if cap then t :: caps else caps) := by
  simp only [matchHere]
  refine manyK_lazy t lo [] ht hlo (by simp [h]) ?_
  intro t1 t2 e hne _
  simp [hfail t1 t2 e hne]

/-! ## Strings -/

theorem includes_iff (s sub : Str) : includes s sub = true ↔ sub <:+: s := by
  induction s with
  | nil =>
    cases sub <;> simp [includes]
  | cons c cs ih =>
    simp only [includes, Bool.or_eq_true, ih, List.infix_cons_iff, List.isPrefixOf_iff_prefix]

theorem includes_mem {s sub : Str} (h : includes s sub = true) {c : Char} (hc : c ∈ sub) :
    c ∈ s :=
  ((includes_iff s sub).1 h).subset hc

theorem isWs_space : isWs ' ' = true := by decide

theorem collapseAux_mem : ∀ (s : Str) (b : Bool) (c : Char),
    c ∈ collapseAux b s → c = ' ' ∨ c ∈ s := by
  intro s
  induction s with
  | nil => intro b c h; simp [collapseAux] at h
  | cons a s ih =>
    intro b c h
    simp only [collapseAux] at h
    split at h
    · split at h
      · rcases ih _ _ h with h1 | h1
        · exact Or.inl h1
        · exact Or.inr (List.mem_cons_of_mem _ h1)
      · rcases List.mem_cons.1 h with h1 | h1
        · exact Or.inl h1
        · rcases ih _ _ h1 with h2 | h2
          · exact Or.inl h2
          · exact Or.inr (List.mem_cons_of_mem _ h2)
    · rcases List.mem_cons.1 h with h1 | h1
      · exact Or.inr (by simp [h1])
      · rcases ih _ _ h1 with h2 | h2
        · exact Or.inl h2
        · exact Or.inr (List.mem_cons_of_mem _ h2)

theorem collapseAux_ws : ∀ (s : Str) (b : Bool) (c : Char),
    c ∈ collapseAux b s → isWs c = true → c = ' ' := by
  intro s
  induction s with
  | nil => intro b c h; simp [collapseAux] at h
  | cons a s ih =>
    intro b c h hc
    simp only [collapseAux] at h
    split at h
    · split at h
      · exact ih _ _ h hc
      · rcases List.mem_cons.1 h with h1 | h1
        · exact h1
        · exact ih _ _ h1 hc
    · rename_i ha
      rcases List.mem_cons.1 h with h1 | h1
      · subst h1
        exact absurd hc ha
      · exact ih _ _ h1 hc

theorem collapseAux_chain : ∀ (s : Str) (b : Bool),
    NoWsPair (collapseAux b s) ∧
      (b = true → ∀ d ∈ (collapseAux b s).head?, isWs d = false) := by
  intro s
  induction s with
  | nil => intro b; simp [collapseAux, NoWsPair]
  | cons a s ih =>
    intro b
    simp only [collapseAux]
    by_cases ha : isWs a = true
    · rw [if_pos ha]
      cases b with
      | true => simpa using ih true
      | false =>
        simp only [Bool.false_eq_true, if_false]
        refine ⟨?_, by simp⟩
        unfold NoWsPair
        rw [List.chain'_cons']
        refine ⟨?_, (ih true).1⟩
        intro d hd
        have := (ih true).2 rfl d hd
        simp [this]
    · rw [if_neg ha]
      refine ⟨?_, fun _ d hd => by simp at hd; subst hd; simpa using ha⟩
      unfold NoWsPair
      rw [List.chain'_cons']
      refine ⟨?_, (ih false).1⟩
      intro d _
      simp [ha]

theorem trimStart_suffix (s : Str) : trimStart s <:+ s := List.dropWhile_suffix _

theorem trimEnd_pre (s : Str) : trimEnd s <+: s := by
  unfold trimEnd
  have h : s.reverse.dropWhile isWs <:+ s.reverse := List.dropWhile_suffix _
  have h2 := List.reverse_prefix.2 h
  simpa using h2

theorem trim_inf (s : Str) : trim s <:+: s :=
  (trimEnd_pre _).isInfix.trans (trimStart_suffix s).isInfix

theorem normalize_mem {s : Str} {c : Char} (h : c ∈ normalize s) : c = ' ' ∨ c ∈ s :=
  collapseAux_mem s false c ((trim_inf _).subset h)

theorem normalize_ws {s : Str} {c : Char} (h : c ∈ normalize s) (hc : isWs c = true) :
    c = ' ' :=
  collapseAux_ws s false c ((trim_inf _).subset h) hc

theorem normalize_chain (s : Str) : NoWsPair (normalize s) :=
  List.Chain'.infix (collapseAux_chain s false).1 (trim_inf _)

theorem NoWsPair.sub {s t : Str} (h : NoWsPair s) (ht : t <:+: s) : NoWsPair t :=
  List.Chain'.infix h ht

/-- Trimming leaves a string whose first and last characters are not white
space. -/
theorem trimStart_head (s : Str) : ∀ d ∈ (trimStart s).head?, isWs d = false := by
  intro d hd
  unfold trimStart at hd
  induction s with
  | nil => simp at hd
  | cons a s ih =>
    by_cases ha : isWs a = true
    · rw [List.dropWhile_cons_of_pos ha] at hd
      exact ih hd
    · rw [List.dropWhile_cons_of_neg ha] at hd
      simp at hd
      subst hd
      simpa using ha

theorem trimEnd_eq_nil {s : Str} (h : trimEnd s = []) : ∀ c ∈ s, isWs c = true := by
  unfold trimEnd at h
  have h1 : s.reverse.dropWhile isWs = [] := by simpa using h
  rw [List.dropWhile_eq_nil_iff] at h1
  intro c hc
  exact h1 c (by simpa using hc)

theorem trimStart_eq_nil {s : Str} (h : trimStart s = []) : ∀ c ∈ s, isWs c = true := by
  unfold trimStart at h
  rw [List.dropWhile_eq_nil_iff] at h
  exact h

theorem trim_eq_nil {s : Str} (h : trim s = []) : ∀ c ∈ s, isWs c = true := by
  unfold trim at h
  have h1 := trimEnd_eq_nil h
  by_cases h2 : trimStart s = []
  · exact trimStart_eq_nil h2
  · exfalso
    obtain ⟨d, t, hdt⟩ := List.exists_cons_of_ne_nil h2
    have h3 := trimStart_head s d (by simp [hdt])
    have h4 := h1 d (by simp [hdt])
    simp [h3] at h4

theorem trim_self {s : Str} (h1 : ∀ d ∈ s.head?, isWs d = false)
    (h2 : ∀ d ∈ s.getLast?, isWs d = false) : trim s = s := by
  have e1 : trimStart s = s := by
    unfold trimStart
    cases s with
    | nil => rfl
    | cons a s =>
      have ha : ¬ isWs a = true := by simpa using h1 a (by simp)
      rw [List.dropWhile_cons_of_neg ha]
  unfold trim
  rw [e1]
  unfold trimEnd
  have e2 : s.reverse.dropWhile isWs = s.reverse := by
    cases hs : s.reverse with
    | nil => rfl
    | cons a t =>
      have ha : ¬ isWs a = true := by
        have : s.getLast? = some a := by
          rw [← List.head?_reverse, hs]; rfl
        simpa using h2 a (by simp [this])
      rw [List.dropWhile_cons_of_neg ha]
  rw [e2, List.reverse_reverse]

theorem splitWsAux_token : ∀ (s : Str) (b : Bool) (t : Str), t ∈ splitWsAux b s →
    ∀ c ∈ t, isWs c = false := by
  intro s
  induction s with
  | nil =>
    intro b t ht c hc
    simp [splitWsAux] at ht
    subst ht
    simp at hc
  | cons a s ih =>
    intro b t ht c hc
    simp only [splitWsAux] at ht
    split at ht
    · split at ht
      · exact ih _ _ ht c hc
      · rcases List.mem_cons.1 ht with h1 | h1
        · subst h1; simp at hc
        · exact ih _ _ h1 c hc
    · rename_i ha
      split at ht
      · rename_i t0 ts hsp
        rcases List.mem_cons.1 ht with h1 | h1
        · subst h1
          rcases List.mem_cons.1 hc with h2 | h2
          · subst h2; simpa using ha
          · exact ih false t0 (by simp [hsp]) c h2
        · exact ih false t (by simp [hsp, h1]) c hc
      · simp at ht
        subst ht
        simp at hc
        subst hc
        simpa using ha

theorem getD_token {s : Str} {b : Bool} (n : Nat) :
    ∀ c ∈ (splitWsAux b s).getD n [], isWs c = false := by
  intro c hc
  by_cases hn : n < (splitWsAux b s).length
  · have : (splitWsAux b s).getD n [] ∈ splitWsAux b s := by
      rw [List.getD_eq_getElem _ _ hn]
      exact List.getElem_mem _
    exact splitWsAux_token s b _ this c hc
  · rw [List.getD_eq_default _ _ (by omega)] at hc
    simp at hc

/-! ## The three inner loops -/

theorem getElem?_lineAt {lines : List Str} {j : Nat} (h : j < lines.length) :
    lines[j]? = some (lineAt lines j) := by
  simp [lineAt, List.getD_eq_getElem _ _ h, List.getElem?_eq_getElem h]

theorem getElem?_none_of_le {lines : List Str} {j : Nat} (h : lines.length ≤ j) :
    lines[j]? = none := by
  simp [h]

theorem summaryLoop_ok (lines : List Str) : ∀ (n k : Nat) (c : Claim),
    k + n ≤ lines.length → ∃ c1, summaryLoop lines n k c = Res.ok c1 := by
  intro n
  induction n with
  | zero => intro k c _; exact ⟨c, rfl⟩
  | succ n ih =>
    intro k c hb
    simp only [summaryLoop]
    rw [getElem?_lineAt (by omega)]
    simp only
    split
    · exact ⟨_, rfl⟩
    · exact ih (k + 1) c (by omega)

theorem summaryLoop_none (lines : List Str) : ∀ (n k : Nat) (c : Claim),
    k + n ≤ lines.length →
    (∀ m, k ≤ m → m < k + n → includes (lineAt lines m) "PAT RESP:".toList = false) →
    summaryLoop lines n k c = Res.ok c := by
  intro n
  induction n with
  | zero => intro k c _ _; rfl
  | succ n ih =>
    intro k c hb h
    simp only [summaryLoop]
    rw [getElem?_lineAt (by omega)]
    simp only
    rw [h k le_rfl (by omega)]
    simp only [Bool.false_eq_true, if_false]
    exact ih (k + 1) c (by omega) (fun m h1 h2 => h m (by omega) (by omega))

theorem summaryLoop_first (lines : List Str) : ∀ (n k : Nat) (c : Claim) (m : Nat),
    k ≤ m → m < k + n → m < lines.length →
    includes (lineAt lines m) "PAT RESP:".toList = true →
    (∀ m1, k ≤ m1 → m1 < m → includes (lineAt lines m1) "PAT RESP:".toList = false) →
    summaryLoop lines n k c = Res.ok (setSummary c (lineAt lines m)) := by
  intro n
  induction n with
  | zero => intro k c m h1 h2; omega
  | succ n ih =>
    intro k c m h1 h2 h3 h4 h5
    simp only [summaryLoop]
    rw [getElem?_lineAt (by omega)]
    simp only
    by_cases hkm : k = m
    · subst hkm
      rw [h4]
      simp
    · rw [h5 k le_rfl (by omega)]
      simp only [Bool.false_eq_true, if_false]
      exact ih (k + 1) c m (by omega) (by omega) h3 h4 (fun m1 a b => h5 m1 (by omega) b)

theorem qualifies_false_iff {l : Str} (h : qualifies l = false) :
    serviceMatch l = false ∨ partsOk (serviceParts l) = false := by
  unfold qualifies at h
  cases h1 : serviceMatch l
  · exact Or.inl rfl
  · rw [h1] at h
    exact Or.inr (by simpa using h)

theorem qualifies_true_iff {l : Str} (h : qualifies l = true) :
    serviceMatch l = true ∧ partsOk (serviceParts l) = true := by
  unfold qualifies at h
  simpa using h

theorem forwardLoop_ok (lines : List Str) : ∀ (n j : Nat) (c : Claim),
    j + n ≤ lines.length → ∃ b c1, forwardLoop lines n j c = Res.ok (b, c1) := by
  intro n
  induction n with
  | zero => intro j c _; exact ⟨false, c, rfl⟩
  | succ n ih =>
    intro j c hb
    simp only [forwardLoop]
    rw [getElem?_lineAt (by omega)]
    simp only
    split
    · split
      · obtain ⟨c1, h1⟩ := summaryLoop_ok lines (min (j + 5) lines.length - (j + 1)) (j + 1)
          (setService c (serviceParts (lineAt lines j))) (by omega)
        rw [h1]
        exact ⟨true, c1, rfl⟩
      · exact ih (j + 1) c (by omega)
    · exact ih (j + 1) c (by omega)

theorem forwardLoop_none (lines : List Str) : ∀ (n j : Nat) (c : Claim),
    j + n ≤ lines.length →
    (∀ m, j ≤ m → m < j + n → qualifies (lineAt lines m) = false) →
    forwardLoop lines n j c = Res.ok (false, c) := by
  intro n
  induction n with
  | zero => intro j c _ _; rfl
  | succ n ih =>
    intro j c hb h
    simp only [forwardLoop]
    rw [getElem?_lineAt (by omega)]
    simp only
    have hrec := ih (j + 1) c (by omega) (fun m h1 h2 => h m (by omega) (by omega))
    rcases qualifies_false_iff (h j le_rfl (by omega)) with h1 | h1
    · rw [h1]
      simpa using hrec
    · rw [h1]
      simpa using hrec

theorem forwardLoop_first (lines : List Str) : ∀ (n j : Nat) (c : Claim) (s : Nat),
    j ≤ s → s < j + n → s < lines.length →
    qualifies (lineAt lines s) = true →
    (∀ m, j ≤ m → m < s → qualifies (lineAt lines m) = false) →
    ∃ c1, summaryLoop lines (min (s + 5) lines.length - (s + 1)) (s + 1)
        (setService c (serviceParts (lineAt lines s))) = Res.ok c1 ∧
      forwardLoop lines n j c = Res.ok (true, c1) := by
  intro n
  induction n with
  | zero => intro j c s h1 h2; omega
  | succ n ih =>
    intro j c s h1 h2 h3 h4 h5
    simp only [forwardLoop]
    rw [getElem?_lineAt (by omega)]
    simp only
    by_cases hjs : j = s
    · subst hjs
      obtain ⟨q1, q2⟩ := qualifies_true_iff h4
      obtain ⟨c1, hc1⟩ := summaryLoop_ok lines (min (j + 5) lines.length - (j + 1)) (j + 1)
          (setService c (serviceParts (lineAt lines j))) (by omega)
      refine ⟨c1, hc1, ?_⟩
      rw [q1, q2, hc1]
      simp
    · have hrec := ih (j + 1) c s (by omega) (by omega) h3 h4
        (fun m a b => h5 m (by omega) b)
      rcases qualifies_false_iff (h5 j le_rfl (by omega)) with q | q
      · rw [q]
        simpa using hrec
      · rw [q]
        simpa using hrec

theorem backwardLoop_ok (lines : List Str) : ∀ (n j : Nat) (c : Claim),
    j < lines.length → n ≤ j + 1 → ∃ c1, backwardLoop lines n j c = Res.ok c1 := by
  intro n
  induction n with
  | zero => intro j c _ _; exact ⟨c, rfl⟩
  | succ n ih =>
    intro j c hj hn
    simp only [backwardLoop]
    rw [getElem?_lineAt hj]
    simp only
    by_cases hn0 : n = 0
    · subst hn0
      split
      · split
        · exact ⟨_, rfl⟩
        · exact ⟨c, rfl⟩
      · exact ⟨c, rfl⟩
    · split
      · split
        · exact ⟨_, rfl⟩
        · exact ih (j - 1) c (by omega) (by omega)
      · exact ih (j - 1) c (by omega) (by omega)

theorem backwardLoop_err (lines : List Str) (n j : Nat) (c : Claim)
    (hj : lines.length ≤ j) : backwardLoop lines (n + 1) j c = Res.typeError := by
  simp only [backwardLoop]
  rw [getElem?_none_of_le hj]

theorem backwardLoop_none (lines : List Str) : ∀ (n j : Nat) (c : Claim),
    j < lines.length → n ≤ j + 1 →
    (∀ d, d < n → qualifies (lineAt lines (j - d)) = false) →
    backwardLoop lines n j c = Res.ok c := by
  intro n
  induction n with
  | zero => intro j c _ _ _; rfl
  | succ n ih =>
    intro j c hj hn h
    simp only [backwardLoop]
    rw [getElem?_lineAt hj]
    simp only
    have hrec : backwardLoop lines n (j - 1) c = Res.ok c := by
      by_cases hn0 : n = 0
      · subst hn0; rfl
      · refine ih (j - 1) c (by omega) (by omega) ?_
        intro d hd
        have := h (d + 1) (by omega)
        rwa [show j - (d + 1) = j - 1 - d by omega] at this
    rcases qualifies_false_iff (h 0 (by omega)) with q | q
    · rw [Nat.sub_zero] at q
      rw [q]
      simpa using hrec
    · rw [Nat.sub_zero] at q
      rw [q]
      simpa using hrec

theorem backwardLoop_first (lines : List Str) : ∀ (n j : Nat) (c : Claim) (d : Nat),
    j < lines.length → d < n → d ≤ j →
    qualifies (lineAt lines (j - d)) = true →
    (∀ d1, d1 < d → qualifies (lineAt lines (j - d1)) = false) →
    backwardLoop lines n j c = Res.ok (setService c (serviceParts (lineAt lines (j - d)))) := by
  intro n
  induction n with
  | zero => intro j c d _ h; omega
  | succ n ih =>
    intro j c d hj hd hdj h4 h5
    simp only [backwardLoop]
    rw [getElem?_lineAt hj]
    simp only
    by_cases hd0 : d = 0
    · subst hd0
      rw [Nat.sub_zero] at h4
      obtain ⟨q1, q2⟩ := qualifies_true_iff h4
      rw [q1, q2]
      simp
    · have hrec := ih (j - 1) c (d - 1) (by omega) (by omega) (by omega)
        (by rwa [show j - 1 - (d - 1) = j - d by omega])
        (by
          intro d1 hd1
          have := h5 (d1 + 1) (by omega)
          rwa [show j - (d1 + 1) = j - 1 - d1 by omega] at this)
      rw [show j - 1 - (d - 1) = j - d by omega] at hrec
      have q0 := h5 0 (by omega)
      rw [Nat.sub_zero] at q0
      rcases qualifies_false_iff q0 with q | q
      · rw [q]
        simpa using hrec
      · rw [q]
        simpa using hrec

/-! ## The record of one anchor -/

theorem claimBody_forward {lines : List Str} {a : Nat} {nl : Str} {s : Nat}
    (h1 : a + 2 < s) (h2 : s < a + 22) (h3 : s < lines.length)
    (hq : qualifies (lineAt lines s) = true)
    (hn : ∀ m, a + 2 < m → m < s → qualifies (lineAt lines m) = false) :
    ∃ c1, summaryLoop lines (min (s + 5) lines.length - (s + 1)) (s + 1)
        (setService (claimHead lines a nl) (serviceParts (lineAt lines s))) = Res.ok c1 ∧
      claimBody lines a nl = Res.ok c1 := by
  obtain ⟨c1, e1, e2⟩ := forwardLoop_first lines (min (a + 2 + 20) lines.length - (a + 2 + 1))
    (a + 2 + 1) (claimHead lines a nl) s (by omega) (by omega) h3 hq
    (fun m x y => hn m (by omega) y)
  refine ⟨c1, e1, ?_⟩
  simp only [claimBody]
  rw [e2]

theorem claimBody_forward_none {lines : List Str} {a : Nat} (c : Claim)
    (hf : ∀ m, a + 2 < m → m < a + 22 → qualifies (lineAt lines m) = false) :
    forwardLoop lines (min (a + 2 + 20) lines.length - (a + 2 + 1)) (a + 2 + 1) c =
      Res.ok (false, c) := by
  by_cases h : min (a + 2 + 20) lines.length - (a + 2 + 1) = 0
  · rw [h]
    rfl
  · exact forwardLoop_none lines _ _ c (by omega) (fun m x y => hf m (by omega) (by omega))

theorem claimBody_backward {lines : List Str} {a : Nat} {nl : Str} {d : Nat}
    (ha : a + 1 < lines.length)
    (hf : ∀ m, a + 2 < m → m < a + 22 → qualifies (lineAt lines m) = false)
    (hd : d < 10) (hda : d ≤ a + 1)
    (hq : qualifies (lineAt lines (a + 1 - d)) = true)
    (hn : ∀ d1, d1 < d → qualifies (lineAt lines (a + 1 - d1)) = false) :
    claimBody lines a nl =
      Res.ok (setService (claimHead lines a nl) (serviceParts (lineAt lines (a + 1 - d)))) := by
  simp only [claimBody]
  rw [claimBody_forward_none _ hf]
  simp only
  exact backwardLoop_first lines _ (a + 2 - 1) _ d (by omega) (by omega) (by omega)
    (by simpa using hq) (fun d1 x => by simpa using hn d1 x)

theorem claimBody_plain {lines : List Str} {a : Nat} {nl : Str}
    (ha : a + 1 < lines.length)
    (hf : ∀ m, a + 2 < m → m < a + 22 → qualifies (lineAt lines m) = false)
    (hb : ∀ d, d < 10 → d ≤ a + 1 → qualifies (lineAt lines (a + 1 - d)) = false) :
    claimBody lines a nl = Res.ok (claimHead lines a nl) := by
  simp only [claimBody]
  rw [claimBody_forward_none _ hf]
  simp only
  exact backwardLoop_none lines _ (a + 2 - 1) _ (by omega) (by omega)
    (fun d x => by simpa using hb d (by omega) (by omega))

theorem claimBody_err {lines : List Str} {a : Nat} {nl : Str}
    (ha : lines.length ≤ a + 1) : claimBody lines a nl = Res.typeError := by
  simp only [claimBody]
  have h0 : min (a + 2 + 20) lines.length - (a + 2 + 1) = 0 := by omega
  rw [h0]
  simp only [forwardLoop]
  obtain ⟨n, hn⟩ : ∃ n, a + 2 - (a + 2 - 10) = n + 1 := ⟨a + 2 - (a + 2 - 10) - 1, by omega⟩
  rw [hn]
  exact backwardLoop_err lines n _ _ (by omega)

theorem claimBody_ok {lines : List Str} {a : Nat} {nl : Str}
    (ha : a + 1 < lines.length) : ∃ c, claimBody lines a nl = Res.ok c := by
  simp only [claimBody]
  have hfw : ∃ b c1, forwardLoop lines (min (a + 2 + 20) lines.length - (a + 2 + 1))
      (a + 2 + 1) (claimHead lines a nl) = Res.ok (b, c1) := by
    by_cases h : min (a + 2 + 20) lines.length - (a + 2 + 1) = 0
    · rw [h]
      exact ⟨false, _, rfl⟩
    · exact forwardLoop_ok lines _ _ _ (by omega)
  obtain ⟨b, c1, e⟩ := hfw
  rw [e]
  cases b with
  | true => exact ⟨c1, rfl⟩
  | false =>
    simp only
    exact backwardLoop_ok lines _ _ _ (by omega) (by omega)

/-! ## The greedy choice and the outer loop -/

theorem lineAt_of_le {lines : List Str} {j : Nat} (h : lines.length ≤ j) :
    lineAt lines j = [] := by
  unfold lineAt
  exact List.getD_eq_default _ _ h

theorem lineTest_of_le {lines : List Str} {j : Nat} (h : lines.length ≤ j) :
    lineTest lines j = false := by
  simp only [lineTest, lineAt_of_le h]
  rfl

theorem chosen_le_lineTest (lines : List Str) (a : Nat) :
    chosen lines a = true → lineTest lines a = true := by
  cases a with
  | zero => simp [chosen, chosenPair]
  | succ a =>
    simp only [chosen, chosenPair]
    intro h
    simp only [Bool.and_eq_true] at h
    exact h.1.1

theorem chosen_of_le {lines : List Str} {j : Nat} (h : lines.length ≤ j) :
    chosen lines j = false := by
  cases hc : chosen lines j with
  | false => rfl
  | true =>
    have := chosen_le_lineTest lines j hc
    rw [lineTest_of_le h] at this
    cases this

theorem Fresh.pair {lines : List Str} {i : Nat} (h : Fresh lines i) :
    chosenPair lines i = (lineTest lines i, false) := by
  cases i with
  | zero => rfl
  | succ i =>
    rcases h with h | h
    · omega
    · simp only [Nat.add_sub_cancel] at h
      simp [chosenPair, h]

theorem Fresh.chosen_eq {lines : List Str} {i : Nat} (h : Fresh lines i) :
    chosen lines i = lineTest lines i := by
  simp [chosen, h.pair]

theorem Fresh.next {lines : List Str} {i : Nat} (h : Fresh lines i)
    (ht : lineTest lines i = false) : Fresh lines (i + 1) := by
  right
  simp [h.pair, ht]

theorem Fresh.skip {lines : List Str} {i : Nat} (h : Fresh lines i)
    (ht : lineTest lines i = true) :
    chosen lines (i + 1) = false ∧ chosen lines (i + 2) = false ∧ Fresh lines (i + 3) := by
  have h0 := h.pair
  rw [ht] at h0
  have h1 : chosenPair lines (i + 1) = (false, true) := by
    rw [chosenPair]
    simp only [h0]
    simp
  have h2 : chosenPair lines (i + 2) = (false, false) := by
    show chosenPair lines (i + 1 + 1) = (false, false)
    rw [chosenPair]
    simp only [h1]
    simp
  refine ⟨by simp [chosen, h1], by simp [chosen, h2], ?_⟩
  right
  simpa using h2

theorem filter_chosen_ge (lines : List Str) (n : Nat) : ∀ i, lines.length ≤ i →
    (List.range' i n).filter (chosen lines) = [] := by
  intro i hi
  rw [List.filter_eq_nil_iff]
  intro a ha
  rw [List.mem_range'_1] at ha
  simp [chosen_of_le (show lines.length ≤ a by omega)]

theorem filter_chosen_shift (lines : List Str) (n i : Nat) (hc : chosen lines i = false)
    (hn : lines.length ≤ i + n) :
    (List.range' i n).filter (chosen lines) = (List.range' (i + 1) n).filter (chosen lines) := by
  cases n with
  | zero => rfl
  | succ n =>
    have e1 : List.range' i (n + 1) = i :: List.range' (i + 1) n := rfl
    have e2 : List.range' (i + 1) (n + 1) = List.range' (i + 1) n ++ [i + 1 + n] := by
      rw [List.range'_concat]; simp
    rw [e1, e2, List.filter_cons, hc, List.filter_append]
    have e3 : List.filter (chosen lines) [i + 1 + n] = [] := by
      simp [chosen_of_le (show lines.length ≤ i + 1 + n by omega)]
    rw [e3]
    simp

theorem scan_sound (lines : List Str) : ∀ (fuel i : Nat) (claims rs : List Claim),
    scan lines fuel i claims = Res.ok rs → lines.length ≤ i + fuel → Fresh lines i →
    ∃ rs1, rs = claims ++ rs1 ∧
      List.Forall₂ (fun a r => recordAt lines a = Res.ok r)
        ((List.range' i fuel).filter (chosen lines)) rs1 := by
  intro fuel
  induction fuel with
  | zero =>
    intro i claims rs h hl _
    simp only [scan] at h
    rw [if_neg (by omega)] at h
    cases h
    exact ⟨[], by simp, by simp⟩
  | succ fuel ih =>
    intro i claims rs h hl hf
    simp only [scan] at h
    by_cases hi : i < lines.length
    · rw [getElem?_lineAt hi] at h
      simp only at h
      have ht : anchorTest (normalize (lineAt lines i)) = lineTest lines i := rfl
      by_cases hA : lineTest lines i = true
      · rw [ht, hA] at h
        simp only [if_true] at h
        obtain ⟨s1, s2, s3⟩ := hf.skip hA
        cases hb : claimBody lines i (normalize (lineAt lines i)) with
        | ok c =>
          rw [hb] at h
          simp only at h
          obtain ⟨rs1, e1, e2⟩ := ih (i + 2 + 1) _ _ h (by omega) s3
          refine ⟨c :: rs1, by simp [e1], ?_⟩
          have e3 : List.range' i (fuel + 1) = i :: List.range' (i + 1) fuel := rfl
          rw [e3, List.filter_cons, hf.chosen_eq, hA]
          simp only [if_true]
          rw [filter_chosen_shift lines fuel (i + 1) s1 (by omega),
            filter_chosen_shift lines fuel (i + 2) s2 (by omega)]
          exact List.Forall₂.cons hb e2
        | typeError => rw [hb] at h; cases h
        | outOfFuel => rw [hb] at h; cases h
      · have hA1 : lineTest lines i = false := by simpa using hA
        rw [ht, hA1] at h
        simp only [Bool.false_eq_true, if_false] at h
        obtain ⟨rs1, e1, e2⟩ := ih (i + 1) _ _ h (by omega) (hf.next hA1)
        refine ⟨rs1, e1, ?_⟩
        have e3 : List.range' i (fuel + 1) = i :: List.range' (i + 1) fuel := rfl
        rw [e3, List.filter_cons, hf.chosen_eq, hA1]
        simpa using e2
    · rw [getElem?_none_of_le (by omega)] at h
      simp only at h
      cases h
      refine ⟨[], by simp, ?_⟩
      rw [filter_chosen_ge lines _ i (by omega)]
      exact List.Forall₂.nil

theorem scan_total (lines : List Str) (hlast : chosen lines (lines.length - 1) = false) :
    ∀ (fuel i : Nat) (claims : List Claim), lines.length ≤ i + fuel → Fresh lines i →
    ∃ rs, scan lines fuel i claims = Res.ok rs := by
  intro fuel
  induction fuel with
  | zero =>
    intro i claims hl _
    simp only [scan]
    rw [if_neg (by omega)]
    exact ⟨_, rfl⟩
  | succ fuel ih =>
    intro i claims hl hf
    simp only [scan]
    by_cases hi : i < lines.length
    · rw [getElem?_lineAt hi]
      simp only
      have ht : anchorTest (normalize (lineAt lines i)) = lineTest lines i := rfl
      by_cases hA : lineTest lines i = true
      · rw [ht, hA]
        simp only [if_true]
        have hne : i ≠ lines.length - 1 := by
          intro e
          rw [← e, hf.chosen_eq, hA] at hlast
          cases hlast
        obtain ⟨c, hc⟩ := @claimBody_ok lines i
          (normalize (lineAt lines i)) (by omega)
        rw [hc]
        simp only
        exact ih _ _ (by omega) (hf.skip hA).2.2
      · have hA1 : lineTest lines i = false := by simpa using hA
        rw [ht, hA1]
        simp only [Bool.false_eq_true, if_false]
        exact ih _ _ (by omega) (hf.next hA1)
    · rw [getElem?_none_of_le (by omega)]
      exact ⟨_, rfl⟩

theorem scan_err (lines : List Str) (hlast : chosen lines (lines.length - 1) = true) :
    ∀ (fuel i : Nat) (claims : List Claim), lines.length ≤ i + fuel → i < lines.length →
    Fresh lines i → scan lines fuel i claims = Res.typeError := by
  intro fuel
  induction fuel with
  | zero => intro i claims hl hi; omega
  | succ fuel ih =>
    intro i claims hl hi hf
    simp only [scan]
    rw [getElem?_lineAt hi]
    simp only
    have ht : anchorTest (normalize (lineAt lines i)) = lineTest lines i := rfl
    by_cases hA : lineTest lines i = true
    · rw [ht, hA]
      simp only [if_true]
      obtain ⟨s1, s2, s3⟩ := hf.skip hA
      by_cases h1 : i + 1 < lines.length
      · obtain ⟨c, hc⟩ := @claimBody_ok lines i
          (normalize (lineAt lines i)) h1
        rw [hc]
        simp only
        have h3 : i + 3 < lines.length := by
          by_contra hcon
          have : lines.length - 1 = i + 1 ∨ lines.length - 1 = i + 2 := by omega
          rcases this with e | e
          · rw [e, s1] at hlast; cases hlast
          · rw [e, s2] at hlast; cases hlast
        exact ih _ _ (by omega) h3 s3
      · rw [claimBody_err (by omega)]
    · have hA1 : lineTest lines i = false := by simpa using hA
      rw [ht, hA1]
      simp only [Bool.false_eq_true, if_false]
      have h1 : i + 1 < lines.length := by
        by_contra hcon
        have e : lines.length - 1 = i := by omega
        rw [e, hf.chosen_eq, hA1] at hlast
        cases hlast
      exact ih _ _ (by omega) h1 (hf.next hA1)

theorem splitLines_ne_nil (text : Str) : splitLines text ≠ [] := by
  induction text with
  | nil => simp [splitLines]
  | cons c cs ih =>
    simp only [splitLines]
    split
    · simp
    · split <;> simp

theorem parse_sound {text : Str} {rs : List Claim}
    (h : parseHealthcareClaims text = Res.ok rs) :
    List.Forall₂ (fun a r => recordAt (splitLines text) a = Res.ok r)
      (anchors (splitLines text)) rs := by
  obtain ⟨rs1, e1, e2⟩ := scan_sound (splitLines text) _ 0 [] rs h (by omega) (Or.inl rfl)
  rw [List.nil_append] at e1
  subst e1
  rw [anchors, List.range_eq_range']
  exact e2

theorem parse_total {text : Str}
    (hlast : chosen (splitLines text) ((splitLines text).length - 1) = false) :
    ∃ rs, parseHealthcareClaims text = Res.ok rs :=
  scan_total (splitLines text) hlast _ 0 [] (by omega) (Or.inl rfl)

theorem parse_err {text : Str}
    (hlast : chosen (splitLines text) ((splitLines text).length - 1) = true) :
    parseHealthcareClaims text = Res.typeError :=
  scan_err (splitLines text) hlast _ 0 [] (by omega)
    (List.length_pos.2 (splitLines_ne_nil text)) (Or.inl rfl)

theorem forall₂_getElem? {α β : Type} {P : α → β → Prop} :
    ∀ {as : List α} {bs : List β}, List.Forall₂ P as bs → ∀ (k : Nat) (a : α),
      as[k]? = some a → ∃ b, bs[k]? = some b ∧ P a b := by
  intro as bs h
  induction h with
  | nil => intro k a hk; simp at hk
  | cons hab _ ih =>
    intro k a hk
    cases k with
    | zero =>
      simp at hk
      subst hk
      exact ⟨_, by simp, hab⟩
    | succ k =>
      simp at hk
      obtain ⟨b, hb1, hb2⟩ := ih k a hk
      exact ⟨b, by simpa using hb1, hb2⟩

/-- A chosen line of a text whose last line is not chosen gets its record. -/
theorem emits_of {text : Str} {a : Nat} {r : Claim}
    (hlast : chosen (splitLines text) ((splitLines text).length - 1) = false)
    (ha : chosen (splitLines text) a = true)
    (hr : recordAt (splitLines text) a = Res.ok r) : Emits text a r := by
  obtain ⟨rs, hrs⟩ := parse_total hlast
  have hal : a < (splitLines text).length := by
    by_contra hcon
    rw [chosen_of_le (by omega)] at ha
    cases ha
  have hmem : a ∈ anchors (splitLines text) := by
    simp [anchors, hal, ha]
  obtain ⟨k, hk⟩ := List.getElem?_of_mem hmem
  obtain ⟨b, hb1, hb2⟩ := forall₂_getElem? (parse_sound hrs) k a hk
  rw [hr] at hb2
  cases hb2
  exact ⟨rs, k, hrs, hk, hb1⟩

/-! ## Service lines -/

theorem isDigit_not_ws {c : Char} (h : isDigit c = true) : isWs c = false := by
  simp only [isDigit, Bool.and_eq_true, decide_eq_true_eq] at h
  simp only [isWs, Bool.or_eq_false_iff, Bool.and_eq_false_iff, beq_eq_false_iff_ne,
    decide_eq_false_iff_not]
  omega

theorem isNumCh_not_ws {c : Char} (h : isNumCh c = true) : isWs c = false := by
  simp only [isNumCh, Bool.or_eq_true, beq_iff_eq] at h
  rcases h with (h | h) | h
  · exact isDigit_not_ws h
  · subst h; decide
  · subst h; decide

theorem isNonWs_not_ws {c : Char} (h : isNonWs c = true) : isWs c = false := by
  simpa [isNonWs] using h

theorem trimEnd_cons {a : Char} {s : Str} (h : ∃ c ∈ s, isWs c = false) :
    trimEnd (a :: s) = a :: trimEnd s := by
  unfold trimEnd
  rw [List.reverse_cons, List.dropWhile_append]
  have hne : (List.dropWhile isWs s.reverse).isEmpty = false := by
    cases hd : List.dropWhile isWs s.reverse with
    | nil =>
      rw [List.dropWhile_eq_nil_iff] at hd
      obtain ⟨c, hc, hw⟩ := h
      have := hd c (by simpa using hc)
      rw [hw] at this
      cases this
    | cons x xs => rfl
  rw [hne]
  simp

theorem splitWsAux_ne_nil : ∀ (s : Str) (b : Bool), splitWsAux b s ≠ [] := by
  intro s
  induction s with
  | nil => intro b; simp [splitWsAux]
  | cons c cs ih =>
    intro b
    simp only [splitWsAux]
    split
    · split
      · exact ih true
      · simp
    · split <;> simp

theorem splitWsAux_head_nonws {c : Char} {cs : Str} (b : Bool) (hc : isWs c = false) :
    (splitWsAux b (c :: cs)).getD 0 [] = c :: (splitWsAux false cs).getD 0 [] := by
  simp only [splitWsAux, hc, Bool.false_eq_true, if_false]
  cases h : splitWsAux false cs with
  | nil => exact absurd h (splitWsAux_ne_nil cs false)
  | cons t ts => simp

theorem splitWsAux_head_ws {c : Char} {cs : Str} (hc : isWs c = true) :
    (splitWsAux false (c :: cs)).getD 0 [] = [] := by
  simp [splitWsAux, hc]

/-- A line that passes the structural pattern has a two-digit first token, so
the second half of the test of source line 113 is implied by the first. -/
theorem serviceMatch_first_token {l : Str} (h : serviceMatch l = true) :
    (matchHere twoDigitsRe ((serviceParts l).getD 0 [])).isSome = true := by
  unfold serviceMatch at h
  obtain ⟨caps, hcaps⟩ := Option.isSome_iff_exists.1 h
  have hs := matchHere_sound _ _ _ hcaps
  simp only [serviceRe, ws1, Sound] at hs
  obtain ⟨t, s1, e1, ht, htd, w, s2, _, e2, hw, hwws, ⟨t2, s3, e3, ht2, ht2d, _⟩, _⟩ := hs
  subst e1 e2 e3
  match t, ht, htd with
  | [d1, d2], _, htd =>
    have hd1 : isDigit d1 = true := htd d1 (by simp)
    have hd2 : isDigit d2 = true := htd d2 (by simp)
    cases w with
    | nil => simp at hw
    | cons w0 w1 =>
      have hw0 : isWs w0 = true := hwws w0 (by simp)
      cases t2 with
      | nil => simp at ht2
      | cons e0 t3 =>
        have he0 : isWs e0 = false := isDigit_not_ws (ht2d e0 (by simp))
        have hex : ∀ (pre : Str), ∃ c ∈ pre ++ (w0 :: w1 ++ (e0 :: t3 ++ s3)), isWs c = false :=
          fun pre => ⟨e0, by simp, he0⟩
        have etrim : trim ([d1, d2] ++ (w0 :: w1 ++ (e0 :: t3 ++ s3))) =
            d1 :: d2 :: trimEnd (w0 :: w1 ++ (e0 :: t3 ++ s3)) := by
          unfold trim trimStart
          have hnd1 : ¬ isWs d1 = true := by simp [isDigit_not_ws hd1]
          show trimEnd (List.dropWhile isWs (d1 :: d2 :: (w0 :: w1 ++ (e0 :: t3 ++ s3)))) = _
          rw [List.dropWhile_cons_of_neg hnd1]
          rw [trimEnd_cons (by simpa using hex [d2]), trimEnd_cons (by simpa using hex [])]
        have etrim2 : trimEnd (w0 :: w1 ++ (e0 :: t3 ++ s3)) =
            w0 :: trimEnd (w1 ++ (e0 :: t3 ++ s3)) := by
          rw [List.cons_append, trimEnd_cons ⟨e0, by simp, he0⟩]
        unfold serviceParts splitWs
        rw [etrim, etrim2, splitWsAux_head_nonws _ (isDigit_not_ws hd1),
          splitWsAux_head_nonws _ (isDigit_not_ws hd2), splitWsAux_head_ws hw0]
        simp [twoDigitsRe, matchHere, stripExact, hd1, hd2]

theorem qualifies_eq (l : Str) : qualifies l = isServiceLine l := by
  unfold qualifies isServiceLine partsOk
  cases h : serviceMatch l with
  | false => rfl
  | true =>
    rw [serviceMatch_first_token h]
    simp

/-! ## Fields kept and fields set -/

theorem serviceFields_setService (c : Claim) (parts : List Str) (h : 13 ≤ parts.length) :
    serviceFields (setService c parts) = parts.take 13 := by
  match parts, h with
  | p0 :: p1 :: p2 :: p3 :: p4 :: p5 :: p6 :: p7 :: p8 :: p9 :: p10 :: p11 :: p12 :: _, _ =>
    rfl

theorem identityFields_setService (c : Claim) (parts : List Str) :
    identityFields (setService c parts) = identityFields c := rfl

theorem statusProviderFields_setService (c : Claim) (parts : List Str) :
    statusProviderFields (setService c parts) = statusProviderFields c := rfl

theorem summaryFields_setService (c : Claim) (parts : List Str) :
    summaryFields (setService c parts) = summaryFields c := rfl

theorem serviceFields_setSummary (c : Claim) (l : Str) :
    serviceFields (setSummary c l) = serviceFields c := by
  unfold setSummary
  split <;> rfl

theorem identityFields_setSummary (c : Claim) (l : Str) :
    identityFields (setSummary c l) = identityFields c := by
  unfold setSummary
  split <;> rfl

theorem statusProviderFields_setSummary (c : Claim) (l : Str) :
    statusProviderFields (setSummary c l) = statusProviderFields c := by
  unfold setSummary
  split <;> rfl

theorem serviceFields_setStatus (c : Claim) (l : Str) :
    serviceFields (setStatus c l) = serviceFields c := by
  unfold setStatus
  split <;> rfl

theorem summaryFields_setStatus (c : Claim) (l : Str) :
    summaryFields (setStatus c l) = summaryFields c := by
  unfold setStatus
  split <;> rfl

theorem identityFields_setStatus (c : Claim) (l : Str) :
    identityFields (setStatus c l) = identityFields c := by
  unfold setStatus
  split <;> rfl

theorem serviceFields_setProvider (c : Claim) (l : Str) :
    serviceFields (setProvider c l) = serviceFields c := by
  unfold setProvider
  split <;> rfl

theorem summaryFields_setProvider (c : Claim) (l : Str) :
    summaryFields (setProvider c l) = summaryFields c := by
  unfold setProvider
  split <;> rfl

theorem identityFields_setProvider (c : Claim) (l : Str) :
    identityFields (setProvider c l) = identityFields c := by
  unfold setProvider
  split <;> rfl

theorem serviceFields_setPatient (c : Claim) (l : Str) :
    serviceFields (setPatient c l) = serviceFields c := by
  unfold setPatient
  split <;> rfl

theorem summaryFields_setPatient (c : Claim) (l : Str) :
    summaryFields (setPatient c l) = summaryFields c := by
  unfold setPatient
  split <;> rfl

theorem statusProviderFields_setPatient (c : Claim) (l : Str) :
    statusProviderFields (setPatient c l) = statusProviderFields c := by
  unfold setPatient
  split <;> rfl

theorem serviceFields_claimHead (lines : List Str) (a : Nat) (nl : Str) :
    serviceFields (claimHead lines a nl) = List.replicate 13 [] := by
  unfold claimHead
  simp only
  split <;> split <;>
    simp only [serviceFields_setProvider, serviceFields_setStatus, serviceFields_setPatient] <;>
    rfl

theorem summaryFields_claimHead (lines : List Str) (a : Nat) (nl : Str) :
    summaryFields (claimHead lines a nl) = [[], [], []] := by
  unfold claimHead
  simp only
  split <;> split <;>
    simp only [summaryFields_setProvider, summaryFields_setStatus, summaryFields_setPatient] <;>
    rfl

theorem identityFields_claimHead (lines : List Str) (a : Nat) (nl : Str) :
    identityFields (claimHead lines a nl) = identityFields (setPatient emptyClaim nl) := by
  unfold claimHead
  simp only
  split <;> split <;>
    simp only [identityFields_setProvider, identityFields_setStatus]

/-! ## Records found by the forward and the backward search -/

theorem summaryLoop_cases (lines : List Str) : ∀ (n k : Nat) (c c1 : Claim),
    summaryLoop lines n k c = Res.ok c1 → c1 = c ∨ ∃ l, c1 = setSummary c l := by
  intro n
  induction n with
  | zero =>
    intro k c c1 h
    simp only [summaryLoop] at h
    cases h
    exact Or.inl rfl
  | succ n ih =>
    intro k c c1 h
    simp only [summaryLoop] at h
    split at h
    · cases h
    · split at h
      · cases h
        exact Or.inr ⟨_, rfl⟩
      · exact ih _ _ _ h

theorem isServiceLine_parts {l : Str} (h : isServiceLine l = true) :
    13 ≤ (serviceParts l).length := by
  unfold isServiceLine at h
  simp only [Bool.and_eq_true, decide_eq_true_eq] at h
  exact h.2

theorem recordAt_forward {lines : List Str} {a s : Nat}
    (h1 : a + 3 ≤ s) (h2 : s < a + 22)
    (hq : isServiceLine (lineAt lines s) = true)
    (hn : ∀ m, a + 3 ≤ m → m < s → isServiceLine (lineAt lines m) = false) :
    ∃ r, recordAt lines a = Res.ok r ∧
      summaryLoop lines (min (s + 5) lines.length - (s + 1)) (s + 1)
        (setService (claimHead lines a (normalize (lineAt lines a)))
          (serviceParts (lineAt lines s))) = Res.ok r ∧
      serviceFields r = (serviceParts (lineAt lines s)).take 13 ∧
      identityFields r = identityFields (setPatient emptyClaim (normalize (lineAt lines a))) := by
  have h3 : s < lines.length := by
    by_contra hcon
    rw [lineAt_of_le (by omega)] at hq
    revert hq
    decide
  obtain ⟨c1, e1, e2⟩ := @claimBody_forward lines a
    (normalize (lineAt lines a)) s (by omega) h2 h3
    (by rw [qualifies_eq]; exact hq)
    (fun m x y => by rw [qualifies_eq]; exact hn m (by omega) y)
  refine ⟨c1, e2, e1, ?_, ?_⟩
  · rcases summaryLoop_cases _ _ _ _ _ e1 with e | ⟨l, e⟩
    · rw [e, serviceFields_setService _ _ (isServiceLine_parts hq)]
    · rw [e, serviceFields_setSummary, serviceFields_setService _ _ (isServiceLine_parts hq)]
  · rcases summaryLoop_cases _ _ _ _ _ e1 with e | ⟨l, e⟩
    · rw [e, identityFields_setService, identityFields_claimHead]
    · rw [e, identityFields_setSummary, identityFields_setService, identityFields_claimHead]

theorem recordAt_backward {lines : List Str} {a d : Nat}
    (ha : a + 1 < lines.length)
    (hf : ∀ m, a + 3 ≤ m → m < a + 22 → isServiceLine (lineAt lines m) = false)
    (hd : d < 10) (hda : d ≤ a + 1)
    (hq : isServiceLine (lineAt lines (a + 1 - d)) = true)
    (hn : ∀ d1, d1 < d → isServiceLine (lineAt lines (a + 1 - d1)) = false) :
    recordAt lines a =
      Res.ok (setService (claimHead lines a (normalize (lineAt lines a)))
        (serviceParts (lineAt lines (a + 1 - d)))) :=
  claimBody_backward ha (fun m x y => by rw [qualifies_eq]; exact hf m (by omega) y) hd hda
    (by rw [qualifies_eq]; exact hq) (fun d1 x => by rw [qualifies_eq]; exact hn d1 x)

theorem recordAt_plain {lines : List Str} {a : Nat}
    (ha : a + 1 < lines.length)
    (hf : ∀ m, a + 3 ≤ m → m < a + 22 → isServiceLine (lineAt lines m) = false)
    (hb : ∀ d, d < 10 → d ≤ a + 1 → isServiceLine (lineAt lines (a + 1 - d)) = false) :
    recordAt lines a = Res.ok (claimHead lines a (normalize (lineAt lines a))) :=
  claimBody_plain ha (fun m x y => by rw [qualifies_eq]; exact hf m (by omega) y)
    (fun d x y => by rw [qualifies_eq]; exact hb d x y)

theorem chosen_lt {lines : List Str} {a : Nat} (h : chosen lines a = true) :
    a < lines.length := by
  by_contra hcon
  rw [chosen_of_le (by omega)] at h
  cases h

theorem chosen_succ_lt {lines : List Str} {a : Nat} (h : chosen lines a = true)
    (hlast : chosen lines (lines.length - 1) = false) : a + 1 < lines.length := by
  have := chosen_lt h
  by_contra hcon
  have e : lines.length - 1 = a := by omega
  rw [e, h] at hlast
  cases hlast

/-! ## What the patient pattern captures on a normalized line -/

theorem NoWsPair.adjacent {s x y : Str} {a b : Char} (h : NoWsPair s)
    (e : s = x ++ a :: b :: y) : ¬(isWs a = true ∧ isWs b = true) := by
  have hin : [a, b] <:+: s := ⟨x, y, by simp [e]⟩
  have := NoWsPair.sub h hin
  unfold NoWsPair at this
  simpa using this

/-- In a string without neighbouring white space, what follows a non-empty
white-space stretch does not start with white space. -/
theorem NoWsPair.after {s x w n y : Str} (h : NoWsPair s) (e : s = x ++ (w ++ (n ++ y)))
    (hw : 1 ≤ w.length) (hws : ∀ c ∈ w, isWs c = true) :
    ∀ d ∈ (n ++ y).head?, isWs d = false := by
  intro d hd
  cases hny : n ++ y with
  | nil => rw [hny] at hd; simp at hd
  | cons b t =>
    rw [hny] at hd e
    simp at hd
    subst hd
    obtain ⟨w0, a, rfl⟩ : ∃ w0 a, w = w0 ++ [a] := by
      rcases List.eq_nil_or_concat w with h0 | ⟨w0, a, h0⟩
      · subst h0; simp at hw
      · exact ⟨w0, a, by simpa using h0⟩
    have ha : isWs a = true := hws a (by simp)
    have := NoWsPair.adjacent (x := x ++ w0) (y := t) (a := a) (b := b) h (by simp [e])
    cases hb : isWs b with
    | false => rfl
    | true => exact absurd ⟨ha, hb⟩ this

/-- In a string without neighbouring white space, what precedes a non-empty
white-space stretch does not end with white space. -/
theorem NoWsPair.before {s x n w y : Str} (h : NoWsPair s) (e : s = x ++ (n ++ (w ++ y)))
    (hw : 1 ≤ w.length) (hws : ∀ c ∈ w, isWs c = true) :
    ∀ d ∈ (x ++ n).getLast?, isWs d = false := by
  intro d hd
  rcases List.eq_nil_or_concat (x ++ n) with h0 | ⟨t, b, h0⟩
  · rw [h0] at hd; simp at hd
  · rw [List.concat_eq_append] at h0
    rw [h0] at hd
    simp at hd
    subst hd
    cases w with
    | nil => simp at hw
    | cons a w1 =>
      have ha : isWs a = true := hws a (by simp)
      have e2 : s = t ++ b :: a :: (w1 ++ y) := by
        rw [e, ← List.append_assoc, h0]
        simp
      have := NoWsPair.adjacent h e2
      cases hb : isWs b with
      | false => rfl
      | true => exact absurd ⟨hb, ha⟩ this

theorem getLast?_append_ne_nil {x n : Str} (hn : n ≠ []) : (x ++ n).getLast? = n.getLast? := by
  rw [List.getLast?_append]
  cases h : n.getLast? with
  | none => simp at h; exact absurd h hn
  | some a => simp

theorem head?_append_ne_nil {n y : Str} (hn : n ≠ []) : (n ++ y).head? = n.head? := by
  cases n with
  | nil => exact absurd rfl hn
  | cons a t => rfl

theorem ne_nil_of_one_le {t : Str} (h : 1 ≤ t.length) : t ≠ [] := by
  intro e
  subst e
  simp at h

/-- The groups of a match of the patient pattern on a line without neighbouring
white space: a name that starts and ends with a non-space character, two
digit runs and a token. -/
theorem patient_caps {nl : Str} {caps : List Str} (hch : NoWsPair nl)
    (h : search patientRe nl = some caps) :
    ∃ n d p m, caps = [n, d, p, m] ∧ n ≠ [] ∧ n <:+: nl ∧
      (∀ c ∈ n.head?, isWs c = false) ∧ (∀ c ∈ n.getLast?, isWs c = false) ∧
      d ≠ [] ∧ (∀ c ∈ d, isDigit c = true) ∧ p ≠ [] ∧ (∀ c ∈ p, isNonWs c = true) ∧
      m ≠ [] ∧ (∀ c ∈ m, isDigit c = true) := by
  obtain ⟨pre, suf, e, hs⟩ := search_sound _ _ _ h
  simp only [patientRe, ws1, Sound, Bool.false_eq_true, if_false, if_true] at hs
  obtain ⟨s1, e0, w1, s2, c1, e1, hw1, hw1ws, ⟨n, s3, c2, e2, hn, _, ⟨w2, s4, c3, e3, hw2,
    hw2ws, ⟨s5, _, w3, s6, c4, _, _, _, ⟨d, s7, c5, _, hd, hdd, ⟨w4, s8, c6, _, _, _,
    ⟨s9, _, w5, s10, c7, _, _, _, ⟨p, s11, c8, _, hp, hpp, ⟨w6, s12, c9, _, _, _,
    ⟨s13, _, w7, s14, c10, _, _, _, ⟨m, s15, c11, _, hm, hmd, hnil, ec11⟩, ec10⟩, ec9⟩,
    ec8⟩, ec7⟩, ec6⟩, ec5⟩, ec4⟩, ec3⟩, ec2⟩, ec1⟩ := hs
  subst hnil ec11 ec10 ec9 ec8 ec7 ec6 ec5 ec4 ec3 ec2 ec1
  have hnn := ne_nil_of_one_le hn
  refine ⟨n, d, p, m, rfl, hnn, ?_, ?_, ?_, ne_nil_of_one_le hd, hdd,
    ne_nil_of_one_le hp, hpp, ne_nil_of_one_le hm, hmd⟩
  · exact ⟨pre ++ "PATIENT:".toList ++ w1, s3, by simp [e, e0, e1, e2]⟩
  · have e5 : nl = (pre ++ "PATIENT:".toList) ++ (w1 ++ (n ++ s3)) := by
      simp [e, e0, e1, e2]
    have := NoWsPair.after hch e5 hw1 hw1ws
    rwa [head?_append_ne_nil hnn] at this
  · have e5 : nl = (pre ++ "PATIENT:".toList ++ w1) ++ (n ++ (w2 ++ s4)) := by
      simp [e, e0, e1, e2, e3]
    have := NoWsPair.before hch e5 hw2 hw2ws
    rwa [getLast?_append_ne_nil hnn] at this

/-- The identity fields after the patient line: all set or all empty. -/
theorem setPatient_identity {nl : Str} (hch : NoWsPair nl) :
    (search patientRe nl = none ∧ identityFields (setPatient emptyClaim nl) = [[], [], [], []]) ∨
    (∃ n d p m, search patientRe nl = some [n, d, p, m] ∧
      identityFields (setPatient emptyClaim nl) = [n, d, p, m] ∧
      n ≠ [] ∧ n <:+: nl ∧ (∀ c ∈ n.head?, isWs c = false) ∧
      (∀ c ∈ n.getLast?, isWs c = false) ∧
      d ≠ [] ∧ (∀ c ∈ d, isDigit c = true) ∧ p ≠ [] ∧ (∀ c ∈ p, isNonWs c = true) ∧
      m ≠ [] ∧ (∀ c ∈ m, isDigit c = true)) := by
  cases hs : search patientRe nl with
  | none =>
    left
    refine ⟨rfl, ?_⟩
    simp only [setPatient, hs]
    rfl
  | some caps =>
    right
    obtain ⟨n, d, p, m, e, h1, h2, h3, h4, h5⟩ := patient_caps hch hs
    subst e
    refine ⟨n, d, p, m, rfl, ?_, h1, h2, h3, h4, h5⟩
    simp only [setPatient, hs, identityFields, trim_self h3 h4]

/-! ## Every field of a record is free of line breaks -/

theorem caps_token : ∀ (re : List Atom) (s : Str) (caps : List Str),
    CapsNonWs re → Sound re s caps → ∀ t ∈ caps, Token t := by
  intro re
  induction re with
  | nil =>
    intro s caps _ h t ht
    simp only [Sound] at h
    subst h
    simp at ht
  | cons a re ih =>
    intro s caps hc h
    cases a with
    | lit l =>
      obtain ⟨s1, _, h1⟩ := h
      exact ih _ _ hc h1
    | exact p n =>
      obtain ⟨t, s1, _, _, _, h1⟩ := h
      exact ih _ _ hc h1
    | eos =>
      obtain ⟨_, h1⟩ := h
      exact ih _ _ hc h1
    | many p lo g cap =>
      obtain ⟨t, s1, caps1, _, _, hp, h1, e⟩ := h
      cases cap with
      | false =>
        simp only [Bool.false_eq_true, if_false] at e
        subst e
        exact ih _ _ hc h1
      | true =>
        simp only [if_true] at e
        subst e
        obtain ⟨hc1, hc2⟩ := hc
        intro u hu
        rcases List.mem_cons.1 hu with rfl | hu
        · intro c hcu
          exact hc1 c (hp c hcu)
        · exact ih _ _ hc2 h1 u hu

theorem search_token {re : List Atom} {s : Str} {caps : List Str} (hc : CapsNonWs re)
    (h : search re s = some caps) : ∀ t ∈ caps, Token t := by
  obtain ⟨pre, suf, _, hs⟩ := search_sound _ _ _ h
  exact caps_token _ _ _ hc hs

theorem statusRe_caps : CapsNonWs statusRe := by
  simp only [statusRe, ws1, ws0, CapsNonWs, and_true]
  exact ⟨fun c => isNonWs_not_ws, fun c => isNonWs_not_ws, fun c => isNonWs_not_ws⟩

theorem providerRe_caps : CapsNonWs providerRe := by
  simp only [providerRe, ws0, CapsNonWs, and_true]
  exact ⟨fun c => isNonWs_not_ws, fun c => isNonWs_not_ws⟩

theorem patRespRe_caps : CapsNonWs patRespRe := by
  simp only [patRespRe, ws1, CapsNonWs, and_true]
  exact ⟨fun c => isNumCh_not_ws, fun c => isNumCh_not_ws, fun c => isNumCh_not_ws⟩

theorem token_nil : Token [] := by
  intro c hc
  simp at hc

theorem RecordSafe.empty : RecordSafe emptyClaim := by
  refine ⟨⟨by simp [emptyClaim], ?_, by simp [emptyClaim], by simp [emptyClaim]⟩, ?_⟩
  · simp [emptyClaim, NoWsPair]
  · intro f hf
    simp [rowOf, emptyClaim] at hf
    subst hf
    exact token_nil

theorem spacedWords_of_inf {n nl : Str} (h1 : ∀ c ∈ nl, isWs c = true → c = ' ')
    (h2 : NoWsPair nl) (hin : n <:+: nl) (h3 : ∀ c ∈ n.head?, isWs c = false)
    (h4 : ∀ c ∈ n.getLast?, isWs c = false) : SpacedWords n :=
  ⟨fun c hc hw => h1 c (hin.subset hc) hw, NoWsPair.sub h2 hin, h3, h4⟩

theorem RecordSafe.setPatient {nl : Str} (h1 : ∀ c ∈ nl, isWs c = true → c = ' ')
    (h2 : NoWsPair nl) : RecordSafe (setPatient emptyClaim nl) := by
  rcases setPatient_identity h2 with ⟨hs, _⟩ | ⟨n, d, p, m, hs, _, _, hin, g1, g2, _, g3, _, g4,
    _, g5⟩
  · simp only [PdfCsv.setPatient, hs]
    exact RecordSafe.empty
  · simp only [PdfCsv.setPatient, hs, trim_self g1 g2]
    refine ⟨spacedWords_of_inf h1 h2 hin g1 g2, ?_⟩
    intro f hf
    simp only [rowOf, emptyClaim, List.tail_cons, List.mem_cons, List.mem_singleton] at hf
    have hd : Token d := fun c hc => isDigit_not_ws (g3 c hc)
    have hp : Token p := fun c hc => isNonWs_not_ws (g4 c hc)
    have hm : Token m := fun c hc => isDigit_not_ws (g5 c hc)
    rcases hf with e | e | e | hf
    · rw [e]; exact hd
    · rw [e]; exact hp
    · rw [e]; exact hm
    · have : f = [] := by
        rcases hf with e | e | e | e | e | e | e | e | e | e | e | e | e | e | e | e | e | e |
          e | e | e | e <;> first | exact e | simp at e
      rw [this]
      exact token_nil

theorem rowOf_groups (r : Claim) :
    rowOf r = identityFields r ++ statusProviderFields r ++ serviceFields r ++ summaryFields r :=
  rfl

theorem summaryLoop_inv {lines : List Str} (P : Claim → Prop)
    (hS : ∀ c l, P c → P (setSummary c l)) {n k : Nat} {c c1 : Claim} (hc : P c)
    (h : summaryLoop lines n k c = Res.ok c1) : P c1 := by
  rcases summaryLoop_cases _ _ _ _ _ h with e | ⟨l, e⟩
  · rw [e]; exact hc
  · rw [e]; exact hS c l hc

theorem forwardLoop_inv {lines : List Str} (P : Claim → Prop)
    (hS : ∀ c l, P c → P (setSummary c l))
    (hV : ∀ c l, P c → P (setService c (serviceParts l))) :
    ∀ (n j : Nat) (c : Claim) (b : Bool) (c1 : Claim), P c →
      forwardLoop lines n j c = Res.ok (b, c1) → P c1 := by
  intro n
  induction n with
  | zero =>
    intro j c b c1 hc h
    simp only [forwardLoop] at h
    cases h
    exact hc
  | succ n ih =>
    intro j c b c1 hc h
    simp only [forwardLoop] at h
    split at h
    · cases h
    · split at h
      · split at h
        · split at h
          · rename_i c2 hs
            cases h
            exact summaryLoop_inv P hS (hV c _ hc) hs
          · cases h
          · cases h
        · exact ih _ _ _ _ hc h
      · exact ih _ _ _ _ hc h

theorem backwardLoop_inv {lines : List Str} (P : Claim → Prop)
    (hV : ∀ c l, P c → P (setService c (serviceParts l))) :
    ∀ (n j : Nat) (c c1 : Claim), P c → backwardLoop lines n j c = Res.ok c1 → P c1 := by
  intro n
  induction n with
  | zero =>
    intro j c c1 hc h
    simp only [backwardLoop] at h
    cases h
    exact hc
  | succ n ih =>
    intro j c c1 hc h
    simp only [backwardLoop] at h
    split at h
    · cases h
    · split at h
      · split at h
        · cases h
          exact hV c _ hc
        · exact ih _ _ _ hc h
      · exact ih _ _ _ hc h

theorem claimBody_inv {lines : List Str} (P : Claim → Prop)
    (hS : ∀ c l, P c → P (setSummary c l))
    (hV : ∀ c l, P c → P (setService c (serviceParts l)))
    {a : Nat} {nl : Str} {r : Claim} (h0 : P (claimHead lines a nl))
    (h : claimBody lines a nl = Res.ok r) : P r := by
  simp only [claimBody] at h
  split at h
  · rename_i c3 hf
    cases h
    exact forwardLoop_inv P hS hV _ _ _ _ _ h0 hf
  · rename_i c3 hf
    exact backwardLoop_inv P hV _ _ _ _ (forwardLoop_inv P hS hV _ _ _ _ _ h0 hf) h
  · cases h
  · cases h

theorem serviceFields_token (c : Claim) (l : Str) :
    ∀ f ∈ serviceFields (setService c (serviceParts l)), Token f := by
  intro f hf
  simp only [serviceFields, setService, List.mem_cons, List.mem_singleton] at hf
  have key : ∀ n, Token ((serviceParts l).getD n []) := fun n c hc => getD_token n c hc
  simp only [List.not_mem_nil, or_false] at hf
  rcases hf with e | e | e | e | e | e | e | e | e | e | e | e | e <;> (rw [e]; exact key _)

theorem summaryFields_token (c : Claim) (l : Str) (hc : ∀ f ∈ summaryFields c, Token f) :
    ∀ f ∈ summaryFields (setSummary c l), Token f := by
  unfold setSummary
  split
  · rename_i x y z hs
    have := search_token patRespRe_caps hs
    intro f hf
    simp only [summaryFields, List.mem_cons, List.mem_singleton, List.not_mem_nil,
      or_false] at hf
    rcases hf with e | e | e <;> (rw [e]; exact this _ (by simp))
  · exact hc

theorem statusProviderFields_token_setStatus (c : Claim) (l : Str)
    (hc : ∀ f ∈ statusProviderFields c, Token f) :
    ∀ f ∈ statusProviderFields (setStatus c l), Token f := by
  unfold setStatus
  split
  · rename_i x y z hs
    have := search_token statusRe_caps hs
    intro f hf
    simp only [statusProviderFields, List.mem_cons, List.mem_singleton, List.not_mem_nil,
      or_false] at hf
    rcases hf with e | e | e | e | e
    · rw [e]; exact this _ (by simp)
    · rw [e]; exact this _ (by simp)
    · rw [e]; exact this _ (by simp)
    · rw [e]; exact hc _ (by simp [statusProviderFields])
    · rw [e]; exact hc _ (by simp [statusProviderFields])
  · exact hc

theorem statusProviderFields_token_setProvider (c : Claim) (l : Str)
    (hc : ∀ f ∈ statusProviderFields c, Token f) :
    ∀ f ∈ statusProviderFields (setProvider c l), Token f := by
  unfold setProvider
  split
  · rename_i x y hs
    have := search_token providerRe_caps hs
    intro f hf
    simp only [statusProviderFields, List.mem_cons, List.mem_singleton, List.not_mem_nil,
      or_false] at hf
    rcases hf with e | e | e | e | e
    · rw [e]; exact hc _ (by simp [statusProviderFields])
    · rw [e]; exact hc _ (by simp [statusProviderFields])
    · rw [e]; exact hc _ (by simp [statusProviderFields])
    · rw [e]; exact this _ (by simp)
    · rw [e]; exact this _ (by simp)
  · exact hc

theorem statusProviderFields_token_claimHead (lines : List Str) (a : Nat) (nl : Str) :
    ∀ f ∈ statusProviderFields (claimHead lines a nl), Token f := by
  have h0 : ∀ f ∈ statusProviderFields (setPatient emptyClaim nl), Token f := by
    rw [statusProviderFields_setPatient]
    intro f hf
    simp [statusProviderFields, emptyClaim] at hf
    subst hf
    exact token_nil
  unfold claimHead
  simp only
  split <;> split
  · exact statusProviderFields_token_setProvider _ _
      (statusProviderFields_token_setStatus _ _ h0)
  · exact statusProviderFields_token_setProvider _ _ h0
  · exact statusProviderFields_token_setStatus _ _ h0
  · exact h0

/-- The record built for an anchor line is safe. -/
theorem recordAt_safe {lines : List Str} {a : Nat} {r : Claim}
    (h : recordAt lines a = Res.ok r) : RecordSafe r := by
  have hnl1 : ∀ c ∈ normalize (lineAt lines a), isWs c = true → c = ' ' :=
    fun c hc hw => normalize_ws hc hw
  have hnl2 : NoWsPair (normalize (lineAt lines a)) := normalize_chain _
  have hp := RecordSafe.setPatient hnl1 hnl2
  have key := @claimBody_inv lines
    (fun c => identityFields c = identityFields (setPatient emptyClaim (normalize (lineAt lines a)))
      ∧ (∀ f ∈ statusProviderFields c, Token f) ∧ (∀ f ∈ serviceFields c, Token f)
      ∧ (∀ f ∈ summaryFields c, Token f))
    (fun c l hc => ⟨by rw [identityFields_setSummary]; exact hc.1,
      by rw [statusProviderFields_setSummary]; exact hc.2.1,
      by rw [serviceFields_setSummary]; exact hc.2.2.1,
      summaryFields_token c l hc.2.2.2⟩)
    (fun c l hc => ⟨by rw [identityFields_setService]; exact hc.1,
      by rw [statusProviderFields_setService]; exact hc.2.1,
      serviceFields_token c l,
      by rw [summaryFields_setService]; exact hc.2.2.2⟩)
    a (normalize (lineAt lines a)) r
    ⟨identityFields_claimHead _ _ _, statusProviderFields_token_claimHead _ _ _,
      by
        rw [serviceFields_claimHead]
        intro f hf
        rw [List.eq_of_mem_replicate hf]
        exact token_nil,
      by
        rw [summaryFields_claimHead]
        intro f hf
        simp at hf
        subst hf
        exact token_nil⟩ h
  obtain ⟨k1, k2, k3, k4⟩ := key
  have e1 : r.patientName = (setPatient emptyClaim (normalize (lineAt lines a))).patientName := by
    have := congrArg (fun l => l.getD 0 []) k1
    simpa [identityFields] using this
  refine ⟨by rw [e1]; exact hp.1, ?_⟩
  intro f hf
  rw [rowOf_groups] at hf
  have hf2 : f ∈ (identityFields r).tail ∨ f ∈ statusProviderFields r ∨ f ∈ serviceFields r ∨
      f ∈ summaryFields r := by
    simp only [identityFields, List.cons_append, List.tail_cons, List.mem_append,
      List.mem_cons] at hf ⊢
    tauto
  rcases hf2 with g | g | g | g
  · rw [k1] at g
    exact hp.2 f (by
      rw [rowOf_groups]
      simp only [identityFields, List.cons_append, List.tail_cons, List.mem_append,
        List.mem_cons] at g ⊢
      tauto)
  · exact k2 f g
  · exact k3 f g
  · exact k4 f g

theorem parse_safe {text : Str} {rs : List Claim}
    (h : parseHealthcareClaims text = Res.ok rs) : ∀ r ∈ rs, RecordSafe r := by
  have hf := parse_sound h
  intro r hr
  obtain ⟨k, hk⟩ := List.getElem?_of_mem hr
  have hflip := hf.flip
  obtain ⟨a, _, ha⟩ := forall₂_getElem? hflip k r hk
  exact recordAt_safe ha

/-! ## The serializer -/

theorem appendRows_eq (rs : List Claim) : ∀ (acc : Str),
    appendRows acc rs = acc ++ (rs.map fun r => csvLine (rowOf r)).flatten := by
  induction rs with
  | nil => intro acc; simp [appendRows]
  | cons r rs ih =>
    intro acc
    simp only [appendRows, ih, List.map_cons, List.flatten_cons, List.append_assoc]

theorem convertToCSV_eq {rs : List Claim} (h : rs ≠ []) :
    convertToCSV rs = csvLine headers ++ (rs.map fun r => csvLine (rowOf r)).flatten := by
  unfold convertToCSV
  have hl : rs.length ≠ 0 := by
    intro e
    exact h (List.length_eq_zero.1 e)
  rw [if_neg hl, appendRows_eq]

theorem csvLine_headers : csvLine headers =
    ("Patient Name,Patient ID,Patient Control Number,Claim Number,Claim Status," ++
     "Claim Type,Auth/Ref Number,Rendering Provider,Rendering Provider ID,Line Item," ++
     "DOS Start Date,DOS End Date,Procedure Code,Modifier,Charge,NBR,Group Code," ++
     "Adj Reason,Adj Amount,Adj Qty,PD Qty,Payment,Patient Responsibility," ++
     "Total Charge,Total Payment\r\n").toList := by
  rfl

theorem doubleQuotes_eq (v : Str) :
    doubleQuotes v = v.flatMap fun c => if c = '"' then ['"', '"'] else [c] := by
  induction v with
  | nil => rfl
  | cons c cs ih =>
    simp only [doubleQuotes, List.flatMap_cons, ih]
    by_cases hc : c = '"'
    · simp [hc]
    · simp [hc]

theorem escapeCSV_some (v : Str) :
    escapeCSV (some v) = if needsQuotes v = true then '"' :: (doubleQuotes v ++ ['"']) else v :=
  rfl

theorem needsQuotes_iff (v : Str) :
    needsQuotes v = true ↔ (',' ∈ v ∨ '\n' ∈ v ∨ '"' ∈ v) := by
  simp [needsQuotes, or_assoc]

/-! ## Re-splitting the table -/

theorem resplit_cr_end {f : Str} {row : List Str} {tail : Str} (ht : FieldEnd tail) :
    resplit Mode.cr f row tail = resplit Mode.plain (f ++ ['\r']) row tail := by
  rcases ht with ⟨rest, rfl⟩ | ⟨rest, rfl⟩
  · simp [resplit]
  · simp [resplit]

theorem resplit_quote_end {f : Str} {row : List Str} {tail : Str} (ht : FieldEnd tail) :
    resplit Mode.quote f row tail = resplit Mode.plain f row tail := by
  rcases ht with ⟨rest, rfl⟩ | ⟨rest, rfl⟩
  · simp [resplit]
  · simp [resplit]

theorem resplit_plain_run {row : List Str} {tail : Str} (ht : FieldEnd tail) :
    ∀ (v f : Str), (∀ c ∈ v, c ≠ ',' ∧ c ≠ '"' ∧ c ≠ '\n') →
      resplit Mode.plain f row (v ++ tail) = resplit Mode.plain (f ++ v) row tail ∧
      resplit Mode.cr f row (v ++ tail) = resplit Mode.plain (f ++ '\r' :: v) row tail := by
  intro v
  induction v with
  | nil =>
    intro f _
    exact ⟨by simp, by simpa using resplit_cr_end ht⟩
  | cons c v ih =>
    intro f hv
    obtain ⟨h1, h2, h3⟩ := hv c (by simp)
    have hv1 : ∀ c ∈ v, c ≠ ',' ∧ c ≠ '"' ∧ c ≠ '\n' := fun d hd => hv d (by simp [hd])
    by_cases hr : c = '\r'
    · subst hr
      constructor
      · have := (ih f hv1).2
        simpa [resplit] using this
      · have := (ih (f ++ ['\r']) hv1).2
        simpa [resplit] using this
    · constructor
      · have := (ih (f ++ [c]) hv1).1
        simpa [resplit, h1, h2, hr] using this
      · have := (ih (f ++ ['\r', c]) hv1).1
        simpa [resplit, h1, h3, hr] using this

theorem resplit_quoted_run {row : List Str} {tail : Str} (ht : FieldEnd tail) :
    ∀ (v f : Str),
      resplit Mode.quoted f row (doubleQuotes v ++ '"' :: tail) =
        resplit Mode.plain (f ++ v) row tail := by
  intro v
  induction v with
  | nil =>
    intro f
    simpa [resplit, doubleQuotes] using resplit_quote_end ht
  | cons c v ih =>
    intro f
    by_cases hq : c = '"'
    · subst hq
      have := ih (f ++ ['"'])
      simpa [resplit, doubleQuotes] using this
    · have := ih (f ++ [c])
      simpa [resplit, doubleQuotes, hq] using this

/-- Reading back one escaped field. -/
theorem resplit_field {row : List Str} {tail : Str} (ht : FieldEnd tail) (v : Str) :
    resplit Mode.plain [] row (escapeCSV (some v) ++ tail) = resplit Mode.plain v row tail := by
  rw [escapeCSV_some]
  by_cases hn : needsQuotes v = true
  · rw [if_pos hn]
    have := @resplit_quoted_run row _ ht v []
    simpa [resplit] using this
  · rw [if_neg hn]
    have hv : ∀ c ∈ v, c ≠ ',' ∧ c ≠ '"' ∧ c ≠ '\n' := by
      intro c hc
      rw [needsQuotes_iff] at hn
      refine ⟨?_, ?_, ?_⟩ <;> (intro e; subst e; exact hn (by simp [hc]))
    simpa using (@resplit_plain_run row _ ht v [] hv).1

theorem resplit_comma (g : Str) (row : List Str) (rest : Str) :
    resplit Mode.plain g row (',' :: rest) = resplit Mode.plain [] (row ++ [g]) rest := by
  simp [resplit]

theorem resplit_crlf (g : Str) (row : List Str) (rest : Str) :
    resplit Mode.plain g row ('\r' :: '\n' :: rest) =
      (row ++ [g]) :: resplit Mode.plain [] [] rest := by
  simp [resplit]

/-- Reading back one line of output. -/
theorem resplit_line (rest : Str) : ∀ (fields : List Str) (row : List Str), fields ≠ [] →
    resplit Mode.plain [] row (csvLine fields ++ rest) =
      (row ++ fields) :: resplit Mode.plain [] [] rest := by
  intro fields
  induction fields with
  | nil => intro row h; exact absurd rfl h
  | cons v vs ih =>
    intro row _
    cases vs with
    | nil =>
      have h1 := @resplit_field row ('\r' :: '\n' :: rest)
        (Or.inr ⟨rest, rfl⟩) v
      simp only [csvLine, List.map_cons, List.map_nil, joinComma, crlf, List.append_assoc,
        List.cons_append, List.nil_append]
      rw [h1, resplit_crlf]
    | cons v2 vs =>
      have h2 := ih (row ++ [v]) (by simp)
      have h1 := @resplit_field row
        (',' :: (csvLine (v2 :: vs) ++ rest)) (Or.inl ⟨_, rfl⟩) v
      have e : csvLine (v :: v2 :: vs) ++ rest =
          escapeCSV (some v) ++ ',' :: (csvLine (v2 :: vs) ++ rest) := by
        simp [csvLine, joinComma]
      rw [e, h1, resplit_comma, h2]
      simp

theorem resplit_lines : ∀ (rows : List (List Str)), (∀ row ∈ rows, row ≠ []) →
    resplitCSV (rows.map csvLine).flatten = rows := by
  intro rows
  induction rows with
  | nil => intro _; simp [resplitCSV, resplit]
  | cons row rows ih =>
    intro h
    have h1 := resplit_line (rows.map csvLine).flatten row [] (h row (by simp))
    have h2 := ih (fun r hr => h r (by simp [hr]))
    unfold resplitCSV at h2 ⊢
    simp only [List.map_cons, List.flatten_cons]
    rw [h1, h2]
    simp

/-- The join of the model is the usual join with a separator. -/
theorem joinComma_eq : ∀ (fs : List Str), joinComma fs = List.intercalate [','] fs
  | [] => rfl
  | [x] => by simp [joinComma, List.intercalate]
  | x :: y :: zs => by
    have ih := joinComma_eq (y :: zs)
    simp only [joinComma, ih]
    simp [List.intercalate]

theorem rowOf_ne_nil (r : Claim) : rowOf r ≠ [] := by
  simp [rowOf]

theorem headers_ne_nil : headers ≠ [] := by
  simp [headers]

/-! ## Line breaks in the output -/

theorem mem_doubleQuotes {v : Str} {c : Char} (h : c ∈ doubleQuotes v) : c ∈ v ∨ c = '"' := by
  induction v with
  | nil => simp [doubleQuotes] at h
  | cons d v ih =>
    simp only [doubleQuotes] at h
    split at h
    · simp only [List.mem_cons] at h
      rcases h with h | h | h
      · exact Or.inr h
      · exact Or.inr h
      · rcases ih h with g | g
        · exact Or.inl (by simp [g])
        · exact Or.inr g
    · rcases List.mem_cons.1 h with h | h
      · exact Or.inl (by simp [h])
      · rcases ih h with g | g
        · exact Or.inl (by simp [g])
        · exact Or.inr g

theorem mem_escapeCSV {v : Str} {c : Char} (h : c ∈ escapeCSV (some v)) : c ∈ v ∨ c = '"' := by
  rw [escapeCSV_some] at h
  split at h
  · simp only [List.mem_cons, List.mem_append, List.mem_singleton, List.not_mem_nil,
      or_false] at h
    rcases h with h | h | h
    · exact Or.inr h
    · exact mem_doubleQuotes h
    · exact Or.inr h
  · exact Or.inl h

theorem mem_joinComma : ∀ {fs : List Str} {c : Char}, c ∈ joinComma fs →
    c = ',' ∨ ∃ f ∈ fs, c ∈ f := by
  intro fs
  induction fs with
  | nil => intro c h; simp [joinComma] at h
  | cons x xs ih =>
    intro c h
    cases xs with
    | nil =>
      simp only [joinComma] at h
      exact Or.inr ⟨x, by simp, h⟩
    | cons y zs =>
      simp only [joinComma, List.mem_append, List.mem_cons] at h
      rcases h with h | h | h
      · exact Or.inr ⟨x, by simp, h⟩
      · exact Or.inl h
      · rcases ih h with g | ⟨f, hf, g⟩
        · exact Or.inl g
        · exact Or.inr ⟨f, by simp at hf ⊢; tauto, g⟩

/-- A row made of fields without CR and LF has no CR and no LF. -/
theorem row_no_break {fields : List Str}
    (h : ∀ f ∈ fields, '\r' ∉ f ∧ '\n' ∉ f) :
    '\r' ∉ joinComma (fields.map fun f => escapeCSV (some f)) ∧
      '\n' ∉ joinComma (fields.map fun f => escapeCSV (some f)) := by
  constructor
  · intro hc
    rcases mem_joinComma hc with g | ⟨e, he, g⟩
    · revert g; decide
    · obtain ⟨f, hf, rfl⟩ := List.mem_map.1 he
      rcases mem_escapeCSV g with g1 | g1
      · exact (h f hf).1 g1
      · revert g1; decide
  · intro hc
    rcases mem_joinComma hc with g | ⟨e, he, g⟩
    · revert g; decide
    · obtain ⟨f, hf, rfl⟩ := List.mem_map.1 he
      rcases mem_escapeCSV g with g1 | g1
      · exact (h f hf).2 g1
      · revert g1; decide

theorem RecordSafe.no_break {r : Claim} (h : RecordSafe r) :
    ∀ f ∈ rowOf r, '\r' ∉ f ∧ '\n' ∉ f := by
  intro f hf
  have hcases : f = r.patientName ∨ f ∈ (rowOf r).tail := by
    simp only [rowOf, List.mem_cons, List.tail_cons] at hf ⊢
    exact hf
  rcases hcases with e | e
  · subst e
    constructor
    · intro hc
      have := h.1.1 _ hc (by decide)
      revert this; decide
    · intro hc
      have := h.1.1 _ hc (by decide)
      revert this; decide
  · have := h.2 f e
    constructor
    · intro hc
      have := this _ hc
      revert this; decide
    · intro hc
      have := this _ hc
      revert this; decide

/-! ## Matches on lines of known shape -/

theorem head?_cons_nonws {c : Char} {s : Str} {p : Char → Bool} (h : p c = false) :
    ∀ d ∈ (c :: s).head?, p d = false := by
  intro d hd
  simp at hd
  subst hd
  exact h

theorem head?_append_class {t u : Str} {p q : Char → Bool} (ht : t ≠ [])
    (hq : ∀ c ∈ t, q c = true) (hpq : ∀ c, q c = true → p c = false) :
    ∀ d ∈ (t ++ u).head?, p d = false := by
  intro d hd
  rw [head?_append_ne_nil ht] at hd
  cases t with
  | nil => exact absurd rfl ht
  | cons a t =>
    simp at hd
    subst hd
    exact hpq _ (hq _ (by simp))

theorem step_ws1 {re : List Atom} {u : Str} {caps : List Str}
    (hu : ∀ d ∈ u.head?, isWs d = false) (h : matchHere re u = some caps) :
    matchHere (ws1 :: re) (' ' :: u) = some caps := by
  have := @step_greedy re isWs 1 false [' '] u _
    (by intro c hc; simp at hc; subst hc; decide) (by simp) hu h
  simpa [ws1] using this

/-- The continuation of the lazy name group fails inside the name. -/
theorem patient_lazy_fail {N t1 t2 rest : Str} {re : List Atom}
    (hNc : ∀ c ∈ N, c ≠ ':') (hNl : ∀ d ∈ N.getLast?, isWs d = false)
    (e : N = t1 ++ t2) (hne : t2 ≠ []) :
    matchHere (ws1 :: Atom.lit "PATIENT ID #:".toList :: re)
      (t2 ++ (' ' :: ("PATIENT ID #:".toList ++ rest))) = none := by
  simp only [ws1, matchHere]
  apply manyK_none
  intro t u hs _ hws
  cases hl : stripLit "PATIENT ID #:".toList u with
  | none => simp
  | some v =>
    exfalso
    have hu := stripLit_some hl
    rw [hu] at hs
    have hp1 : ∀ a ∈ t2, (fun c : Char => decide (c ≠ ':')) a = true := by
      intro a ha
      simpa using hNc a (by simp [e, ha])
    have hp2 : ∀ a ∈ t, (fun c : Char => decide (c ≠ ':')) a = true := by
      intro a ha
      have hw := hws a ha
      have : a ≠ ':' := by
        intro e2
        subst e2
        revert hw
        decide
      simpa using this
    have hL : List.takeWhile (fun c : Char => decide (c ≠ ':'))
        (t2 ++ (' ' :: ("PATIENT ID #:".toList ++ rest))) = t2 ++ " PATIENT ID #".toList := by
      rw [List.takeWhile_append_of_pos hp1]
      rfl
    have hR : List.takeWhile (fun c : Char => decide (c ≠ ':'))
        (t ++ ("PATIENT ID #:".toList ++ v)) = t ++ "PATIENT ID #".toList := by
      rw [List.takeWhile_append_of_pos hp2]
      rfl
    rw [hs, hR] at hL
    have e3 : t ++ "PATIENT ID #".toList = (t2 ++ [' ']) ++ "PATIENT ID #".toList := by
      rw [hL]
      simp
    have e4 : t = t2 ++ [' '] := List.append_cancel_right e3
    obtain ⟨b, hb⟩ : ∃ b, t2.getLast? = some b := by
      cases h : t2.getLast? with
      | none => simp at h; exact absurd h hne
      | some b => exact ⟨b, rfl⟩
    have hb1 : isWs b = false := by
      apply hNl b
      rw [e, getLast?_append_ne_nil hne, hb]
      rfl
    have hb2 : isWs b = true :=
      hws b (by rw [e4]; simp [List.mem_of_getLast?_eq_some hb])
    rw [hb1] at hb2
    cases hb2

/-- The patient pattern on a normalized line of the documented shape. -/
theorem patient_match {N D C M : Str}
    (hN : N ≠ []) (hNc : ∀ c ∈ N, c ≠ ':') (hNd : ∀ c ∈ N, isDot c = true)
    (hNh : ∀ d ∈ N.head?, isWs d = false) (hNl : ∀ d ∈ N.getLast?, isWs d = false)
    (hD : D ≠ []) (hDd : ∀ c ∈ D, isDigit c = true)
    (hC : C ≠ []) (hCc : ∀ c ∈ C, isNonWs c = true)
    (hM : M ≠ []) (hMd : ∀ c ∈ M, isDigit c = true) :
    search patientRe ("PATIENT: ".toList ++ N ++ " PATIENT ID #: ".toList ++ D ++
      " PAT CTRL #: ".toList ++ C ++ " CLM #: ".toList ++ M) = some [N, D, C, M] := by
  have e : "PATIENT: ".toList ++ N ++ " PATIENT ID #: ".toList ++ D ++
      " PAT CTRL #: ".toList ++ C ++ " CLM #: ".toList ++ M =
      "PATIENT:".toList ++ (' ' :: (N ++ (' ' :: ("PATIENT ID #:".toList ++ (' ' :: (D ++
        (' ' :: ("PAT CTRL #:".toList ++ (' ' :: (C ++ (' ' :: ("CLM #:".toList ++
          (' ' :: M))))))))))))) := by
    simp only [List.append_assoc]
    rfl
  rw [e]
  apply search_of_matchHere
  have h14 : matchHere [Atom.many isDigit 1 true true] (M ++ []) = some [M] := by
    have := @step_greedy [] isDigit 1 true M [] _ hMd
      (List.length_pos.2 hM) (by simp) rfl
    simpa using this
  rw [List.append_nil] at h14
  have h13 := step_ws1 (head?_append_class (u := []) (p := isWs) hM hMd
    (fun c => isDigit_not_ws)) (by simpa using h14)
  rw [List.append_nil] at h13
  have h12 : matchHere (Atom.lit "CLM #:".toList :: ws1 :: [Atom.many isDigit 1 true true])
      ("CLM #:".toList ++ (' ' :: M)) = some [M] := by
    rw [step_lit]
    exact h13
  have h11 := step_ws1 (u := "CLM #:".toList ++ (' ' :: M))
    (head?_cons_nonws (by decide)) h12
  have h10 := @step_greedy _ isNonWs 1 true C _ _ hCc
    (List.length_pos.2 hC) (head?_cons_nonws (by decide)) h11
  have h9 := step_ws1 (head?_append_class hC hCc (fun c => isNonWs_not_ws)) h10
  have h8 : matchHere (Atom.lit "PAT CTRL #:".toList :: ws1 :: Atom.many isNonWs 1 true true ::
      ws1 :: Atom.lit "CLM #:".toList :: ws1 :: [Atom.many isDigit 1 true true])
      ("PAT CTRL #:".toList ++ (' ' :: (C ++ (' ' :: ("CLM #:".toList ++ (' ' :: M)))))) =
      some [C, M] := by
    rw [step_lit]
    simpa using h9
  have h7 := step_ws1 (u := "PAT CTRL #:".toList ++ _) (head?_cons_nonws (by decide)) h8
  have h6 := @step_greedy _ isDigit 1 true D _ _ hDd
    (List.length_pos.2 hD) (head?_cons_nonws (by decide)) h7
  have h5 := step_ws1 (head?_append_class hD hDd (fun c => isDigit_not_ws)) h6
  have h4 : matchHere (Atom.lit "PATIENT ID #:".toList :: ws1 ::
      Atom.many isDigit 1 true true :: ws1 ::
      Atom.lit "PAT CTRL #:".toList :: ws1 :: Atom.many isNonWs 1 true true ::
      ws1 :: Atom.lit "CLM #:".toList :: ws1 :: [Atom.many isDigit 1 true true])
      ("PATIENT ID #:".toList ++ (' ' :: (D ++ (' ' :: ("PAT CTRL #:".toList ++
        (' ' :: (C ++ (' ' :: ("CLM #:".toList ++ (' ' :: M)))))))))) = some [D, C, M] := by
    rw [step_lit]
    simpa using h5
  have h3 := step_ws1 (u := "PATIENT ID #:".toList ++ _) (head?_cons_nonws (by decide)) h4
  have h2 := @step_lazy _ isDot 1 true N _ _ hNd (List.length_pos.2 hN)
    (fun t1 t2 e1 hne => patient_lazy_fail hNc hNl e1 hne) h3
  have h1 := step_ws1 (u := N ++ _) (by rw [head?_append_ne_nil hN]; exact hNh) h2
  unfold patientRe
  rw [step_lit]
  exact h1

/-- The payment-summary pattern on a normalized line of the documented shape. -/
theorem patResp_match {x y z : Str}
    (hx : x ≠ []) (hxc : ∀ c ∈ x, isNumCh c = true)
    (hy : y ≠ []) (hyc : ∀ c ∈ y, isNumCh c = true)
    (hz : z ≠ []) (hzc : ∀ c ∈ z, isNumCh c = true) :
    search patRespRe ("PAT RESP: ".toList ++ x ++ " TOTAL CHARGE: ".toList ++ y ++
      " TOTAL PAYMENT: ".toList ++ z) = some [x, y, z] := by
  have e : "PAT RESP: ".toList ++ x ++ " TOTAL CHARGE: ".toList ++ y ++
      " TOTAL PAYMENT: ".toList ++ z =
      "PAT RESP:".toList ++ (' ' :: (x ++ (' ' :: ("TOTAL CHARGE:".toList ++ (' ' :: (y ++
        (' ' :: ("TOTAL PAYMENT:".toList ++ (' ' :: z))))))))) := by
    simp only [List.append_assoc]
    rfl
  rw [e]
  apply search_of_matchHere
  have h10 : matchHere [Atom.many isNumCh 1 true true] (z ++ []) = some [z] := by
    have := @step_greedy [] isNumCh 1 true z [] _ hzc
      (List.length_pos.2 hz) (by simp) rfl
    simpa using this
  rw [List.append_nil] at h10
  have h9 := step_ws1 (head?_append_class (u := []) (p := isWs) hz hzc
    (fun c => isNumCh_not_ws)) (by simpa using h10)
  rw [List.append_nil] at h9
  have h8 : matchHere (Atom.lit "TOTAL PAYMENT:".toList :: ws1 ::
      [Atom.many isNumCh 1 true true]) ("TOTAL PAYMENT:".toList ++ (' ' :: z)) = some [z] := by
    rw [step_lit]
    exact h9
  have h7 := step_ws1 (u := "TOTAL PAYMENT:".toList ++ (' ' :: z))
    (head?_cons_nonws (by decide)) h8
  have h6 := @step_greedy _ isNumCh 1 true y _ _ hyc
    (List.length_pos.2 hy) (head?_cons_nonws (by decide)) h7
  have h5 := step_ws1 (head?_append_class hy hyc (fun c => isNumCh_not_ws)) h6
  have h4 : matchHere (Atom.lit "TOTAL CHARGE:".toList :: ws1 ::
      Atom.many isNumCh 1 true true :: ws1 :: Atom.lit "TOTAL PAYMENT:".toList :: ws1 ::
      [Atom.many isNumCh 1 true true])
      ("TOTAL CHARGE:".toList ++ (' ' :: (y ++ (' ' :: ("TOTAL PAYMENT:".toList ++
        (' ' :: z)))))) = some [y, z] := by
    rw [step_lit]
    simpa using h5
  have h3 := step_ws1 (u := "TOTAL CHARGE:".toList ++ _) (head?_cons_nonws (by decide)) h4
  have h2 := @step_greedy _ isNumCh 1 true x _ _ hxc
    (List.length_pos.2 hx) (head?_cons_nonws (by decide)) h3
  have h1 := step_ws1 (head?_append_class hx hxc (fun c => isNumCh_not_ws)) h2
  unfold patRespRe
  rw [step_lit]
  exact h1

theorem isDot_of_not_ws {c : Char} (h : isWs c = false) : isDot c = true := by
  simp only [isWs, Bool.or_eq_false_iff, Bool.and_eq_false_iff, beq_eq_false_iff_ne,
    decide_eq_false_iff_not] at h
  simp only [isDot, Bool.not_eq_true', Bool.or_eq_false_iff, beq_eq_false_iff_ne]
  omega

theorem isDot_of_normalized {nl : Str} (h : ∀ c ∈ nl, isWs c = true → c = ' ') :
    ∀ c ∈ nl, isDot c = true := by
  intro c hc
  cases hw : isWs c with
  | false => exact isDot_of_not_ws hw
  | true =>
    rw [h c hc hw]
    decide

/-! ## Further facts on records and on the greedy choice -/

theorem recordAt_identity {lines : List Str} {a : Nat} {r : Claim}
    (h : recordAt lines a = Res.ok r) :
    identityFields r = identityFields (setPatient emptyClaim (normalize (lineAt lines a))) :=
  claimBody_inv (fun c => identityFields c =
      identityFields (setPatient emptyClaim (normalize (lineAt lines a))))
    (fun c l hc => (identityFields_setSummary c l).trans hc)
    (fun c _ hc => (identityFields_setService c _).trans hc)
    (identityFields_claimHead _ _ _) h

theorem chosen_rule (lines : List Str) (a : Nat) :
    chosen lines a = (lineTest lines a && !(decide (1 ≤ a) && chosen lines (a - 1)) &&
      !(decide (2 ≤ a) && chosen lines (a - 2))) := by
  match a with
  | 0 => simp [chosen, chosenPair]
  | 1 => simp [chosen, chosenPair]
  | n + 2 =>
    have e : (chosenPair lines (n + 1)).2 = (chosenPair lines n).1 := by
      rw [chosenPair]
    simp only [chosen]
    rw [chosenPair]
    simp [e]

theorem chosen_next (lines : List Str) (a : Nat) (h : chosen lines a = true) :
    chosen lines (a + 1) = false ∧ chosen lines (a + 2) = false := by
  have h1 : chosen lines (a + 1) = false := by
    rw [chosen_rule lines (a + 1)]
    simp [h]
  refine ⟨h1, ?_⟩
  rw [chosen_rule lines (a + 2)]
  simp [h]

/-- The fuel given to the outer loop, one unit per line, is never used up. -/
theorem parse_fuel_enough (text : Str) : parseHealthcareClaims text ≠ Res.outOfFuel := by
  cases h : chosen (splitLines text) ((splitLines text).length - 1) with
  | false =>
    obtain ⟨rs, hrs⟩ := parse_total h
    rw [hrs]
    intro e
    cases e
  | true =>
    rw [parse_err h]
    intro e
    cases e

theorem lineTest_false_of_labels {l : Str}
    (h : ¬(includes (normalize l) "PATIENT:".toList = true ∧
      includes (normalize l) "PATIENT ID #:".toList = true ∧
      includes (normalize l) "PAT CTRL #:".toList = true ∧
      includes (normalize l) "CLM #:".toList = true)) :
    anchorTest (normalize l) = false := by
  cases hA : anchorTest (normalize l) with
  | false => rfl
  | true =>
    exfalso
    apply h
    simp only [anchorTest, Bool.and_eq_true] at hA
    exact ⟨hA.1.1.1.2, hA.1.1.2, hA.1.2, hA.2⟩

theorem lineAt_mem {lines : List Str} {j : Nat} (h : j < lines.length) :
    lineAt lines j ∈ lines := by
  unfold lineAt
  rw [List.getD_eq_getElem _ _ h]
  exact List.getElem_mem _

theorem anchors_nil_of_no_test {lines : List Str}
    (h : ∀ j, lineTest lines j = false) : anchors lines = [] ∧ ∀ j, chosen lines j = false := by
  have hc : ∀ j, chosen lines j = false := by
    intro j
    cases hj : chosen lines j with
    | false => rfl
    | true =>
      have := chosen_le_lineTest lines j hj
      rw [h j] at this
      cases this
  refine ⟨?_, hc⟩
  unfold anchors
  rw [List.filter_eq_nil_iff]
  intro a _
  simp [hc a]

/-! ## Normalizing lines of known shape -/

theorem endsInWs_cons (b : Bool) (c : Char) (s : Str) :
    endsInWs b (c :: s) = endsInWs (isWs c) s := by
  cases s with
  | nil => rfl
  | cons d s =>
    unfold endsInWs
    rw [List.getLast?_cons_cons]
    cases h : (d :: s).getLast? with
    | none => simp at h
    | some x => rfl

theorem collapseAux_append : ∀ (s t : Str) (b : Bool),
    collapseAux b (s ++ t) = collapseAux b s ++ collapseAux (endsInWs b s) t := by
  intro s
  induction s with
  | nil => intro t b; rfl
  | cons c s ih =>
    intro t b
    rw [endsInWs_cons, List.cons_append]
    simp only [collapseAux]
    by_cases hc : isWs c = true
    · rw [if_pos hc, if_pos hc, hc]
      cases b with
      | true => simpa using ih t true
      | false => simp [ih t true]
    · rw [if_neg hc, if_neg hc]
      have hc1 : isWs c = false := by simpa using hc
      rw [hc1]
      simp [ih t false]

theorem collapseAux_head_nonws {s : Str} (h : ∀ d ∈ s.head?, isWs d = false) (b : Bool) :
    collapseAux b s = collapseAux false s := by
  cases s with
  | nil => rfl
  | cons c s =>
    have hc : isWs c = false := h c (by simp)
    simp [collapseAux, hc]

/-- Words separated by single spaces are left as they are. -/
theorem collapseAux_spaced : ∀ (s : Str) (b : Bool), (∀ c ∈ s, isWs c = true → c = ' ') →
    NoWsPair s → (b = true → ∀ d ∈ s.head?, isWs d = false) → collapseAux b s = s := by
  intro s
  induction s with
  | nil => intro _ _ _ _; rfl
  | cons c s ih =>
    intro b h1 h2 h3
    have h1s : ∀ c1 ∈ s, isWs c1 = true → c1 = ' ' := fun c1 hc1 hw => h1 c1 (by simp [hc1]) hw
    have h2s : NoWsPair s := by
      unfold NoWsPair at h2 ⊢
      exact h2.tail
    simp only [collapseAux]
    by_cases hc : isWs c = true
    · have hb : b = false := by
        cases b with
        | false => rfl
        | true =>
          have := h3 rfl c (by simp)
          rw [hc] at this
          cases this
      subst hb
      have hcs : c = ' ' := h1 c (by simp) hc
      rw [if_pos hc]
      simp only [Bool.false_eq_true, if_false]
      rw [ih true h1s h2s, hcs]
      intro _ d hd
      cases s with
      | nil => simp at hd
      | cons e s =>
        have he : d = e := by simpa using hd.symm
        rw [he]
        have := NoWsPair.adjacent (x := []) (y := s) (a := c) (b := e) h2 rfl
        cases hd1 : isWs e with
        | false => rfl
        | true => exact absurd ⟨hc, hd1⟩ this
    · rw [if_neg hc, ih false h1s h2s (fun h => by cases h)]

theorem collapseAux_token {t : Str} (ht : Token t) (b : Bool) : collapseAux b t = t := by
  induction t generalizing b with
  | nil => rfl
  | cons c t ih =>
    have hc : isWs c = false := ht c (by simp)
    simp only [collapseAux, hc, Bool.false_eq_true, if_false]
    rw [ih (fun d hd => ht d (by simp [hd]))]

theorem endsInWs_of_last {s : Str} (hs : s ≠ []) (h : ∀ d ∈ s.getLast?, isWs d = false)
    (b : Bool) : endsInWs b s = false := by
  unfold endsInWs
  cases hl : s.getLast? with
  | none => simp at hl; exact absurd hl hs
  | some c => exact h c (by simp [hl])

/-- A stretch that normalization leaves alone, followed by more text. -/
theorem collapseAux_keep {s : Str} (b : Bool) (t : Str) (hs : s ≠ [])
    (h1 : ∀ b1, collapseAux b1 s = s) (h2 : ∀ d ∈ s.getLast?, isWs d = false) :
    collapseAux b (s ++ t) = s ++ collapseAux false t := by
  rw [collapseAux_append, h1, endsInWs_of_last hs h2]

theorem SpacedWords.collapse {n : Str} (h : SpacedWords n) (b : Bool) : collapseAux b n = n :=
  collapseAux_spaced n b h.1 h.2.1 (fun _ => h.2.2.1)

theorem token_last {t : Str} (ht : Token t) : ∀ d ∈ t.getLast?, isWs d = false :=
  fun d hd => ht d (List.mem_of_getLast?_eq_some (by simpa using hd))

theorem token_head {t : Str} (ht : Token t) : ∀ d ∈ t.head?, isWs d = false :=
  fun d hd => ht d (List.mem_of_mem_head? (by simpa using hd))

theorem digits_token {t : Str} (h : ∀ c ∈ t, isDigit c = true) : Token t :=
  fun c hc => isDigit_not_ws (h c hc)

theorem numch_token {t : Str} (h : ∀ c ∈ t, isNumCh c = true) : Token t :=
  fun c hc => isNumCh_not_ws (h c hc)

theorem trimEnd_last (s : Str) : ∀ d ∈ (trimEnd s).getLast?, isWs d = false := by
  intro d hd
  unfold trimEnd at hd
  rw [List.getLast?_reverse] at hd
  exact trimStart_head s.reverse d hd

theorem trimEnd_head (s : Str) (h : ∀ d ∈ s.head?, isWs d = false) :
    ∀ d ∈ (trimEnd s).head?, isWs d = false := by
  intro d hd
  obtain ⟨t, ht⟩ := trimEnd_pre s
  cases hts : trimEnd s with
  | nil => rw [hts] at hd; simp at hd
  | cons c u =>
    rw [hts] at hd ht
    have hc : d = c := by simpa using hd.symm
    rw [hc]
    exact h c (by rw [← ht]; simp)

/-- A normalized string is made of words separated by single spaces. -/
theorem spacedWords_normalize (s : Str) : SpacedWords (normalize s) :=
  ⟨fun _ hc hw => normalize_ws hc hw, normalize_chain s,
    trimEnd_head _ (trimStart_head _), trimEnd_last _⟩

/-- The normalized form of an anchor line written with three spaces between
its parts. -/
theorem normalize_anchor {N D C M : Str} (hN : N ≠ []) (hNs : SpacedWords N)
    (hD : D ≠ []) (hDt : Token D) (hC : C ≠ []) (hCt : Token C)
    (hM : M ≠ []) (hMt : Token M) :
    normalize ("PATIENT: ".toList ++ N ++ "   PATIENT ID #: ".toList ++ D ++
      "   PAT CTRL #: ".toList ++ C ++ "   CLM #: ".toList ++ M) =
    "PATIENT: ".toList ++ N ++ " PATIENT ID #: ".toList ++ D ++
      " PAT CTRL #: ".toList ++ C ++ " CLM #: ".toList ++ M := by
  have e : collapseWs ("PATIENT: ".toList ++ N ++ "   PATIENT ID #: ".toList ++ D ++
      "   PAT CTRL #: ".toList ++ C ++ "   CLM #: ".toList ++ M) =
      "PATIENT: ".toList ++ N ++ " PATIENT ID #: ".toList ++ D ++
      " PAT CTRL #: ".toList ++ C ++ " CLM #: ".toList ++ M := by
    unfold collapseWs
    simp only [List.append_assoc]
    have k1 : ∀ t, collapseAux false ("PATIENT: ".toList ++ t) =
        "PATIENT: ".toList ++ collapseAux true t := fun t => rfl
    have k2 : ∀ t, collapseAux false ("   PATIENT ID #: ".toList ++ t) =
        " PATIENT ID #: ".toList ++ collapseAux true t := fun t => rfl
    have k3 : ∀ t, collapseAux false ("   PAT CTRL #: ".toList ++ t) =
        " PAT CTRL #: ".toList ++ collapseAux true t := fun t => rfl
    have k4 : ∀ t, collapseAux false ("   CLM #: ".toList ++ t) =
        " CLM #: ".toList ++ collapseAux true t := fun t => rfl
    rw [k1, collapseAux_keep true _ hN (fun b => hNs.collapse b) hNs.2.2.2, k2,
      collapseAux_keep true _ hD (fun b => collapseAux_token hDt b) (token_last hDt), k3,
      collapseAux_keep true _ hC (fun b => collapseAux_token hCt b) (token_last hCt), k4,
      collapseAux_token hMt]
  unfold normalize
  rw [e]
  apply trim_self
  · intro d hd
    simp only [List.append_assoc] at hd
    have : d = 'P' := by
      have h0 : ("PATIENT: ".toList ++ (N ++ (" PATIENT ID #: ".toList ++ (D ++
        (" PAT CTRL #: ".toList ++ (C ++ (" CLM #: ".toList ++ M))))))).head? = some 'P' := rfl
      rw [h0] at hd
      simpa using hd.symm
    subst this
    decide
  · intro d hd
    rw [getLast?_append_ne_nil hM] at hd
    exact token_last hMt d hd

/-- The normalized form of a summary line written with single spaces. -/
theorem normalize_summary {x y z : Str} (hx : x ≠ []) (hxt : Token x)
    (hy : y ≠ []) (hyt : Token y) (hz : z ≠ []) (hzt : Token z) :
    normalize ("PAT RESP: ".toList ++ x ++ " TOTAL CHARGE: ".toList ++ y ++
      " TOTAL PAYMENT: ".toList ++ z) =
    "PAT RESP: ".toList ++ x ++ " TOTAL CHARGE: ".toList ++ y ++
      " TOTAL PAYMENT: ".toList ++ z := by
  have e : collapseWs ("PAT RESP: ".toList ++ x ++ " TOTAL CHARGE: ".toList ++ y ++
      " TOTAL PAYMENT: ".toList ++ z) =
      "PAT RESP: ".toList ++ x ++ " TOTAL CHARGE: ".toList ++ y ++
      " TOTAL PAYMENT: ".toList ++ z := by
    unfold collapseWs
    simp only [List.append_assoc]
    have k1 : ∀ t, collapseAux false ("PAT RESP: ".toList ++ t) =
        "PAT RESP: ".toList ++ collapseAux true t := fun t => rfl
    have k2 : ∀ t, collapseAux false (" TOTAL CHARGE: ".toList ++ t) =
        " TOTAL CHARGE: ".toList ++ collapseAux true t := fun t => rfl
    have k3 : ∀ t, collapseAux false (" TOTAL PAYMENT: ".toList ++ t) =
        " TOTAL PAYMENT: ".toList ++ collapseAux true t := fun t => rfl
    rw [k1, collapseAux_keep true _ hx (fun b => collapseAux_token hxt b) (token_last hxt), k2,
      collapseAux_keep true _ hy (fun b => collapseAux_token hyt b) (token_last hyt), k3,
      collapseAux_token hzt]
  unfold normalize
  rw [e]
  apply trim_self
  · intro d hd
    simp only [List.append_assoc] at hd
    have h0 : ("PAT RESP: ".toList ++ (x ++ (" TOTAL CHARGE: ".toList ++ (y ++
        (" TOTAL PAYMENT: ".toList ++ z))))).head? = some 'P' := rfl
    rw [h0] at hd
    have : d = 'P' := by simpa using hd.symm
    subst this
    decide
  · intro d hd
    rw [getLast?_append_ne_nil hz] at hd
    exact token_last hzt d hd

/-! ## Service lines written as tokens joined by single spaces -/

theorem splitWsAux_nonws_flag {c : Char} (hc : isWs c = false) (s : Str) (b : Bool) :
    splitWsAux b (c :: s) = splitWsAux false (c :: s) := by
  simp [splitWsAux, hc]

theorem splitWsAux_single {t : Str} (ht : Token t) : splitWsAux false t = [t] := by
  induction t with
  | nil => rfl
  | cons c t ih =>
    have hc : isWs c = false := ht c (by simp)
    simp only [splitWsAux, hc, Bool.false_eq_true, if_false]
    rw [ih (fun d hd => ht d (by simp [hd]))]

theorem splitWsAux_token_space {t : Str} (ht : Token t) (r : Str) :
    splitWsAux false (t ++ ' ' :: r) = t :: splitWsAux true r := by
  induction t with
  | nil => simp [splitWsAux, isWs_space]
  | cons c t ih =>
    have hc : isWs c = false := ht c (by simp)
    rw [List.cons_append]
    simp only [splitWsAux, hc, Bool.false_eq_true, if_false]
    rw [ih (fun d hd => ht d (by simp [hd]))]

theorem unwords_head {ts : List Str} (h : ∀ t ∈ ts, t ≠ [] ∧ Token t) :
    ∀ d ∈ (unwords ts).head?, isWs d = false := by
  cases ts with
  | nil => intro d hd; simp [unwords] at hd
  | cons t ts =>
    obtain ⟨h1, h2⟩ := h t (by simp)
    cases ts with
    | nil => exact token_head h2
    | cons u us =>
      intro d hd
      simp only [unwords] at hd
      rw [head?_append_ne_nil h1] at hd
      exact token_head h2 d hd

theorem unwords_last : ∀ {ts : List Str}, (∀ t ∈ ts, t ≠ [] ∧ Token t) →
    ∀ d ∈ (unwords ts).getLast?, isWs d = false := by
  intro ts
  induction ts with
  | nil => intro _ d hd; simp [unwords] at hd
  | cons t ts ih =>
    intro h
    obtain ⟨_, h2⟩ := h t (by simp)
    cases ts with
    | nil => exact token_last h2
    | cons u us =>
      intro d hd
      simp only [unwords] at hd
      have hne : ' ' :: unwords (u :: us) ≠ [] := by simp
      rw [getLast?_append_ne_nil hne] at hd
      have hu := (h u (by simp)).1
      have hne2 : unwords (u :: us) ≠ [] := by
        cases us with
        | nil => simpa [unwords] using hu
        | cons v vs => simp [unwords, hu]
      have e : (' ' :: unwords (u :: us)).getLast? = (unwords (u :: us)).getLast? := by
        have := getLast?_append_ne_nil (x := [' ']) hne2
        simpa using this
      rw [e] at hd
      exact ih (fun t1 ht1 => h t1 (by simp [ht1])) d hd

theorem splitWs_unwords : ∀ {ts : List Str}, ts ≠ [] → (∀ t ∈ ts, t ≠ [] ∧ Token t) →
    splitWsAux false (unwords ts) = ts := by
  intro ts
  induction ts with
  | nil => intro h _; exact absurd rfl h
  | cons t ts ih =>
    intro _ h
    obtain ⟨_, h2⟩ := h t (by simp)
    cases ts with
    | nil => exact splitWsAux_single h2
    | cons u us =>
      simp only [unwords]
      rw [splitWsAux_token_space h2]
      have hrest : ∀ t1 ∈ u :: us, t1 ≠ [] ∧ Token t1 := fun t1 ht1 => h t1 (by simp [ht1])
      have hh := unwords_head hrest
      have e : splitWsAux true (unwords (u :: us)) = splitWsAux false (unwords (u :: us)) := by
        cases hx : unwords (u :: us) with
        | nil => rfl
        | cons c s =>
          rw [hx] at hh
          exact splitWsAux_nonws_flag (hh c (by simp)) s true
      rw [e, ih (by simp) hrest]

/-- The tokens of a line written as tokens joined by single spaces. -/
theorem serviceParts_unwords {ts : List Str} (hne : ts ≠ [])
    (h : ∀ t ∈ ts, t ≠ [] ∧ Token t) : serviceParts (unwords ts) = ts := by
  unfold serviceParts splitWs
  rw [trim_self (unwords_head h) (unwords_last h)]
  exact splitWs_unwords hne h

/-- A line of tokens that starts with a two-digit token and two 8-digit tokens
and goes on passes the structural pattern. -/
theorem serviceMatch_unwords {t0 t1 t2 t3 : Str} {rest : List Str}
    (h0 : t0.length = 2 ∧ ∀ c ∈ t0, isDigit c = true)
    (h1 : t1.length = 8 ∧ ∀ c ∈ t1, isDigit c = true)
    (h2 : t2.length = 8 ∧ ∀ c ∈ t2, isDigit c = true) :
    serviceMatch (unwords (t0 :: t1 :: t2 :: t3 :: rest)) = true := by
  have hne1 : t1 ≠ [] := by
    intro e; rw [e] at h1; simp at h1
  have hne2 : t2 ≠ [] := by
    intro e; rw [e] at h2; simp at h2
  unfold serviceMatch
  simp only [unwords]
  have s5 : matchHere [Atom.exact isWs 1] (' ' :: unwords (t3 :: rest)) = some [] := by
    simp [matchHere, stripExact, isWs_space]
  have s4 : matchHere [Atom.exact isDigit 8, Atom.exact isWs 1]
      (t2 ++ ' ' :: unwords (t3 :: rest)) = some [] := by
    have := @step_exact [Atom.exact isWs 1] isDigit t2 (' ' :: unwords (t3 :: rest)) h2.2
    rw [h2.1] at this
    rw [this, s5]
  have s3 := step_ws1 (u := t2 ++ ' ' :: unwords (t3 :: rest))
    (head?_append_class hne2 h2.2 (fun c => isDigit_not_ws)) s4
  have s2 : matchHere [Atom.exact isDigit 8, ws1, Atom.exact isDigit 8, Atom.exact isWs 1]
      (t1 ++ ' ' :: (t2 ++ ' ' :: unwords (t3 :: rest))) = some [] := by
    have := @step_exact [ws1, Atom.exact isDigit 8, Atom.exact isWs 1] isDigit t1
      (' ' :: (t2 ++ ' ' :: unwords (t3 :: rest))) h1.2
    rw [h1.1] at this
    rw [this, s3]
  have s1 := step_ws1 (u := t1 ++ ' ' :: (t2 ++ ' ' :: unwords (t3 :: rest)))
    (head?_append_class hne1 h1.2 (fun c => isDigit_not_ws)) s2
  have s0 : matchHere serviceRe (t0 ++ ' ' :: (t1 ++ ' ' :: (t2 ++ ' ' ::
      unwords (t3 :: rest)))) = some [] := by
    have := @step_exact [ws1, Atom.exact isDigit 8, ws1, Atom.exact isDigit 8,
      Atom.exact isWs 1] isDigit t0 (' ' :: (t1 ++ ' ' :: (t2 ++ ' ' ::
        unwords (t3 :: rest)))) h0.2
    rw [h0.1] at this
    unfold serviceRe
    rw [this, s1]
  rw [s0]
  rfl

/-! ## The claims on the scanner -/

/-- C1 (defect of the code): the claim says the scanner never throws, also on
a text whose final line is an anchor line.  On such a text the backward loop
starts at `j = i - 1 = lines.length` and calls `match` on `lines[j]`, which is
`undefined`: the scanner throws a `TypeError` instead of returning records. -/
theorem C1_final_line_anchor_throws :
    parseHealthcareClaims finalAnchorText = Res.typeError := by
  decide

/-- C2: when no line's normalized form contains all four labels, the scanner
returns the empty sequence and the serializer returns the sentinel string, not
a header row. -/
theorem C2_no_anchor_gives_sentinel (text : Str)
    (h : ∀ l ∈ splitLines text,
      ¬(includes (normalize l) "PATIENT:".toList = true ∧
        includes (normalize l) "PATIENT ID #:".toList = true ∧
        includes (normalize l) "PAT CTRL #:".toList = true ∧
        includes (normalize l) "CLM #:".toList = true)) :
    parseHealthcareClaims text = Res.ok [] ∧
      convertToCSV [] = "No data found in the PDF".toList := by
  refine ⟨?_, rfl⟩
  have ht : ∀ j, lineTest (splitLines text) j = false := by
    intro j
    by_cases hj : j < (splitLines text).length
    · exact lineTest_false_of_labels (h _ (lineAt_mem hj))
    · exact lineTest_of_le (by omega)
  obtain ⟨ha, hc⟩ := anchors_nil_of_no_test ht
  obtain ⟨rs, hrs⟩ := @parse_total text (hc _)
  have hf := parse_sound hrs
  rw [ha] at hf
  cases hf
  exact hrs

theorem C2_no_anchor_gives_sentinel_witness :
    parseHealthcareClaims noAnchorText = Res.ok [] ∧
      convertToCSV [] = "No data found in the PDF".toList :=
  C2_no_anchor_gives_sentinel noAnchorText (by decide)

/-- C4, as stated, fails: an anchor line that holds the four labels but whose
patient ID is not a digit run still opens a record, and that record has four
empty identity fields. -/
theorem C4_counterexample :
    parseHealthcareClaims badIdText =
      Res.ok [badIdRecord] ∧
    identityFields badIdRecord = [[], [], [], []] := by
  decide

/-- C4, amended: every record returned comes from a chosen line whose
normalized form passes the four-label test; if the patient pattern matches
that line the four identity fields are its four captured values, all
non-empty, and if it does not match they are all empty. -/
theorem C4_identity_all_or_none (text : Str) (rs : List Claim)
    (h : parseHealthcareClaims text = Res.ok rs) (r : Claim) (hr : r ∈ rs) :
    ∃ a, chosen (splitLines text) a = true ∧ lineTest (splitLines text) a = true ∧
      recordAt (splitLines text) a = Res.ok r ∧
      ((search patientRe (normalize (lineAt (splitLines text) a)) = none ∧
          identityFields r = [[], [], [], []]) ∨
       (∃ n d p m, search patientRe (normalize (lineAt (splitLines text) a)) =
            some [n, d, p, m] ∧
          identityFields r = [n, d, p, m] ∧ n ≠ [] ∧ d ≠ [] ∧ p ≠ [] ∧ m ≠ [])) := by
  obtain ⟨k, hk⟩ := List.getElem?_of_mem hr
  obtain ⟨a, ha1, ha2⟩ := forall₂_getElem? (parse_sound h).flip k r hk
  have hmem : a ∈ anchors (splitLines text) := List.getElem?_mem ha1
  have hch : chosen (splitLines text) a = true := by
    simp only [anchors, List.mem_filter] at hmem
    exact hmem.2
  refine ⟨a, hch, chosen_le_lineTest _ _ hch, ha2, ?_⟩
  rw [recordAt_identity ha2]
  rcases setPatient_identity (normalize_chain (lineAt (splitLines text) a)) with
    ⟨h1, h2⟩ | ⟨n, d, p, m, h1, h2, h3, _, _, _, h4, _, h5, _, h6, _⟩
  · exact Or.inl ⟨h1, h2⟩
  · exact Or.inr ⟨n, d, p, m, h1, h2, h3, h4, h5, h6⟩

theorem C4_identity_all_or_none_witness :
    ∃ a, chosen (splitLines specScenario) a = true ∧
      lineTest (splitLines specScenario) a = true ∧
      recordAt (splitLines specScenario) a = Res.ok specRecord ∧
      ((search patientRe (normalize (lineAt (splitLines specScenario) a)) = none ∧
          identityFields specRecord = [[], [], [], []]) ∨
       (∃ n d p m, search patientRe (normalize (lineAt (splitLines specScenario) a)) =
            some [n, d, p, m] ∧
          identityFields specRecord = [n, d, p, m] ∧ n ≠ [] ∧ d ≠ [] ∧ p ≠ [] ∧ m ≠ [])) :=
  C4_identity_all_or_none specScenario [specRecord] (by decide) specRecord (by simp)

/-- C5: an anchor alone is enough for a record.  For a chosen anchor line `a`
that the patient pattern matches with groups `n`, `d`, `p`, `m`, followed by at
least two lines of which the first does not match the status pattern and the
second does not match the provider pattern, and with no qualifying service
line in the forward window or in the backward window, the record of `a` has
the identity fields `n`, `d`, `p`, `m` and 21 empty fields.  The windows are
those of the code, `a + 3 .. a + 21` and `a + 1 .. a - 8`; `hlast` says that
the last line of the text does not open a record, the case in which the
scanner throws. -/
theorem C5_anchor_alone (text : Str) (a : Nat) (n d p m : Str)
    (hchosen : chosen (splitLines text) a = true)
    (hlast : chosen (splitLines text) ((splitLines text).length - 1) = false)
    (h2 : a + 2 < (splitLines text).length)
    (hanchor : search patientRe (normalize (lineAt (splitLines text) a)) = some [n, d, p, m])
    (hstatus : search statusRe (normalize (lineAt (splitLines text) (a + 1))) = none)
    (hprov : search providerRe (lineAt (splitLines text) (a + 2)) = none)
    (hf : ∀ j, a + 3 ≤ j → j < a + 22 → isServiceLine (lineAt (splitLines text) j) = false)
    (hb : ∀ k, k < 10 → k ≤ a + 1 →
      isServiceLine (lineAt (splitLines text) (a + 1 - k)) = false) :
    ∃ r, Emits text a r ∧ identityFields r = [n, d, p, m] ∧
      statusProviderFields r = [[], [], [], [], []] ∧
      serviceFields r = List.replicate 13 [] ∧ summaryFields r = [[], [], []] := by
  have hr := @recordAt_plain (splitLines text) a (by omega) hf hb
  refine ⟨_, emits_of hlast hchosen hr, ?_, ?_, serviceFields_claimHead _ _ _,
    summaryFields_claimHead _ _ _⟩
  · rw [identityFields_claimHead]
    rcases setPatient_identity (normalize_chain (lineAt (splitLines text) a)) with
      ⟨h1, _⟩ | ⟨n1, d1, p1, m1, h1, h3, _⟩
    · rw [hanchor] at h1
      cases h1
    · rw [hanchor] at h1
      cases h1
      exact h3
  · unfold claimHead
    simp only
    rw [getElem?_lineAt (show a + 1 < (splitLines text).length by omega), getElem?_lineAt h2]
    simp only [setStatus, setProvider, hstatus, hprov]
    rw [statusProviderFields_setPatient]
    rfl

theorem C5_anchor_alone_witness :
    ∃ r, Emits anchorAloneText 0 r ∧
      identityFields r = ["JOHN SMITH".toList, "1234567800".toList, "CLM00102102".toList,
        "2025007654321".toList] ∧
      statusProviderFields r = [[], [], [], [], []] ∧
      serviceFields r = List.replicate 13 [] ∧ summaryFields r = [[], [], []] :=
  C5_anchor_alone anchorAloneText 0 _ _ _ _ (by decide) (by decide) (by decide) (by decide)
    (by decide) (by decide) (by decide) (by decide)

/-- C6: when the forward search succeeds, the 13 service fields are tokens
0..12 of the first qualifying line of the forward window (raw text matching
the structural pattern, at least 13 tokens); later tokens and later lines
play no part.  With `s = a + 3` this is the service line that follows the
provider line at once.  `hlast` says that the last line of the text opens no
record, the case in which the scanner throws. -/
theorem C6_forward_service_fields (text : Str) (a s : Nat)
    (hchosen : chosen (splitLines text) a = true)
    (hlast : chosen (splitLines text) ((splitLines text).length - 1) = false)
    (h1 : a + 3 ≤ s) (h2 : s < a + 22)
    (hq : isServiceLine (lineAt (splitLines text) s) = true)
    (hn : ∀ j, a + 3 ≤ j → j < s → isServiceLine (lineAt (splitLines text) j) = false) :
    ∃ r, Emits text a r ∧
      serviceFields r = (serviceParts (lineAt (splitLines text) s)).take 13 := by
  obtain ⟨r, hr, _, hs, _⟩ := recordAt_forward h1 h2 hq hn
  exact ⟨r, emits_of hlast hchosen hr, hs⟩

theorem C6_forward_service_fields_witness :
    ∃ r, Emits forwardText 0 r ∧ serviceFields r = tokensA :=
  C6_forward_service_fields forwardText 0 3 (by decide) (by decide) (by decide) (by decide)
    (by decide) (by decide)

/-- C7: backward recovery across a page break.  For a chosen anchor at line
`a ≥ 3` followed by at least two lines, with no qualifying line in the forward
window and none at `a + 1`, `a`, `a - 1`, `a - 2`, a qualifying service line at
`a - 3` gives the record its 13 service fields.  `hlast` says that the last
line of the text does not open a record, the case in which the scanner
throws. -/
theorem C7_backward_recovery (text : Str) (a : Nat)
    (hchosen : chosen (splitLines text) a = true)
    (hlast : chosen (splitLines text) ((splitLines text).length - 1) = false)
    (ha : 3 ≤ a) (h2 : a + 2 < (splitLines text).length)
    (hf : ∀ j, a + 3 ≤ j → j < a + 22 → isServiceLine (lineAt (splitLines text) j) = false)
    (hnear : ∀ k, k < 4 → isServiceLine (lineAt (splitLines text) (a + 1 - k)) = false)
    (hq : isServiceLine (lineAt (splitLines text) (a - 3)) = true) :
    ∃ r, Emits text a r ∧
      serviceFields r = (serviceParts (lineAt (splitLines text) (a - 3))).take 13 := by
  have e : a - 3 = a + 1 - 4 := by omega
  rw [e] at hq ⊢
  have hr := @recordAt_backward (splitLines text) a 4 (by omega) hf
    (by omega) (by omega) hq (fun d1 hd1 => hnear d1 hd1)
  exact ⟨_, emits_of hlast hchosen hr,
    serviceFields_setService _ _ (isServiceLine_parts hq)⟩

theorem C7_backward_recovery_witness :
    ∃ r, Emits pageBreakText 3 r ∧ serviceFields r = tokensA :=
  C7_backward_recovery pageBreakText 3 (by decide) (by decide) (by decide) (by decide)
    (by decide) (by decide) (by decide)

/-- C12 (defect of the code): the claim and the comment `Search up to 20 lines
ahead` give the forward search the 20 lines `p + 1 .. p + 20` after the
provider line `p`.  The loop `for (j = i + 1; j < searchLimit; j++)` with
`searchLimit = i + 20` stops at `p + 19`: here the provider line is line 2, a
qualifying service line stands at line 22, and the record has no service
field. -/
theorem C12_service_line_20_after_provider_missed :
    isServiceLine (lineAt (splitLines twentyAfterText) (2 + 20)) = true ∧
      parseHealthcareClaims twentyAfterText = Res.ok [johnHead] ∧
      serviceFields johnHead = List.replicate 13 [] := by
  decide

/-- C13, as stated, fails: a qualifying service line exactly 10 lines before
the anchor (line 0 for the anchor at line 10, nothing qualifying elsewhere) is
not recovered. -/
theorem C13_counterexample :
    isServiceLine (lineAt (splitLines tenBeforeText) (10 - 10)) = true ∧
      chosen (splitLines tenBeforeText) 10 = true ∧
      parseHealthcareClaims tenBeforeText = Res.ok [johnHead] ∧
      serviceFields johnHead = List.replicate 13 [] := by
  decide

/-- C13, amended: the backward search starts from the cursor, which stands on
the provider line `a + 2`, so it covers the 10 lines `a + 1, a, ..., a - 8`
(clipped at 0).  When the forward search finds nothing, a qualifying service
line at `a + 1 - k` with `k < 10`, none nearer, gives the record its 13
service fields; with `k = 9` this is the line exactly 8 lines before the
anchor.  `hlast` says that the last line of the text does not open a record,
the case in which the scanner throws. -/
theorem C13_backward_window (text : Str) (a k : Nat)
    (hchosen : chosen (splitLines text) a = true)
    (hlast : chosen (splitLines text) ((splitLines text).length - 1) = false)
    (hf : ∀ j, a + 3 ≤ j → j < a + 22 → isServiceLine (lineAt (splitLines text) j) = false)
    (hk : k < 10) (hka : k ≤ a + 1)
    (hq : isServiceLine (lineAt (splitLines text) (a + 1 - k)) = true)
    (hn : ∀ k1, k1 < k → isServiceLine (lineAt (splitLines text) (a + 1 - k1)) = false) :
    ∃ r, Emits text a r ∧
      serviceFields r = (serviceParts (lineAt (splitLines text) (a + 1 - k))).take 13 := by
  have hr := @recordAt_backward (splitLines text) a k
    (chosen_succ_lt hchosen hlast) hf hk hka hq hn
  exact ⟨_, emits_of hlast hchosen hr,
    serviceFields_setService _ _ (isServiceLine_parts hq)⟩

theorem C13_backward_window_witness :
    ∃ r, Emits eightBeforeText 8 r ∧ serviceFields r = tokensA :=
  C13_backward_window eightBeforeText 8 9 (by decide) (by decide) (by decide) (by decide)
    (by decide) (by decide) (by decide)

/-- C14: forward is preferred over backward.  Whenever some line of the
forward window qualifies, the 13 service fields are tokens 0..12 of the first
qualifying line of that window, whatever stands before the anchor.  `hlast`
says that the last line of the text does not open a record, the case in which
the scanner throws. -/
theorem C14_forward_preferred (text : Str) (a : Nat)
    (hchosen : chosen (splitLines text) a = true)
    (hlast : chosen (splitLines text) ((splitLines text).length - 1) = false)
    (hex : ∃ s0, a + 3 ≤ s0 ∧ s0 < a + 22 ∧
      isServiceLine (lineAt (splitLines text) s0) = true) :
    ∃ r s, Emits text a r ∧ a + 3 ≤ s ∧ s < a + 22 ∧
      isServiceLine (lineAt (splitLines text) s) = true ∧
      (∀ j, a + 3 ≤ j → j < s → isServiceLine (lineAt (splitLines text) j) = false) ∧
      serviceFields r = (serviceParts (lineAt (splitLines text) s)).take 13 := by
  classical
  obtain ⟨h1, h2, h3⟩ := Nat.find_spec hex
  have hmin : ∀ j, a + 3 ≤ j → j < Nat.find hex →
      isServiceLine (lineAt (splitLines text) j) = false := by
    intro j hj1 hj2
    have := Nat.find_min hex hj2
    cases hq : isServiceLine (lineAt (splitLines text) j) with
    | false => rfl
    | true => exact absurd ⟨hj1, by omega, hq⟩ this
  obtain ⟨r, hr, _, hs, _⟩ := recordAt_forward h1 h2 h3 hmin
  exact ⟨r, Nat.find hex, emits_of hlast hchosen hr, h1, h2, h3, hmin, hs⟩

theorem C14_forward_preferred_witness :
    isServiceLine (lineAt (splitLines bothSidesText) 0) = true ∧
    ∃ r s, Emits bothSidesText 1 r ∧ 1 + 3 ≤ s ∧ s < 1 + 22 ∧
      isServiceLine (lineAt (splitLines bothSidesText) s) = true ∧
      (∀ j, 1 + 3 ≤ j → j < s →
        isServiceLine (lineAt (splitLines bothSidesText) j) = false) ∧
      serviceFields r = (serviceParts (lineAt (splitLines bothSidesText) s)).take 13 :=
  ⟨by decide, C14_forward_preferred bothSidesText 1 (by decide) (by decide)
    ⟨4, by decide, by decide, by decide⟩⟩

/-- C15: the payment-summary search stops at the first line that contains
`PAT RESP:`.  When the forward search finds the service line `s` and `k` is
the first line of the summary window that contains the label, the three
summary fields are the three groups of the summary pattern on line `k` if it
matches, and they stay empty if it does not, whatever the later lines hold.
The window is that of the code, `s + 1 .. s + 4`; `hlast` says that the last
line of the text does not open a record, the case in which the scanner
throws. -/
theorem C15_summary_stops_at_first_label (text : Str) (a s k : Nat)
    (hchosen : chosen (splitLines text) a = true)
    (hlast : chosen (splitLines text) ((splitLines text).length - 1) = false)
    (h1 : a + 3 ≤ s) (h2 : s < a + 22)
    (hq : isServiceLine (lineAt (splitLines text) s) = true)
    (hn : ∀ j, a + 3 ≤ j → j < s → isServiceLine (lineAt (splitLines text) j) = false)
    (hk1 : s + 1 ≤ k) (hk2 : k < s + 5)
    (hlabel : includes (lineAt (splitLines text) k) "PAT RESP:".toList = true)
    (hbefore : ∀ j, s + 1 ≤ j → j < k →
      includes (lineAt (splitLines text) j) "PAT RESP:".toList = false) :
    ∃ r, Emits text a r ∧
      (search patRespRe (normalize (lineAt (splitLines text) k)) = none →
        summaryFields r = [[], [], []]) ∧
      (∀ x y z, search patRespRe (normalize (lineAt (splitLines text) k)) = some [x, y, z] →
        summaryFields r = [x, y, z]) := by
  have hkl : k < (splitLines text).length := by
    by_contra hcon
    rw [lineAt_of_le (by omega)] at hlabel
    revert hlabel
    decide
  obtain ⟨r, hr, hsum, _, _⟩ := recordAt_forward h1 h2 hq hn
  have hfirst := summaryLoop_first (splitLines text)
    (min (s + 5) (splitLines text).length - (s + 1)) (s + 1)
    (setService (claimHead (splitLines text) a (normalize (lineAt (splitLines text) a)))
      (serviceParts (lineAt (splitLines text) s))) k hk1 (by omega) hkl hlabel hbefore
  rw [hfirst] at hsum
  cases hsum
  refine ⟨_, emits_of hlast hchosen hr, ?_, ?_⟩
  · intro hnone
    simp only [setSummary, hnone]
    rw [summaryFields_setService, summaryFields_claimHead]
  · intro x y z hsome
    simp only [setSummary, hsome]
    rfl

theorem C15_summary_stops_at_first_label_witness :
    search patRespRe (normalize (lineAt (splitLines unparseableSummaryText) 5)) =
      some ["0.00".toList, "150.00".toList, "140.00".toList] ∧
    ∃ r, Emits unparseableSummaryText 0 r ∧
      (search patRespRe (normalize (lineAt (splitLines unparseableSummaryText) 4)) = none →
        summaryFields r = [[], [], []]) ∧
      (∀ x y z, search patRespRe (normalize (lineAt (splitLines unparseableSummaryText) 4)) =
          some [x, y, z] → summaryFields r = [x, y, z]) :=
  ⟨by decide, C15_summary_stops_at_first_label unparseableSummaryText 0 3 4 (by decide)
    (by decide) (by decide) (by decide) (by decide) (by decide) (by decide) (by decide)
    (by decide) (by decide)⟩

/-- C16 (defect of the code): the claim expects the payment summary to be
looked for whichever search found the service line.  The backward loop sets
the 13 service fields and stops, without the `PAT RESP` loop of the forward
path: here the service line and a well-formed summary line right after it
stand before the anchor, the service fields are recovered and the three
summary fields stay empty. -/
theorem C16_backward_path_skips_summary :
    search patRespRe (normalize (lineAt (splitLines summaryBeforeAnchorText) 1)) =
        some ["0.00".toList, "150.00".toList, "140.00".toList] ∧
      parseHealthcareClaims summaryBeforeAnchorText = Res.ok [johnService] ∧
      serviceFields johnService = tokensA ∧
      summaryFields johnService = [[], [], []] := by
  decide

/-- C17 (defect of the code): the claim gives the summary search the 5 lines
`s + 1 .. s + 5` after the service line `s`.  The loop
`for (k = j + 1; k < Math.min(j + 5, lines.length); k++)` stops at `s + 4`:
here the service line is line 3, a well-formed summary line stands at line 8
with no `PAT RESP:` before it, and the three summary fields stay empty. -/
theorem C17_summary_5_after_service_missed :
    search patRespRe (normalize (lineAt (splitLines fiveAfterText) (3 + 5))) =
        some ["0.00".toList, "150.00".toList, "140.00".toList] ∧
      includes (lineAt (splitLines fiveAfterText) (3 + 5)) "PAT RESP:".toList = true ∧
      parseHealthcareClaims fiveAfterText = Res.ok [johnService] ∧
      summaryFields johnService = [[], [], []] := by
  decide

/-- C18: whenever the scan returns, its records correspond one-to-one and in
document order to the lines chosen greedily from the top, where line `a` is
chosen iff its normalized form passes the anchor test and neither `a - 1` nor
`a - 2` was chosen; so the two lines after a chosen line are never chosen,
and each chosen line gets the record built from it. -/
theorem C18_records_follow_greedy_choice (text : Str) (rs : List Claim)
    (h : parseHealthcareClaims text = Res.ok rs) :
    List.Forall₂ (fun a r => recordAt (splitLines text) a = Res.ok r)
        (anchors (splitLines text)) rs ∧
      rs.length = (anchors (splitLines text)).length ∧
      (∀ a, chosen (splitLines text) a =
        (lineTest (splitLines text) a &&
          !(decide (1 ≤ a) && chosen (splitLines text) (a - 1)) &&
          !(decide (2 ≤ a) && chosen (splitLines text) (a - 2)))) ∧
      (∀ a, chosen (splitLines text) a = true →
        chosen (splitLines text) (a + 1) = false ∧ chosen (splitLines text) (a + 2) = false) :=
  ⟨parse_sound h, (parse_sound h).length_eq.symm, chosen_rule _, chosen_next _⟩

theorem C18_records_follow_greedy_choice_witness :
    lineTest (splitLines labelsInStatusText) 1 = true ∧
    anchors (splitLines labelsInStatusText) = [0, 3] ∧
    (List.Forall₂ (fun a r => recordAt (splitLines labelsInStatusText) a = Res.ok r)
        (anchors (splitLines labelsInStatusText))
        [{ johnHead with claimStatus := [], claimType := [] }, maryHead] ∧
      [{ johnHead with claimStatus := [], claimType := [] }, maryHead].length =
        (anchors (splitLines labelsInStatusText)).length ∧
      (∀ a, chosen (splitLines labelsInStatusText) a =
        (lineTest (splitLines labelsInStatusText) a &&
          !(decide (1 ≤ a) && chosen (splitLines labelsInStatusText) (a - 1)) &&
          !(decide (2 ≤ a) && chosen (splitLines labelsInStatusText) (a - 2)))) ∧
      (∀ a, chosen (splitLines labelsInStatusText) a = true →
        chosen (splitLines labelsInStatusText) (a + 1) = false ∧
          chosen (splitLines labelsInStatusText) (a + 2) = false)) :=
  ⟨by decide, by decide, C18_records_follow_greedy_choice labelsInStatusText _ (by decide)⟩

/-- C19: window overlap between adjacent claims.  In `twoBlocksText` exactly
one line qualifies as a service line, it belongs to the first block, and the
scanner returns two records with different claim numbers whose 13 service
fields are the same: the backward search of the second claim picks up the
service line of the first. -/
theorem C19_adjacent_claims_share_service_line :
    ∃ text r1 r2, (splitLines text).countP isServiceLine = 1 ∧
      parseHealthcareClaims text = Res.ok [r1, r2] ∧
      r1.claimNumber ≠ r2.claimNumber ∧
      serviceFields r1 = serviceFields r2 ∧ serviceFields r1 = tokensA :=
  ⟨twoBlocksText, specRecord, maryService, by decide, by decide, by decide, by decide,
    by decide⟩

/-! ## The well-formed block -/

theorem includes_of_inf {s sub : Str} (h : sub <:+: s) : includes s sub = true :=
  (includes_iff s sub).2 h

/-- A six-line block given by the normalized forms of its anchor and summary
lines and by the tokens of its service line: one record, with the values of
the block. -/
theorem wellformed_block_normalized (text anchor status provider filler svc summ : Str)
    (N D C M x y z : Str) (ts : List Str)
    (hlines : splitLines text = [anchor, status, provider, filler, svc, summ])
    (hanchor : normalize anchor = "PATIENT: ".toList ++ N ++ " PATIENT ID #: ".toList ++ D ++
      " PAT CTRL #: ".toList ++ C ++ " CLM #: ".toList ++ M)
    (hN : N ≠ [] ∧ ∀ c ∈ N, c ≠ ':')
    (hD : D ≠ [] ∧ ∀ c ∈ D, isDigit c = true)
    (hC : C ≠ [] ∧ ∀ c ∈ C, isWs c = false)
    (hM : M ≠ [] ∧ ∀ c ∈ M, isDigit c = true)
    (hfiller : isServiceLine filler = false ∧ anchorTest (normalize filler) = false)
    (hsvc : isServiceLine svc = true ∧ serviceParts svc = ts ∧ ts.length = 13 ∧
      anchorTest (normalize svc) = false)
    (hsumm : includes summ "PAT RESP:".toList = true ∧
      normalize summ = "PAT RESP: ".toList ++ x ++ " TOTAL CHARGE: ".toList ++ y ++
        " TOTAL PAYMENT: ".toList ++ z)
    (hx : x ≠ [] ∧ ∀ c ∈ x, isNumCh c = true)
    (hy : y ≠ [] ∧ ∀ c ∈ y, isNumCh c = true)
    (hz : z ≠ [] ∧ ∀ c ∈ z, isNumCh c = true) :
    ∃ r, parseHealthcareClaims text = Res.ok [r] ∧ identityFields r = [N, D, C, M] ∧
      serviceFields r = ts ∧ summaryFields r = [x, y, z] := by
  have l0 : lineAt (splitLines text) 0 = anchor := by rw [hlines]; rfl
  have l3 : lineAt (splitLines text) 3 = filler := by rw [hlines]; rfl
  have l4 : lineAt (splitLines text) 4 = svc := by rw [hlines]; rfl
  have l5 : lineAt (splitLines text) 5 = summ := by rw [hlines]; rfl
  have hlen : (splitLines text).length = 6 := by rw [hlines]; rfl
  -- the name inside the normalized anchor line
  have hnorm1 : ∀ c ∈ normalize anchor, isWs c = true → c = ' ' :=
    fun c hc hw => normalize_ws hc hw
  have hchain : NoWsPair (normalize anchor) := normalize_chain anchor
  have eA : normalize anchor = "PATIENT:".toList ++ ([' '] ++ (N ++
      (" PATIENT ID #: ".toList ++ D ++ " PAT CTRL #: ".toList ++ C ++
        " CLM #: ".toList ++ M))) := by
    rw [hanchor]
    simp only [List.append_assoc]
    rfl
  have eB : normalize anchor = "PATIENT: ".toList ++ (N ++ ([' '] ++
      ("PATIENT ID #: ".toList ++ D ++ " PAT CTRL #: ".toList ++ C ++
        " CLM #: ".toList ++ M))) := by
    rw [hanchor]
    simp only [List.append_assoc]
    rfl
  have hNsub : ∀ c ∈ N, c ∈ normalize anchor := by
    intro c hc
    rw [hanchor]
    simp [hc]
  have hNh : ∀ d ∈ N.head?, isWs d = false := by
    have := NoWsPair.after hchain eA (by simp) (by intro c hc; simp at hc; subst hc; decide)
    rwa [head?_append_ne_nil hN.1] at this
  have hNl : ∀ d ∈ N.getLast?, isWs d = false := by
    have := NoWsPair.before hchain eB (by simp) (by intro c hc; simp at hc; subst hc; decide)
    rwa [getLast?_append_ne_nil hN.1] at this
  have hNd : ∀ c ∈ N, isDot c = true :=
    fun c hc => isDot_of_normalized hnorm1 c (hNsub c hc)
  have hmatch : search patientRe (normalize anchor) = some [N, D, C, M] := by
    rw [hanchor]
    exact patient_match hN.1 hN.2 hNd hNh hNl hD.1 hD.2 hC.1
      (fun c hc => by simp [isNonWs, hC.2 c hc]) hM.1 hM.2
  -- the greedy choice
  have t0 : lineTest (splitLines text) 0 = true := by
    unfold lineTest
    rw [l0]
    unfold anchorTest
    have i1 : includes (normalize anchor) "PATIENT:".toList = true :=
      includes_of_inf ⟨[], [' '] ++ (N ++ (" PATIENT ID #: ".toList ++ D ++
        " PAT CTRL #: ".toList ++ C ++ " CLM #: ".toList ++ M)), by rw [eA]; rfl⟩
    have i2 : includes (normalize anchor) "PATIENT ID #:".toList = true :=
      includes_of_inf ⟨"PATIENT: ".toList ++ N ++ [' '],
        [' '] ++ D ++ " PAT CTRL #: ".toList ++ C ++ " CLM #: ".toList ++ M, by
          rw [hanchor]; simp only [List.append_assoc]; rfl⟩
    have i3 : includes (normalize anchor) "PAT CTRL #:".toList = true :=
      includes_of_inf ⟨"PATIENT: ".toList ++ N ++ " PATIENT ID #: ".toList ++ D ++ [' '],
        [' '] ++ C ++ " CLM #: ".toList ++ M, by
          rw [hanchor]; simp only [List.append_assoc]; rfl⟩
    have i4 : includes (normalize anchor) "CLM #:".toList = true :=
      includes_of_inf ⟨"PATIENT: ".toList ++ N ++ " PATIENT ID #: ".toList ++ D ++
        " PAT CTRL #: ".toList ++ C ++ [' '], [' '] ++ M, by
          rw [hanchor]; simp only [List.append_assoc]; rfl⟩
    have i0 : (normalize anchor).isEmpty = false := by
      rw [eA]; rfl
    rw [i0, i1, i2, i3, i4]
    rfl
  have t3 : lineTest (splitLines text) 3 = false := by
    unfold lineTest; rw [l3]; exact hfiller.2
  have t4 : lineTest (splitLines text) 4 = false := by
    unfold lineTest; rw [l4]; exact hsvc.2.2.2
  have t5 : lineTest (splitLines text) 5 = false := by
    unfold lineTest
    rw [l5]
    cases hA : anchorTest (normalize summ) with
    | false => rfl
    | true =>
      exfalso
      simp only [anchorTest, Bool.and_eq_true] at hA
      have hI : 'I' ∈ normalize summ := includes_mem hA.1.1.1.2 (by decide)
      rw [hsumm.2] at hI
      simp only [List.mem_append] at hI
      have hnum : ∀ (w : Str), (∀ c ∈ w, isNumCh c = true) → 'I' ∉ w := by
        intro w hw hIw
        have := hw _ hIw
        revert this
        decide
      rcases hI with ((((hI | hI) | hI) | hI) | hI) | hI
      · revert hI; decide
      · exact hnum x hx.2 hI
      · revert hI; decide
      · exact hnum y hy.2 hI
      · revert hI; decide
      · exact hnum z hz.2 hI
  have f0 : Fresh (splitLines text) 0 := Or.inl rfl
  obtain ⟨c1, c2, f3⟩ := f0.skip t0
  have c0 : chosen (splitLines text) 0 = true := by rw [f0.chosen_eq, t0]
  have c3 : chosen (splitLines text) 3 = false := by rw [f3.chosen_eq, t3]
  have f4 := f3.next t3
  have c4 : chosen (splitLines text) 4 = false := by rw [f4.chosen_eq, t4]
  have f5 := f4.next t4
  have c5 : chosen (splitLines text) 5 = false := by rw [f5.chosen_eq, t5]
  have hanch : anchors (splitLines text) = [0] := by
    unfold anchors
    rw [hlen]
    simp [List.range_succ, List.filter_cons, c0, c1, c2, c3, c4, c5]
  -- the scan returns one record
  obtain ⟨rs, hrs⟩ := @parse_total text (by rw [hlen]; exact c5)
  have hf := parse_sound hrs
  rw [hanch] at hf
  obtain ⟨r, hr, rfl⟩ : ∃ r, recordAt (splitLines text) 0 = Res.ok r ∧ rs = [r] := by
    cases hf with
    | cons h1 h2 =>
      cases h2
      exact ⟨_, h1, rfl⟩
  refine ⟨r, hrs, ?_⟩
  -- the record
  obtain ⟨r1, hr1, hsum, hserv, hid⟩ := @recordAt_forward (splitLines text) 0
    4 (by omega) (by omega) (by rw [l4]; exact hsvc.1)
    (fun j h1 h2 => by
      have : j = 3 := by omega
      subst this
      rw [l3]
      exact hfiller.1)
  rw [hr] at hr1
  cases hr1
  refine ⟨?_, ?_, ?_⟩
  · rw [hid, l0]
    simp only [setPatient, hmatch, identityFields, trim_self hNh hNl]
  · rw [hserv, l4, hsvc.2.1]
    exact List.take_of_length_le (by rw [hsvc.2.2.1])
  · have hfirst := summaryLoop_first (splitLines text)
      (min (4 + 5) (splitLines text).length - (4 + 1)) (4 + 1)
      (setService (claimHead (splitLines text) 0 (normalize (lineAt (splitLines text) 0)))
        (serviceParts (lineAt (splitLines text) 4))) 5 (by omega) (by rw [hlen]; decide)
      (by rw [hlen]; decide) (by rw [l5]; exact hsumm.1) (fun j h1 h2 => by omega)
    rw [hfirst] at hsum
    cases hsum
    rw [l5]
    have hm : search patRespRe (normalize summ) = some [x, y, z] := by
      rw [hsumm.2]
      exact patResp_match hx.1 hx.2 hy.1 hy.2 hz.1 hz.2
    simp only [setSummary, hm]
    rfl

/-- C3: end-to-end extraction of a well-formed claim block.  The text has six
lines: the anchor line `PATIENT: N   PATIENT ID #: D   PAT CTRL #: C   CLM #: M`
(`N` a normalized string without colon, `D` and `M` digit runs,
`C` a token), a status line, a provider line, a line that is neither a
service line nor an anchor, a service line of 13 tokens joined by single
spaces that starts with a two-digit token and two 8-digit tokens and is not an
anchor line itself, and the line `PAT RESP: x TOTAL CHARGE: y TOTAL PAYMENT: z`.
The scanner returns exactly one record, with identity fields `N`, `D`, `C`,
`M`, the 13 tokens as service fields and summary fields `x`, `y`, `z`. -/
theorem C3_wellformed_block (text status provider filler : Str)
    (N D C M x y z t0 t1 t2 : Str) (rest : List Str)
    (hlines : splitLines text = [anchorLine N D C M, status, provider, filler,
      unwords (t0 :: t1 :: t2 :: rest), summaryLine x y z])
    (hN : N ≠ [] ∧ normalize N = N ∧ ∀ c ∈ N, c ≠ ':')
    (hD : D ≠ [] ∧ ∀ c ∈ D, isDigit c = true)
    (hC : C ≠ [] ∧ Token C)
    (hM : M ≠ [] ∧ ∀ c ∈ M, isDigit c = true)
    (hfiller : isServiceLine filler = false ∧ anchorTest (normalize filler) = false)
    (ht0 : t0.length = 2 ∧ ∀ c ∈ t0, isDigit c = true)
    (ht1 : t1.length = 8 ∧ ∀ c ∈ t1, isDigit c = true)
    (ht2 : t2.length = 8 ∧ ∀ c ∈ t2, isDigit c = true)
    (hrest : rest.length = 10 ∧ ∀ t ∈ rest, t ≠ [] ∧ Token t)
    (hsvc : anchorTest (normalize (unwords (t0 :: t1 :: t2 :: rest))) = false)
    (hx : x ≠ [] ∧ ∀ c ∈ x, isNumCh c = true)
    (hy : y ≠ [] ∧ ∀ c ∈ y, isNumCh c = true)
    (hz : z ≠ [] ∧ ∀ c ∈ z, isNumCh c = true) :
    ∃ r, parseHealthcareClaims text = Res.ok [r] ∧ identityFields r = [N, D, C, M] ∧
      serviceFields r = t0 :: t1 :: t2 :: rest ∧ summaryFields r = [x, y, z] := by
  have hne : ∀ {t : Str} {n : Nat}, t.length = n + 1 → t ≠ [] := by
    intro t n h e
    rw [e] at h
    simp at h
  have htok : ∀ t ∈ t0 :: t1 :: t2 :: rest, t ≠ [] ∧ Token t := by
    intro t ht
    simp only [List.mem_cons] at ht
    rcases ht with e | e | e | e
    · rw [e]; exact ⟨hne ht0.1, digits_token ht0.2⟩
    · rw [e]; exact ⟨hne ht1.1, digits_token ht1.2⟩
    · rw [e]; exact ⟨hne ht2.1, digits_token ht2.2⟩
    · exact hrest.2 t e
  have hparts := @serviceParts_unwords (t0 :: t1 :: t2 :: rest) (by simp) htok
  have hlen : (t0 :: t1 :: t2 :: rest).length = 13 := by simp [hrest.1]
  have hmatch : serviceMatch (unwords (t0 :: t1 :: t2 :: rest)) = true := by
    obtain ⟨t3, rest1, e⟩ : ∃ t3 rest1, rest = t3 :: rest1 := by
      cases hr : rest with
      | nil => rw [hr] at hrest; simp at hrest
      | cons t3 rest1 => exact ⟨t3, rest1, rfl⟩
    rw [e]
    exact serviceMatch_unwords ht0 ht1 ht2
  have hservice : isServiceLine (unwords (t0 :: t1 :: t2 :: rest)) = true := by
    unfold isServiceLine
    rw [hmatch, hparts, hlen]
    rfl
  exact wellformed_block_normalized text (anchorLine N D C M) status provider filler
    (unwords (t0 :: t1 :: t2 :: rest)) (summaryLine x y z) N D C M x y z
    (t0 :: t1 :: t2 :: rest) hlines
    (normalize_anchor hN.1 (hN.2.1 ▸ spacedWords_normalize N) hD.1 (digits_token hD.2) hC.1 hC.2 hM.1 (digits_token hM.2))
    ⟨hN.1, hN.2.2⟩ hD hC hM hfiller ⟨hservice, hparts, hlen, hsvc⟩
    ⟨includes_of_inf ⟨[], [' '] ++ x ++ " TOTAL CHARGE: ".toList ++ y ++
        " TOTAL PAYMENT: ".toList ++ z, by
          unfold summaryLine
          simp only [List.append_assoc]
          rfl⟩,
      normalize_summary hx.1 (numch_token hx.2) hy.1 (numch_token hy.2) hz.1
        (numch_token hz.2)⟩
    hx hy hz

theorem C3_wellformed_block_witness :
    ∃ r, parseHealthcareClaims specScenario = Res.ok [r] ∧
      identityFields r = ["JOHN SMITH".toList, "1234567800".toList, "CLM00102102".toList,
        "2025007654321".toList] ∧
      serviceFields r = tokensA ∧
      summaryFields r = ["0.00".toList, "150.00".toList, "140.00".toList] :=
  C3_wellformed_block specScenario statusDenied providerBlank "LINE DOS CODE".toList
    "JOHN SMITH".toList "1234567800".toList "CLM00102102".toList "2025007654321".toList
    "0.00".toList "150.00".toList "140.00".toList
    "01".toList "20250101".toList "20250105".toList
    ["99213".toList, "25".toList, "150.00".toList, "1".toList, "CO".toList, "45".toList,
      "10.00".toList, "1".toList, "1".toList, "140.00".toList]
    (by decide) (by decide) (by decide) (by decide) (by decide) (by decide) (by decide)
    (by decide) (by decide) (by decide) (by decide) (by decide) (by decide) (by decide)

/-! ## The claims on the serializer -/

/-- C8: for every non-empty sequence of records the output begins with the
header row: the 25 fixed column names joined by commas, unquoted, followed by
CRLF; splitting that line on the comma gives the 25 names. -/
theorem C8_header_row (records : List Claim) (h : records ≠ []) :
    (∃ rest, convertToCSV records =
      ("Patient Name,Patient ID,Patient Control Number,Claim Number,Claim Status," ++
       "Claim Type,Auth/Ref Number,Rendering Provider,Rendering Provider ID,Line Item," ++
       "DOS Start Date,DOS End Date,Procedure Code,Modifier,Charge,NBR,Group Code," ++
       "Adj Reason,Adj Amount,Adj Qty,PD Qty,Payment,Patient Responsibility," ++
       "Total Charge,Total Payment").toList ++ ['\r', '\n'] ++ rest) ∧
    List.splitOn ','
      ("Patient Name,Patient ID,Patient Control Number,Claim Number,Claim Status," ++
       "Claim Type,Auth/Ref Number,Rendering Provider,Rendering Provider ID,Line Item," ++
       "DOS Start Date,DOS End Date,Procedure Code,Modifier,Charge,NBR,Group Code," ++
       "Adj Reason,Adj Amount,Adj Qty,PD Qty,Payment,Patient Responsibility," ++
       "Total Charge,Total Payment").toList = headers ∧
    headers.length = 25 := by
  refine ⟨⟨(records.map fun r => csvLine (rowOf r)).flatten, ?_⟩, by decide, rfl⟩
  rw [convertToCSV_eq h, csvLine_headers]
  rfl

theorem C8_header_row_witness :
    (∃ rest, convertToCSV [specRecord] =
      ("Patient Name,Patient ID,Patient Control Number,Claim Number,Claim Status," ++
       "Claim Type,Auth/Ref Number,Rendering Provider,Rendering Provider ID,Line Item," ++
       "DOS Start Date,DOS End Date,Procedure Code,Modifier,Charge,NBR,Group Code," ++
       "Adj Reason,Adj Amount,Adj Qty,PD Qty,Payment,Patient Responsibility," ++
       "Total Charge,Total Payment").toList ++ ['\r', '\n'] ++ rest) ∧
    List.splitOn ','
      ("Patient Name,Patient ID,Patient Control Number,Claim Number,Claim Status," ++
       "Claim Type,Auth/Ref Number,Rendering Provider,Rendering Provider ID,Line Item," ++
       "DOS Start Date,DOS End Date,Procedure Code,Modifier,Charge,NBR,Group Code," ++
       "Adj Reason,Adj Amount,Adj Qty,PD Qty,Payment,Patient Responsibility," ++
       "Total Charge,Total Payment").toList = headers ∧
    headers.length = 25 :=
  C8_header_row [specRecord] (by simp)

/-- C9: for a non-empty sequence of records the output is the header, CRLF,
then for each record in input order the comma-join of `escapeCSV` applied to
its 25 fields in the fixed order, each row followed by CRLF. -/
theorem C9_rows_in_order (records : List Claim) (h : records ≠ []) :
    convertToCSV records =
      List.intercalate [','] headers ++ ['\r', '\n'] ++
        (records.map fun r =>
          List.intercalate [',']
            ([r.patientName, r.patientId, r.patientControlNumber, r.claimNumber,
              r.claimStatus, r.claimType, r.authRefNumber, r.renderingProvider,
              r.renderingProviderId, r.lineItem, r.dosStartDate, r.dosEndDate,
              r.procedureCode, r.modifier, r.charge, r.nbr, r.grpCd, r.adjRsn, r.adjAmt,
              r.adjQty, r.pdQty, r.payment, r.patientResponsibility, r.totalCharge,
              r.totalPayment].map fun f => escapeCSV (some f)) ++ ['\r', '\n']).flatten := by
  rw [convertToCSV_eq h]
  have e : csvLine headers = List.intercalate [','] headers ++ ['\r', '\n'] := by
    rw [← joinComma_eq]
    rfl
  have e2 : ∀ r : Claim, csvLine (rowOf r) =
      List.intercalate [',']
        ([r.patientName, r.patientId, r.patientControlNumber, r.claimNumber,
          r.claimStatus, r.claimType, r.authRefNumber, r.renderingProvider,
          r.renderingProviderId, r.lineItem, r.dosStartDate, r.dosEndDate,
          r.procedureCode, r.modifier, r.charge, r.nbr, r.grpCd, r.adjRsn, r.adjAmt,
          r.adjQty, r.pdQty, r.payment, r.patientResponsibility, r.totalCharge,
          r.totalPayment].map fun f => escapeCSV (some f)) ++ ['\r', '\n'] := by
    intro r
    rw [← joinComma_eq]
    rfl
  rw [e]
  simp only [e2]

theorem C9_rows_in_order_witness :
    convertToCSV [specRecord, badIdRecord] =
      List.intercalate [','] headers ++ ['\r', '\n'] ++
        ([specRecord, badIdRecord].map fun r =>
          List.intercalate [',']
            ([r.patientName, r.patientId, r.patientControlNumber, r.claimNumber,
              r.claimStatus, r.claimType, r.authRefNumber, r.renderingProvider,
              r.renderingProviderId, r.lineItem, r.dosStartDate, r.dosEndDate,
              r.procedureCode, r.modifier, r.charge, r.nbr, r.grpCd, r.adjRsn, r.adjAmt,
              r.adjQty, r.pdQty, r.payment, r.patientResponsibility, r.totalCharge,
              r.totalPayment].map fun f => escapeCSV (some f)) ++ ['\r', '\n']).flatten :=
  C9_rows_in_order [specRecord, badIdRecord] (by simp)

/-- C10: the escaping rule.  A value with a comma, a double quote or a line
feed becomes a double quote, the value with every double quote doubled, and a
double quote; any other value is unchanged, the empty string included; an
absent value becomes the empty string. -/
theorem C10_escape_rule (v : Str) :
    escapeCSV (some v) =
      (if ',' ∈ v ∨ '"' ∈ v ∨ '\n' ∈ v then
        ['"'] ++ (v.flatMap fun c => if c = '"' then ['"', '"'] else [c]) ++ ['"']
      else v) ∧
    escapeCSV (some []) = [] ∧ escapeCSV none = [] := by
  refine ⟨?_, rfl, rfl⟩
  rw [escapeCSV_some]
  by_cases hn : needsQuotes v = true
  · have h1 := (needsQuotes_iff v).1 hn
    rw [if_pos hn, if_pos (by tauto), doubleQuotes_eq]
    rfl
  · have h1 : ¬(',' ∈ v ∨ '"' ∈ v ∨ '\n' ∈ v) := by
      intro h2
      exact hn ((needsQuotes_iff v).2 (by tauto))
    rw [if_neg hn, if_neg h1]

/-- C11: round trip.  For every non-empty sequence of records with arbitrary
field values, re-splitting the output of `convertToCSV` by the escaping rule
gives the header row followed by the 25 original field values of each
record, in order. -/
theorem C11_round_trip (records : List Claim) (h : records ≠ []) :
    resplitCSV (convertToCSV records) = headers :: records.map rowOf := by
  rw [convertToCSV_eq h]
  have e : csvLine headers ++ (records.map fun r => csvLine (rowOf r)).flatten =
      ((headers :: records.map rowOf).map csvLine).flatten := by
    simp [List.map_map, Function.comp_def]
  rw [e]
  apply resplit_lines
  intro row hrow
  rcases List.mem_cons.1 hrow with e1 | e1
  · rw [e1]
    exact headers_ne_nil
  · obtain ⟨r, _, rfl⟩ := List.mem_map.1 e1
    exact rowOf_ne_nil r

theorem C11_round_trip_witness :
    resplitCSV (convertToCSV [{ specRecord with renderingProvider := trickyField }]) =
      headers :: [{ specRecord with renderingProvider := trickyField }].map rowOf :=
  C11_round_trip [{ specRecord with renderingProvider := trickyField }] (by simp)

/-! ## Scanner output and the serializer -/

/-- C20: the output of the scanner is line-safe for the serializer.  Every
record returned has a name made of words separated by single spaces and 24
other fields without any white space; hence, when at least one record is
returned, the serialized table is `records.length + 1` stretches free of CR
and LF, each followed by CRLF. -/
theorem C20_scanner_output_line_safe (text : Str) (rs : List Claim)
    (h : parseHealthcareClaims text = Res.ok rs) :
    (∀ r ∈ rs, SpacedWords r.patientName ∧ ∀ f ∈ (rowOf r).tail, Token f) ∧
    (rs ≠ [] → ∃ segs : List Str, segs.length = rs.length + 1 ∧
      (∀ seg ∈ segs, '\r' ∉ seg ∧ '\n' ∉ seg) ∧
      convertToCSV rs = (segs.map fun seg => seg ++ ['\r', '\n']).flatten) := by
  have hsafe := parse_safe h
  refine ⟨hsafe, ?_⟩
  intro hne
  refine ⟨joinComma (headers.map fun f => escapeCSV (some f)) ::
    rs.map (fun r => joinComma ((rowOf r).map fun f => escapeCSV (some f))), ?_, ?_, ?_⟩
  · simp
  · intro seg hseg
    rcases List.mem_cons.1 hseg with e | e
    · rw [e]
      decide
    · obtain ⟨r, hr, rfl⟩ := List.mem_map.1 e
      exact row_no_break (RecordSafe.no_break (hsafe r hr))
  · rw [convertToCSV_eq hne]
    simp [csvLine, crlf, List.map_map, Function.comp_def]

theorem C20_scanner_output_line_safe_witness :
    (∀ r ∈ [specRecord], SpacedWords r.patientName ∧ ∀ f ∈ (rowOf r).tail, Token f) ∧
    ([specRecord] ≠ [] → ∃ segs : List Str, segs.length = [specRecord].length + 1 ∧
      (∀ seg ∈ segs, '\r' ∉ seg ∧ '\n' ∉ seg) ∧
      convertToCSV [specRecord] = (segs.map fun seg => seg ++ ['\r', '\n']).flatten) :=
  C20_scanner_output_line_safe specScenario [specRecord] (by decide)

end PdfCsv
